import Mathlib

/-! Learned-quantization (LQ) codec and fully-connected kernel.

A shallow embedding of

* `compiler/lquantizer/src/LQBinarizer.cpp` (training-time codec),
* `compiler/luci-interpreter/src/kernels/LQBinarizer.cpp` (inference-time codec),
* `compiler/luci-interpreter/src/kernels/LQFullyConnected.cpp` (the kernel),
* `compiler/lquantizer/src/QunatizationErrorMinimzation.cpp` (the optimizer `QEM`),
* `compiler/lquantizer/src/QuantizationObservers.cpp` (the observer),
* `compiler/lquantizer/src/DataGenerator.cpp` and `DataGenerator.h` (the record source),
* `compiler/circle-execution-plan/src/ExecutionPlanner.h` (the records of the memory
  planner; the planner itself is modelled from its specification),
* `compiler/luci/lang/include/luci/IR/Nodes/CircleLQFullyConnected.h` (the LQ node),
* `compiler/lquantizer/src/Quantizer.cpp` (the LQ prototype of a fully connected node and
  the binding of the FP graph with the LQ graph),

followed by theorems about the embedded functions.

Conventions of the embedding.

* `float` values are elements of a linearly ordered field `α` (exact arithmetic);
  every concrete evaluation is done over `ℚ`.
* An `int32_t` word of a bit-plane buffer is represented by its two's complement bit
  pattern, a natural number below `2 ^ 32`; bit `k` of the word is `Nat.testBit w k`.
* `int32_t` arithmetic whose result can leave the 32-bit range for inputs the code
  accepts is wrapped explicitly with `wrapS32`.  Sizes and loop indices are natural
  numbers; encodings (non-negative `int32_t` values) are natural numbers.
* A pointer into a buffer is the buffer with the leading elements dropped; reading a
  list outside its bounds yields `0`, writing outside its bounds does nothing.
* An array that a loop fills front to back is the list of the values written.
* `std::make_unique<T[]>(n)` with a negative `int32_t` length `n` throws
  (`std::bad_array_new_length`); memory is otherwise unbounded.
* `std::sort` is a stable insertion sort (`List.insertionSort`).
* A call with undefined behaviour (a shift by 32 or more bits, `std::sort` on a range that
  ends before it begins) is a failure of its own kind, `Error.undefined`.
* `uint32_t` products that index an array are reduced modulo `2^32` with `wrapU32`.
* An array that an object borrows through a pointer and updates in place is a field of the
  object; the owner takes the updated array back when the object has finished.
* A `std::unordered_map` keyed by nodes is the list of its entries; a node is its address,
  a natural number.
* A graph is the list of the nodes it owns, a node being a record of the members that
  the quantizer reads and writes; the address of a node is its position in the list and
  the null pointer is `none`.  A failed `assert` and a thrown exception are failures of
  the call.
* The `assert` of the training-time constructor on the vector length is a failure of the
  call; the `assert` of `unpack_binary` on the size of its buffer is a hypothesis of the
  statements about it.
-/

namespace LQ

/-! # Part I: definitions -/

/-! ## Machine integers -/

/-- Two's complement wrap of an integer into the `int32_t` range `[-2^31, 2^31)`. -/
def wrapS32 (x : Int) : Int := (x + 2147483648) % 4294967296 - 2147483648

/-- The C expression `x << k` on `int32_t` operands, for a shift count `k < 32`:
the product `x * 2^k` converted back to `int32_t`. -/
def shl32 (x : Int) (k : Nat) : Int := wrapS32 (x * 2 ^ k)

/-- The bitwise complement `~w` of a 32-bit word, on bit patterns. -/
def not32 (w : Nat) : Nat := w ^^^ 4294967295

/-- The builtin `__builtin_popcount`: the number of set bits among the 32 bits of a word. -/
def popcount32 (w : Nat) : Nat := (List.range 32).countP (fun k => w.testBit k)

/-- `ceil_div` of `lquantizer/src/LQBinarizer.cpp`:
`(num + denom - 1) / denom` in `int32_t` arithmetic (C division truncates); every call
passes the denominator `32`, so the `assert(denom > 0)` holds.  The kernel calls a
function of the same name from `kernels/Utils.h`, which is taken to be this one. -/
def ceil_div (num denom : Int) : Int :=
  wrapS32 ((wrapS32 (wrapS32 (num + denom) - 1)).tdiv denom)

/-- `calcOffset` of `lquantizer/src/LQBinarizer.cpp` for a rank-2 shape whose second
dimension is `dim1`: `d0 * shape.dim(1) + d1`.  The kernel calls a function of the same
name from `kernels/Utils.h`, which is taken to be this one. -/
def calcOffset (dim1 d0 d1 : Nat) : Nat := d0 * dim1 + d1

/-- Failures of the embedded code. -/
inductive Error where
  /-- An `assert` does not hold. -/
  | assertion
  /-- An allocation with a negative length (`std::bad_array_new_length`). -/
  | bad_alloc
  /-- `LUCI_INTERPRETER_CHECK` failed or another `std::runtime_error` was thrown. -/
  | runtime_error
  /-- The call has undefined behaviour. -/
  | undefined
  deriving DecidableEq, Repr

/-- `memset(p, 0, n * sizeof(int32_t))`: the first `n` words of the buffer become `0`. -/
def memset0 (buf : List Nat) (n : Nat) : List Nat := List.replicate n 0 ++ buf.drop n

/-! ## The popcount dot product of the kernel -/

/-- The lambda `bin_dot` of `LQFullyConnected::evalFloat`.
`positives` starts at `hidden_size - (real_size << 5)`, every word adds
`popcount(~(data_1[i] ^ data_2[i]))`, and the result is `(positives << 1) - hidden_size`. -/
def bin_dot (hidden_size real_size : Int) (data_1 data_2 : List Nat) : Int :=
  let positives0 := wrapS32 (hidden_size - shl32 real_size 5)
  let positives := (List.range real_size.toNat).foldl
    (fun positives i =>
      wrapS32 (positives + (popcount32 (not32 (data_1.getD i 0 ^^^ data_2.getD i 0)) : Int)))
    positives0
  wrapS32 (shl32 positives 1 - hidden_size)

/-- Bit `j` of a packed plane: bit `j & 31` of word `j >> 5`. -/
def planeBit (A : List Nat) (j : Nat) : Bool := (A.getD (j / 32) 0).testBit (j % 32)

/-- A length-`H` sign vector `a` (entries `+1` / `-1`) is packed into the words `A` with
zero tail padding: for every position `j` below `32 * ceil(H/32)`, bit `j & 31` of word
`j >> 5` is set exactly when `j < H` and `a j = +1`. -/
def PackedSigns (H : Nat) (a : Nat → Int) (A : List Nat) : Prop :=
  ∀ j, j < 32 * ((H + 31) / 32) →
    ((A.getD (j / 32) 0).testBit (j % 32) = true ↔ (j < H ∧ a j = 1))

/-! ## The codec: level and threshold tables -/

/-- `Level = std::pair<float, int32_t>`: the value of a level and its encoding. -/
abbrev Level (α : Type) := α × Nat

section Codec

variable {α : Type} [LinearOrderedField α]

/-- The inner loop of the constructor for level `i`:
`value += ((i >> b) & 1) ? scales[b] : -scales[b]` for `b = 0 .. encode_bits - 1`,
starting from `0.0f`. -/
def level_value (scales : List α) (encode_bits : Nat) (i : Nat) : α :=
  (List.range encode_bits).foldl
    (fun value b => value + (if (i >>> b) &&& 1 ≠ 0 then scales.getD b 0 else -scales.getD b 0))
    0

/-- The loop `init quantization levels`: entry `i` is `{value, i}`. -/
def init_levels (scales : List α) (encode_bits : Nat) (levels_count : Nat) : List (Level α) :=
  (List.range levels_count).map (fun i => (level_value scales encode_bits i, i))

/-- The call `std::sort(levels + 1, levels + levels_count - 1, sorter)` with
`sorter(lhs, rhs) = lhs.first < rhs.first`: the first and the last entry stay where they
are and the entries between them are sorted by value. -/
def sort_levels (levels : List (Level α)) : List (Level α) :=
  match levels with
  | [] => []
  | first :: rest =>
    first :: (List.insertionSort (fun lhs rhs => lhs.1 ≤ rhs.1) rest.dropLast
      ++ rest.getLast?.toList)

/-- The loop `compute quantization thresholds via sorted levels`:
`thresholds[0] = lowest` and `thresholds[i] = (levels[i-1].first + levels[i].first) / 2`
for `1 ≤ i < levels_count`. -/
def init_thresholds (lowest : α) (levels : List (Level α)) (levels_count : Nat) : List α :=
  lowest :: (List.range (levels_count - 1)).map
    (fun j => ((levels.getD j (0, 0)).1 + (levels.getD (j + 1) (0, 0)).1) / 2)

/-- The `while (left < right)` loop of `bin_search_encoding`; `fuel` bounds the number
of iterations. -/
def bin_search_loop (thresholds : List α) (value : α) : Nat → Nat → Nat → Nat
  | 0, left, _ => left
  | fuel + 1, left, right =>
    if left < right then
      let middle := (left + right + 1) >>> 1
      if thresholds.getD middle 0 < value then
        bin_search_loop thresholds value fuel middle right
      else
        bin_search_loop thresholds value fuel left (middle - 1)
    else left

/-- The body of `bin_search_encoding` on the tables of a codec: binary search for the
level index, then the encoding stored there.  The loop needs at most `levels_count`
iterations, which is the fuel given. -/
def bin_search (levels_count : Int) (levels : List (Level α)) (thresholds : List α)
    (value : α) : Nat :=
  let left := 0
  let right := (levels_count - 1).toNat
  let left := bin_search_loop thresholds value levels_count.toNat left right
  (levels.getD left (0, 0)).2

/-- The packing loop of `quantize_and_pack` for one value at position `i`:
`data_binary[calcOffset(shape, b, idx)] |= ((encoding >> b) & 1) << offset`
for every plane `b`. -/
def pack_value (encode_bits data_bin_size : Nat) (buf : List Nat) (i encoding : Nat) :
    List Nat :=
  let idx := i >>> 5
  let offset := i &&& 31
  (List.range encode_bits).foldl
    (fun buf b =>
      buf.set (calcOffset data_bin_size b idx)
        (buf.getD (calcOffset data_bin_size b idx) 0 ||| (((encoding >>> b) &&& 1) <<< offset)))
    buf

end Codec

/-! ## The training-time codec `lquantizer::LQBinarizer` -/

namespace lquantizer

/-- The data members of `lquantizer::LQBinarizer`. `scales` is the borrowed array. -/
structure LQBinarizer (α : Type) where
  data_float_size : Nat
  data_bin_size : Nat
  encode_bits : Nat
  data_binary : List Nat
  levels_count : Int
  quantization_levels : List (Level α)
  quantization_thresholds : List α
  scales : List α

variable {α : Type} [LinearOrderedField α]

/-- The constructor `LQBinarizer::LQBinarizer(data_vec_size, data_scales, bits_per_value)`.
`lowest` is `std::numeric_limits<float>::lowest()`.  The shift `1 << encode_bits` is
undefined for 32 bits or more, and `std::sort(levels + 1, levels + levels_count - 1)` is
undefined for fewer than two levels. -/
def LQBinarizer.new (lowest : α) (data_vec_size : Nat) (data_scales : List α)
    (bits_per_value : Nat) : Except Error (LQBinarizer α) :=
  if data_vec_size = 0 then .error .assertion
  else
    let data_float_size := data_vec_size
    let data_bin_size := ceil_div data_float_size 32
    let encode_bits := bits_per_value
    if 32 ≤ encode_bits then .error .undefined
    else
      -- count of different levels is 2^(encode_bits)
      let levels_count := shl32 1 encode_bits
      -- allocate buffers
      let data_binary_size := wrapS32 (data_bin_size * encode_bits)
      if data_binary_size < 0 ∨ levels_count < 0 then .error .bad_alloc
      else if levels_count < 2 then .error .undefined
      else
        let levels := sort_levels (init_levels data_scales encode_bits levels_count.toNat)
        .ok {
          data_float_size := data_float_size
          data_bin_size := data_bin_size.toNat
          encode_bits := encode_bits
          data_binary := List.replicate data_binary_size.toNat 0
          levels_count := levels_count
          quantization_levels := levels
          quantization_thresholds := init_thresholds lowest levels levels_count.toNat
          scales := data_scales }

/-- The method `LQBinarizer::bin_search_encoding`. -/
def LQBinarizer.bin_search_encoding (c : LQBinarizer α) (value : α) : Nat :=
  bin_search c.levels_count c.quantization_levels c.quantization_thresholds value

/-- The method `LQBinarizer::quantize_and_pack`: clear the bit-plane buffer, then encode
and pack every value of `data_vector`. -/
def LQBinarizer.quantize_and_pack (c : LQBinarizer α) (data_vector : List α) :
    LQBinarizer α :=
  let cleared := memset0 c.data_binary (c.encode_bits * c.data_bin_size)
  { c with
    data_binary := (List.range c.data_float_size).foldl
      (fun buf i =>
        let encoding := c.bin_search_encoding (data_vector.getD i 0)
        pack_value c.encode_bits c.data_bin_size buf i encoding)
      cleared }

/-- The method `LQBinarizer::unpack_binary`: one signed byte per bit,
`bits[b] = (bit_value == 1) ? 1 : -1` at index `i * encode_bits + b`.  The method asserts
`buffer.size() == encode_bits * data_float_size`. -/
def LQBinarizer.unpack_binary (c : LQBinarizer α) (buffer : List Int) : List Int :=
  (List.range c.data_float_size).foldl
    (fun buffer i =>
      let idx := i >>> 5
      let offset := i &&& 31
      (List.range c.encode_bits).foldl
        (fun buffer b =>
          let bit_value := (c.data_binary.getD (b * c.data_bin_size + idx) 0 >>> offset) &&& 1
          buffer.set (i * c.encode_bits + b) (if bit_value = 1 then 1 else -1))
        buffer)
    buffer

/-- The bit `bit(B, b, i)` of value `i` in plane `b` of the packed buffer, read the way
`unpack_binary` reads it: `(data_binary[b * data_bin_size + (i >> 5)] >> (i & 31)) & 1`. -/
def LQBinarizer.bit (c : LQBinarizer α) (b i : Nat) : Nat :=
  (c.data_binary.getD (b * c.data_bin_size + (i >>> 5)) 0 >>> (i &&& 31)) &&& 1

/-- The method `LQBinarizer::dequantize(bins, data, size)`:
`data[i] = 0` and then `data[i] += float(bins[i * encode_bits + b]) * scales[b]`. -/
def LQBinarizer.dequantize (c : LQBinarizer α) (bins : List Int) (data : List α)
    (size : Nat) : List α :=
  (List.range size).foldl
    (fun data i =>
      (List.range c.encode_bits).foldl
        (fun data b =>
          data.set i (data.getD i 0 + (bins.getD (i * c.encode_bits + b) 0 : α) * c.scales.getD b 0))
        (data.set i 0))
    data

/-- The reconstruction `dequantize(unpack(quantize(x)))` of a vector `x`: quantize and
pack, unpack the planes into a fresh sign buffer of `encode_bits * data_float_size`
bytes, dequantize all `data_float_size` values into a fresh vector. -/
def LQBinarizer.reconstruct (c : LQBinarizer α) (x : List α) : List α :=
  let q := c.quantize_and_pack x
  let bins := q.unpack_binary (List.replicate (q.encode_bits * q.data_float_size) 0)
  q.dequantize bins (List.replicate q.data_float_size 0) q.data_float_size

end lquantizer

/-! ## Tensors -/

/-- The element types of `luci_interpreter::DataType` that the kernel distinguishes. -/
inductive DataType where
  | FLOAT32 | S32 | U8 | S8 | S16 | S64 | BOOL
  deriving DecidableEq, Repr

/-- A `luci_interpreter::Tensor`: element type, shape, and the data buffer seen through
`getTensorData<float>` (`float_data`) and through `getTensorData<int32_t>` (`int_data`,
words as bit patterns). -/
structure Tensor (α : Type) where
  element_type : DataType
  shape : List Nat
  float_data : List α
  int_data : List Nat

/-- `Shape::num_dims`. -/
def Tensor.num_dims {α : Type} (t : Tensor α) : Nat := t.shape.length

/-- `Shape::dim`; `0` for an index that is not below the rank. -/
def Tensor.dim {α : Type} (t : Tensor α) (i : Nat) : Nat := t.shape.getD i 0

/-- `Shape::num_elements`: the product of the dimensions. -/
def Tensor.num_elements {α : Type} (t : Tensor α) : Nat := t.shape.prod

/-! ## The inference-time codec `luci_interpreter::kernels::LQBinarizer` -/

namespace kernels

/-- The data members of `kernels::LQBinarizer`. -/
structure LQBinarizer (α : Type) where
  data_float_size : Nat
  data_bin_size : Nat
  encode_bits : Nat
  data_binary : List Nat
  levels_count : Int
  quantization_levels : List (Level α)
  quantization_thresholds : List α

variable {α : Type} [LinearOrderedField α]

/-- The constructor `LQBinarizer::LQBinarizer(data_vec_size, data_scales)`; the number of
bits is the first dimension of the scales tensor.
`lowest` is `std::numeric_limits<float>::lowest()`.  The shift `1 << encode_bits` is
undefined for 32 bits or more, and `std::sort(levels + 1, levels + levels_count - 1)` is
undefined for fewer than two levels. -/
def LQBinarizer.new (lowest : α) (data_vec_size : Nat) (data_scales : Tensor α) :
    Except Error (LQBinarizer α) :=
  let data_float_size := data_vec_size
  let data_bin_size := ceil_div data_float_size 32
  let encode_bits := data_scales.dim 0
  if 32 ≤ encode_bits then .error .undefined
  else
    -- count of different levels is 2^(encode_bits)
    let levels_count := shl32 1 encode_bits
    -- allocate buffers
    let data_binary_size := wrapS32 (data_bin_size * encode_bits)
    if data_binary_size < 0 ∨ levels_count < 0 then .error .bad_alloc
    else if levels_count < 2 then .error .undefined
    else
      let scales := data_scales.float_data
      let levels := sort_levels (init_levels scales encode_bits levels_count.toNat)
      .ok {
        data_float_size := data_float_size
        data_bin_size := data_bin_size.toNat
        encode_bits := encode_bits
        data_binary := List.replicate data_binary_size.toNat 0
        levels_count := levels_count
        quantization_levels := levels
        quantization_thresholds := init_thresholds lowest levels levels_count.toNat }

/-- The method `LQBinarizer::bin_search_encoding`. -/
def LQBinarizer.bin_search_encoding (c : LQBinarizer α) (value : α) : Nat :=
  bin_search c.levels_count c.quantization_levels c.quantization_thresholds value

/-- The method `LQBinarizer::quantize_and_pack`: clear the bit-plane buffer, then encode
and pack every value of `data_vector`. -/
def LQBinarizer.quantize_and_pack (c : LQBinarizer α) (data_vector : List α) :
    LQBinarizer α :=
  let cleared := memset0 c.data_binary (c.encode_bits * c.data_bin_size)
  { c with
    data_binary := (List.range c.data_float_size).foldl
      (fun buf i =>
        let encoding := c.bin_search_encoding (data_vector.getD i 0)
        pack_value c.encode_bits c.data_bin_size buf i encoding)
      cleared }

/-! ## The kernel `luci_interpreter::kernels::LQFullyConnected` -/

/-- `LQFullyConnectedParams`: the fused activation, given by the scalar function it
applies, and `hidden_size`. -/
structure LQFullyConnectedParams (α : Type) where
  activation : α → α
  hidden_size : Int

/-- The kernel object: its five inputs (`bias` may be null), its output, its
parameters, and the scratch codec `input_binary` (null until `configure`). -/
structure LQFullyConnected (α : Type) where
  input : Tensor α
  input_scales : Tensor α
  weights_scales : Tensor α
  weights_binary : Tensor α
  bias : Option (Tensor α)
  output : Tensor α
  params : LQFullyConnectedParams α
  input_binary : Option (LQBinarizer α)

/-- Modelled from the spec: `LUCI_INTERPRETER_CHECK` (kernels/Utils.h, not among the
sources) surfaces an invariant violation to the caller: it throws when the condition
does not hold. -/
def LUCI_INTERPRETER_CHECK (cond : Bool) : Except Error Unit :=
  if cond then .ok () else .error .runtime_error

/-- Modelled from the spec: `computeActivationInplace` (kernels/Utils.h, not among the
sources) applies the fused activation in place to the first `n` elements of `data`. -/
def computeActivationInplace (act : α → α) (data : List α) (n : Nat) : List α :=
  (data.take n).map act ++ data.drop n

/-- `Tensor::resize`: the tensor takes the new shape. -/
def resize (t : Tensor α) (shape : List Nat) : Tensor α := { t with shape := shape }

/-- The method `LQFullyConnected::configure`. -/
def LQFullyConnected.configure (lowest : α) (k : LQFullyConnected α) :
    Except Error (LQFullyConnected α) := do
  -- check data types
  LUCI_INTERPRETER_CHECK (k.input.element_type = DataType.FLOAT32)
  LUCI_INTERPRETER_CHECK (k.input_scales.element_type = DataType.FLOAT32)
  LUCI_INTERPRETER_CHECK (k.weights_scales.element_type = DataType.FLOAT32)
  LUCI_INTERPRETER_CHECK (k.weights_binary.element_type = DataType.S32)
  LUCI_INTERPRETER_CHECK (k.output.element_type = DataType.FLOAT32)
  LUCI_INTERPRETER_CHECK
    (match k.bias with
     | none => true
     | some bias => decide (bias.element_type = DataType.FLOAT32))
  -- check weights valid
  LUCI_INTERPRETER_CHECK (k.weights_scales.num_dims = 2)
  LUCI_INTERPRETER_CHECK (k.weights_binary.num_dims = 3)
  LUCI_INTERPRETER_CHECK
    (match k.bias with
     | none => true
     | some bias => decide (bias.num_elements = k.weights_binary.dim 0))
  LUCI_INTERPRETER_CHECK (k.weights_binary.dim 0 = k.weights_scales.dim 0)
  LUCI_INTERPRETER_CHECK (k.weights_binary.dim 1 = k.weights_scales.dim 1)
  LUCI_INTERPRETER_CHECK ((k.weights_binary.dim 2 : Int) = ceil_div k.params.hidden_size 32)
  -- encoding lens should be less than 32
  LUCI_INTERPRETER_CHECK (k.input_scales.dim 0 < 32)
  LUCI_INTERPRETER_CHECK (k.weights_scales.dim 1 < 32)
  -- check multiplication is possible
  LUCI_INTERPRETER_CHECK (k.input.num_dims = 2)
  LUCI_INTERPRETER_CHECK ((k.input.dim 1 : Int) = k.params.hidden_size)
  -- output tensor init
  let batches := k.input.dim 0
  let output_vec_size := k.weights_binary.dim 0
  let output := resize k.output [batches, output_vec_size]
  -- input binary init
  let input_binary ← LQBinarizer.new lowest (k.input.dim 1) k.input_scales
  pure { k with output := output, input_binary := some input_binary }

/-- The accumulation of `output_total` for one output index in `evalFloat`:
`output_total += inp_s * w_s * bin_dot(inp_bin_line, w_bin_line)` over all pairs of
an input plane `bi` and a weight plane `bw`. -/
def output_total (hidden_size : Int) (real_size : Nat)
    (input_encode_bits weights_encode_bits : Nat)
    (input_scales_data weight_scales_data : List α)
    (input_binary_data weights_binary_data : List Nat) (out_idx : Nat) : α :=
  (List.range input_encode_bits).foldl
    (fun total bi =>
      let inp_s := input_scales_data.getD bi 0
      let inp_bin_line := input_binary_data.drop (bi * real_size)
      (List.range weights_encode_bits).foldl
        (fun total bw =>
          let w_offset := calcOffset weights_encode_bits out_idx bw
          let w_s := weight_scales_data.getD w_offset 0
          let w_bin_line := weights_binary_data.drop (w_offset * real_size)
          total + inp_s * w_s * ((bin_dot hidden_size real_size inp_bin_line w_bin_line : Int) : α))
        total)
    0

/-- The body of the loop over the batches in `evalFloat`, after the input row has been
quantized into `input_binary_data`: `output_buffer[out_idx] = output_total` for every
output index (the matrix multiplication), then `output_buffer[out_idx] += bias_data[out_idx]`
when a bias is present. -/
def output_row (hidden_size : Int) (real_size : Nat)
    (input_encode_bits weights_encode_bits output_size : Nat)
    (input_scales_data weight_scales_data : List α) (weights_binary_data : List Nat)
    (bias_data : Option (List α)) (input_binary_data : List Nat) : List α :=
  -- matrix multiplication between weights and input vector
  let output_buffer := (List.range output_size).map
    (fun out_idx =>
      output_total hidden_size real_size input_encode_bits weights_encode_bits
        input_scales_data weight_scales_data input_binary_data weights_binary_data out_idx)
  -- add bias if exist
  match bias_data with
  | some bias_data =>
    (List.range output_size).map
      (fun out_idx => output_buffer.getD out_idx 0 + bias_data.getD out_idx 0)
  | none => output_buffer

/-- The method `LQFullyConnected::evalFloat`.  Every batch quantizes its input row into
the scratch codec and writes one output row at `calcOffset(out_shape, batch, 0)`, the
rows one after the other; the activation is applied to the whole output at the end. -/
def LQFullyConnected.evalFloat (k : LQFullyConnected α) : Except Error (LQFullyConnected α) :=
  match k.input_binary with
  | none => .error .runtime_error
  | some input_binary =>
    let input_data := k.input.float_data
    let input_scales_data := k.input_scales.float_data
    let weight_scales_data := k.weights_scales.float_data
    let weights_binary_data := k.weights_binary.int_data
    let bias_data := k.bias.map (fun bias => bias.float_data)
    let input_encode_bits := k.input_scales.dim 0
    let weights_encode_bits := k.weights_scales.dim 1
    let batches := k.output.dim 0
    let output_size := k.output.dim 1
    let hidden_size := k.params.hidden_size
    let real_size := k.weights_binary.dim 2
    let result := (List.range batches).foldl
      (fun (state : LQBinarizer α × List α) batch =>
        -- quantize batch of input data
        let input_binary :=
          state.1.quantize_and_pack (input_data.drop (calcOffset (k.input.dim 1) batch 0))
        (input_binary,
          state.2 ++ output_row hidden_size real_size input_encode_bits weights_encode_bits
            output_size input_scales_data weight_scales_data weights_binary_data bias_data
            input_binary.data_binary))
      (input_binary, [])
    -- compute activation
    let output_data :=
      computeActivationInplace k.params.activation result.2 k.output.num_elements
    .ok { k with
          input_binary := some result.1
          output := { k.output with float_data := output_data } }

/-- The method `LQFullyConnected::execute`. -/
def LQFullyConnected.execute (k : LQFullyConnected α) : Except Error (LQFullyConnected α) :=
  match k.input.element_type with
  | DataType.FLOAT32 => k.evalFloat
  | _ => .error .runtime_error

end kernels

/-! ## Codecs as the constructors build them, and concrete inputs -/

/-- The value of `std::numeric_limits<float>::lowest()`, the most negative finite
`float`. -/
def FLT_LOWEST : ℚ := -340282346638528859811704183484516925440

/-- The training-time codec that the constructor returns when it succeeds: vector length
`N`, `ceil(N/32)` words per plane, `K` planes cleared to zero, `2^K` levels sorted between
the first and the last one, and their thresholds. -/
def lquantizer.LQBinarizer.built {α : Type} [LinearOrderedField α] (lowest : α) (N : Nat)
    (S : List α) (K : Nat) : lquantizer.LQBinarizer α :=
  { data_float_size := N
    data_bin_size := (N + 31) / 32
    encode_bits := K
    data_binary := List.replicate ((N + 31) / 32 * K) 0
    levels_count := 2 ^ K
    quantization_levels := sort_levels (init_levels S K (2 ^ K))
    quantization_thresholds := init_thresholds lowest (sort_levels (init_levels S K (2 ^ K))) (2 ^ K)
    scales := S }

/-- The inference-time codec that the constructor returns when it succeeds. -/
def kernels.LQBinarizer.built {α : Type} [LinearOrderedField α] (lowest : α) (N : Nat)
    (data_scales : Tensor α) : kernels.LQBinarizer α :=
  { data_float_size := N
    data_bin_size := (N + 31) / 32
    encode_bits := data_scales.dim 0
    data_binary := List.replicate ((N + 31) / 32 * data_scales.dim 0) 0
    levels_count := 2 ^ data_scales.dim 0
    quantization_levels :=
      sort_levels (init_levels data_scales.float_data (data_scales.dim 0) (2 ^ data_scales.dim 0))
    quantization_thresholds :=
      init_thresholds lowest
        (sort_levels
          (init_levels data_scales.float_data (data_scales.dim 0) (2 ^ data_scales.dim 0)))
        (2 ^ data_scales.dim 0) }

/-- A `FLOAT32` tensor over `ℚ`. -/
def floatTensor (shape : List Nat) (data : List ℚ) : Tensor ℚ :=
  { element_type := DataType.FLOAT32, shape := shape, float_data := data, int_data := [] }

/-- An `S32` tensor over `ℚ`. -/
def intTensor (shape : List Nat) (data : List Nat) : Tensor ℚ :=
  { element_type := DataType.S32, shape := shape, float_data := [], int_data := data }

/-- The training-time codec for vectors of length 5 with the two scales `0.5, 1.0`. -/
def codecHalfOne : lquantizer.LQBinarizer ℚ :=
  lquantizer.LQBinarizer.built FLT_LOWEST 5 [1 / 2, 1] 2

/-- The inference-time codec for vectors of length 5 with the two scales `0.5, 1.0`. -/
def kernelCodecHalfOne : kernels.LQBinarizer ℚ :=
  kernels.LQBinarizer.built FLT_LOWEST 5 (floatTensor [2] [1 / 2, 1])

/-- The vector `-2.0, -0.4, 0.2, 0.9, 2.0`. -/
def sampleVector : List ℚ := [-2, -2 / 5, 1 / 5, 9 / 10, 2]

/-- The kernel of the test `LQFullyConnectedTest.Simple`: one batch row of 5 values, two
input bits, four outputs with three weight bits each, a bias, no activation. -/
def kernelSimple : kernels.LQFullyConnected ℚ :=
  { input := floatTensor [1, 5] [1 / 2, 12 / 10, 23 / 10, -1, 0]
    input_scales := floatTensor [2] [12 / 100, 17 / 10]
    weights_scales := floatTensor [4, 3]
      [11 / 100, 23 / 100, 31 / 100, 23 / 100, 41 / 100, 53 / 100,
       13 / 100, 22 / 100, 46 / 100, 32 / 100, 33 / 100, 35 / 100]
    weights_binary := intTensor [4, 3, 1] [7, 13, 20, 4, 15, 3, 31, 17, 11, 22, 19, 2]
    bias := some (floatTensor [4] [-11 / 10, -5, -3 / 10, 28 / 10])
    output := floatTensor [] []
    params := { activation := id, hidden_size := 5 }
    input_binary := none }

/-- The kernel `kernelSimple` after `configure`: the output has the shape `[1, 4]` and the
scratch codec is built for rows of 5 values. -/
def kernelSimpleConfigured : kernels.LQFullyConnected ℚ :=
  { kernelSimple with
    output := kernels.resize kernelSimple.output [1, 4]
    input_binary := some (kernels.LQBinarizer.built FLT_LOWEST 5 kernelSimple.input_scales) }

/-- The kernel `kernelSimple` with 31 input bits: `input_scales` has the shape `[31]`
(the 31 scales `0.1, 0.2, ..., 3.1`), everything else is unchanged. -/
def kernelInputBits31 : kernels.LQFullyConnected ℚ :=
  { kernelSimple with
    input_scales := floatTensor [31] ((List.range 31).map (fun i => ((i : ℚ) + 1) / 10)) }

/-- A kernel with one input bit and one weight bit, all scales `1`: one batch row
`0.5, -2.0, 0.0`, two outputs whose weight planes are the words `5` and `2`, no bias, no
activation. -/
def kernelOneBit : kernels.LQFullyConnected ℚ :=
  { input := floatTensor [1, 3] [1 / 2, -2, 0]
    input_scales := floatTensor [1] [1]
    weights_scales := floatTensor [2, 1] [1, 1]
    weights_binary := intTensor [2, 1, 1] [5, 2]
    bias := none
    output := floatTensor [] []
    params := { activation := id, hidden_size := 3 }
    input_binary := none }

/-- The kernel `kernelOneBit` after `configure`. -/
def kernelOneBitConfigured : kernels.LQFullyConnected ℚ :=
  { kernelOneBit with
    output := kernels.resize kernelOneBit.output [1, 2]
    input_binary := some (kernels.LQBinarizer.built FLT_LOWEST 3 kernelOneBit.input_scales) }

/-- The sign matrix that the weight planes of `kernelOneBit` pack:
row `0` is `+1, -1, +1` and row `1` is `-1, +1, -1`. -/
def signsOneBit (o i : Nat) : Int := if ([5, 2].getD o 0).testBit i then 1 else -1

/-! ## The configuration invariants of the kernel, and the scratch buffer -/

namespace kernels

variable {α : Type} [LinearOrderedField α]

/-- The conditions that `configure` checks, in the order of the checks: element types,
ranks of the weights, size of a present bias, agreement of the weight shapes with
`hidden_size`, both bit counts below 32, and the input shape. -/
def LQFullyConnected.Valid (k : LQFullyConnected α) : Prop :=
  k.input.element_type = DataType.FLOAT32
  ∧ k.input_scales.element_type = DataType.FLOAT32
  ∧ k.weights_scales.element_type = DataType.FLOAT32
  ∧ k.weights_binary.element_type = DataType.S32
  ∧ k.output.element_type = DataType.FLOAT32
  ∧ (∀ bias, k.bias = some bias → bias.element_type = DataType.FLOAT32)
  ∧ k.weights_scales.num_dims = 2
  ∧ k.weights_binary.num_dims = 3
  ∧ (∀ bias, k.bias = some bias → bias.num_elements = k.weights_binary.dim 0)
  ∧ k.weights_binary.dim 0 = k.weights_scales.dim 0
  ∧ k.weights_binary.dim 1 = k.weights_scales.dim 1
  ∧ (k.weights_binary.dim 2 : Int) = ceil_div k.params.hidden_size 32
  ∧ k.input_scales.dim 0 < 32
  ∧ k.weights_scales.dim 1 < 32
  ∧ k.input.num_dims = 2
  ∧ (k.input.dim 1 : Int) = k.params.hidden_size

/-- A condition on the bias tensor, which may be absent, can be decided. -/
instance decidableBias {β : Type} (bias? : Option β) (P : β → Prop) [DecidablePred P] :
    Decidable (∀ bias, bias? = some bias → P bias) :=
  match bias? with
  | none => isTrue (fun _ h => nomatch h)
  | some bias => decidable_of_iff (P bias)
      ⟨fun h _ h' => by cases h'; exact h, fun h => h bias rfl⟩

/-- Validity of a kernel can be decided. -/
instance LQFullyConnected.decidableValid (k : LQFullyConnected α) : Decidable k.Valid := by
  unfold LQFullyConnected.Valid
  infer_instance

/-- The kernel with the content of its scratch bit-plane buffer replaced by `junk`:
whatever an earlier `execute` left there. -/
def LQFullyConnected.with_scratch (k : LQFullyConnected α) (junk : List Nat) :
    LQFullyConnected α :=
  { k with input_binary := k.input_binary.map (fun c => { c with data_binary := junk }) }

/-- The bias added to output `o`: `bias[o]` when a bias tensor is present, else `0`. -/
def LQFullyConnected.bias_at (k : LQFullyConnected α) (o : Nat) : α :=
  match k.bias with
  | some bias => bias.float_data.getD o 0
  | none => 0

/-- The packed bit planes of input row `b` quantized alone: a freshly built codec for
rows of `input.dim(1)` values with the kernel's input scales packs the
`input.dim(1)` values of row `b`. -/
def LQFullyConnected.row_planes (lowest : α) (k : LQFullyConnected α) (b : Nat) : List Nat :=
  ((LQBinarizer.built lowest (k.input.dim 1) k.input_scales).quantize_and_pack
    ((k.input.float_data.drop (b * k.input.dim 1)).take (k.input.dim 1))).data_binary

end kernels

/-! ## The sign of a value -/

/-- The sign that the one-bit codec with a positive scale gives a value: `+1` for a
positive value and `-1` for every other value, zero included (the codec has no level for
`0`, and its threshold `0` is compared with `<`). -/
def strict_sign {α : Type} [LinearOrderedField α] (v : α) : Int := if 0 < v then 1 else -1

/-- The sign function of mathematics: `+1` for a positive value, `-1` for a negative
value and `0` for zero. -/
def signum {α : Type} [LinearOrderedField α] (v : α) : Int :=
  if 0 < v then 1 else if v < 0 then -1 else 0

/-- The sign of binarization that counts zero as positive: `+1` for a value `≥ 0` and `-1`
for a negative value. -/
def sign_nonneg {α : Type} [LinearOrderedField α] (v : α) : Int := if 0 ≤ v then 1 else -1

/-! ## Gradient descent on the scales, and the optimizer `lquantizer::QEM` -/

/-- Conversion of an integer to `uint32_t`: its residue modulo `2^32`. -/
def wrapU32 (x : Int) : Nat := (x % 4294967296).toNat

/-- `std::memcpy(dst + off, src, n * sizeof(T))` for 4-byte elements `T` (`int32_t`,
`float`): element `off + j` of `dst` becomes element `j` of `src` for every `j < n`. -/
def memcpy {β : Type} [Zero β] (dst : List β) (off : Nat) (src : List β) (n : Nat) : List β :=
  (List.range n).foldl (fun dst j => dst.set (off + j) (src.getD j 0)) dst

namespace lquantizer

variable {α : Type} [LinearOrderedField α]

/-- The member `l2_reg = 0.02f`. -/
def l2_reg : α := 2 / 100

/-- The member `descent_lr = 0.001f`. -/
def descent_lr : α := 1 / 1000

/-- The member `descent_steps = 8`. -/
def descent_steps : Nat := 8

/-- The member `batch_size = 64`. -/
def batch_size : Nat := 64

/-- The innermost loop of `gradient_descent_scales` for one value with sign row `x` and
error `err`: `scales[b] -= descent_lr * (float(x[b]) * err + l2_reg * scales[b])` for
every bit `b`. -/
def descent_value (encode_bits : Nat) (scales : List α) (x : List Int) (err : α) : List α :=
  (List.range encode_bits).foldl
    (fun scales b =>
      scales.set b
        (scales.getD b 0 - descent_lr * (((x.getD b 0 : Int) : α) * err + l2_reg * scales.getD b 0)))
    scales

/-- The body of the loop over the batches in `gradient_descent_scales` for the batch that
starts at `n`: dequantize the batch into `bin2fp` with the scales as they are, then correct
the scales value by value.  The state is the scales array and the buffer `bin2fp`. -/
def descent_batch (c : LQBinarizer α) (bin_trans : List Int) (data_vector : List α)
    (state : List α × List α) (n : Nat) : List α × List α :=
  let size := min (c.data_float_size - n) batch_size
  let target_vals := data_vector.drop n
  let bin2fp :=
    { c with scales := state.1 }.dequantize (bin_trans.drop (c.encode_bits * n)) state.2 size
  let scales := (List.range size).foldl
    (fun scales i =>
      -- define gradient and correct overall step
      let x := bin_trans.drop ((n + i) * c.encode_bits)
      let err := bin2fp.getD i 0 - target_vals.getD i 0
      descent_value c.encode_bits scales x err)
    state.1
  (scales, bin2fp)

/-- The method `LQBinarizer::gradient_descent_scales`.  The loop
`for (n = 0; n < data_float_size; n += batch_size)` runs for the
`ceil(data_float_size / batch_size)` batch starts `n = j * batch_size`; the scales are
the borrowed array, which the method updates in place. -/
def LQBinarizer.gradient_descent_scales (c : LQBinarizer α) (data_vector : List α) :
    LQBinarizer α :=
  -- transposed binary vector with single char for bit
  let bin_trans := c.unpack_binary (List.replicate (c.encode_bits * c.data_float_size) 0)
  -- allocate buffer for dequantized values and gradient step
  let bin2fp : List α := List.replicate batch_size 0
  let result := (List.range descent_steps).foldl
    (fun state _step =>
      (List.range ((c.data_float_size + batch_size - 1) / batch_size)).foldl
        (fun state j => descent_batch c bin_trans data_vector state (j * batch_size))
        state)
    (c.scales, bin2fp)
  { c with scales := result.1 }

/-- The call `std::sort(scales, scales + n)` on the floats that start at index `off` of
`data`: these `n` values are put in ascending order, the others stay. -/
def sort_floats (data : List α) (off n : Nat) : List α :=
  data.take off ++ List.insertionSort (fun lhs rhs => lhs ≤ rhs) ((data.drop off).take n)
    ++ data.drop (off + n)

/-- The data members of `lquantizer::QEM`; the three arrays are borrowed. -/
structure QEM (α : Type) where
  fp_source_data : List α
  fp_target_data : List α
  scales_data : List α
  output_size : Nat
  hidden_size : Nat
  encode_bits : Nat

/-- The constructor `QEM::QEM`: every row of `bits_per_value` scales is sorted. -/
def QEM.new (fp_source_data fp_target_data scales_data : List α)
    (output_size hidden_size bits_per_value : Nat) : QEM α :=
  { fp_source_data := fp_source_data
    fp_target_data := fp_target_data
    -- scales should be sorted
    scales_data := (List.range output_size).foldl
      (fun scales_data (o : Nat) =>
        sort_floats scales_data (wrapU32 ((o : Int) * (bits_per_value : Int))) bits_per_value)
      scales_data
    output_size := output_size
    hidden_size := hidden_size
    encode_bits := bits_per_value }

/-- The scales array of the optimizer after a codec that borrowed it from index `off` on
has finished: the codec's array is that part of the optimizer's array. -/
def QEM.with_scales (q : QEM α) (off : Nat) (scales : List α) : QEM α :=
  { q with scales_data := q.scales_data.take off ++ scales }

/-- The body of the loops of `QEM::fit` for output row `o`: encode the source row with the
row's scales, update the scales by gradient descent against the target row, sort them. -/
def QEM.fit_step (lowest : α) (q : QEM α) (o : Nat) : Except Error (QEM α) := do
  -- use source data for binarization and target data for error minimization
  let source_data := q.fp_source_data.drop (wrapU32 ((o : Int) * (q.hidden_size : Int)))
  let target_data := q.fp_target_data.drop (wrapU32 ((o : Int) * (q.hidden_size : Int)))
  let off := wrapU32 ((o : Int) * (q.encode_bits : Int))
  let scales := q.scales_data.drop off
  -- step 1: encode fp data using scales
  let binarizer ← LQBinarizer.new lowest q.hidden_size scales q.encode_bits
  let binarizer := binarizer.quantize_and_pack source_data
  -- step 2: update scales using least squares method
  let binarizer := binarizer.gradient_descent_scales target_data
  let q := q.with_scales off binarizer.scales
  -- step 3: scales must be sorted
  pure { q with scales_data := sort_floats q.scales_data off q.encode_bits }

/-- The method `QEM::fit`. -/
def QEM.fit (lowest : α) (q : QEM α) (epochs : Nat) : Except Error (QEM α) :=
  (List.range q.output_size).foldlM
    (fun q o => (List.range epochs).foldlM (fun q _e => q.fit_step lowest o) q)
    q

/-- The body of the loop of `QEM::fill_binary` for output row `o`: a fresh codec over the
row's scales encodes the source row, and its packed words are copied to `bin_data` at
`o * bin_data_size`.  The state is the optimizer and the buffer `bin_data`. -/
def QEM.fill_row (lowest : α) (hidden_size : Int) (bin_data_size : Nat)
    (state : QEM α × List Nat) (o : Nat) : Except Error (QEM α × List Nat) := do
  let q := state.1
  let source_data := q.fp_source_data.drop (wrapU32 ((o : Int) * hidden_size))
  let target_off := wrapU32 ((o : Int) * (bin_data_size : Int))
  let off := wrapU32 ((o : Int) * (q.encode_bits : Int))
  let scales := q.scales_data.drop off
  let binarizer ← LQBinarizer.new lowest q.hidden_size scales q.encode_bits
  let binarizer := binarizer.quantize_and_pack source_data
  pure (q.with_scales off binarizer.scales,
    memcpy state.2 target_off binarizer.data_binary bin_data_size)

/-- The method `QEM::fill_binary`, which returns the optimizer and the filled buffer;
`bin_data_size` is `encode_bits * ceil_div(hidden_size, 32)`. -/
def QEM.fill_binary (lowest : α) (q : QEM α) (bin_data : List Nat) :
    Except Error (QEM α × List Nat) :=
  -- size of fp and bin data for single output
  let hidden_size := wrapS32 q.hidden_size
  let bin_data_size := wrapU32 ((q.encode_bits : Int) * ceil_div hidden_size 32)
  (List.range q.output_size).foldlM (QEM.fill_row lowest hidden_size bin_data_size)
    (q, bin_data)

/-- The array `s'` has the length of `s` and holds the same values from index `n` on. -/
def AgreeFrom {β : Type} (n : Nat) (s s' : List β) : Prop :=
  s'.length = s.length ∧ ∀ p, n ≤ p → s'[p]? = s[p]?

/-- Row `o` of an array of rows of `n` values: the `n` values from index `o * n` on. -/
def row {β : Type} (data : List β) (n o : Nat) : List β := (data.drop (o * n)).take n

/-- The optimizer state `q'` has the sizes, the source and the target of `q`, a scales
array of the same length, and every row of its scales is in ascending order. -/
def QEM.Kept (q q' : QEM α) : Prop :=
  q'.fp_source_data = q.fp_source_data ∧ q'.fp_target_data = q.fp_target_data
  ∧ q'.output_size = q.output_size ∧ q'.hidden_size = q.hidden_size
  ∧ q'.encode_bits = q.encode_bits
  ∧ q'.scales_data.length = q.scales_data.length
  ∧ ∀ o, o < q.output_size →
      (row q'.scales_data q.encode_bits o).Sorted (fun lhs rhs => lhs ≤ rhs)

/-- The packed bit planes of output row `o`: a codec built over the row's scales packs
the row's source values. -/
def QEM.planes (lowest : α) (q : QEM α) (o : Nat) : List Nat :=
  ((LQBinarizer.built lowest q.hidden_size (row q.scales_data q.encode_bits o)
      q.encode_bits).quantize_and_pack (row q.fp_source_data q.hidden_size o)).data_binary

end lquantizer

/-! ## A concrete optimizer -/

/-- Two rows of two values each, source and target alike. -/
def qemData : List ℚ := [1, -1, 1 / 2, 2]

/-- Two rows of two scales each, neither of them sorted. -/
def qemScales : List ℚ := [1, 1 / 2, 3, 2]

/-- The optimizer that the constructor builds over `qemData` and `qemScales`: two output
rows, hidden size `2`, two bits. -/
def qemSample : lquantizer.QEM ℚ := lquantizer.QEM.new qemData qemData qemScales 2 2 2

/-- The reconstruction loss of the vector `x` under the scales `S`: the sum over `i` of
`(x[i] - dequantize(quantize(x; S))[i])^2`, with a codec for `x.length` values and
`S.length` bits. -/
def reconstruction_loss (S x : List ℚ) : ℚ :=
  ((List.range x.length).map
    (fun i => (x.getD i 0
      - ((lquantizer.LQBinarizer.built FLT_LOWEST x.length S S.length).reconstruct x).getD i 0) ^ 2)).sum

/-- The scales after `epochs` epochs of `fit` on one row `x` (source and target alike)
that starts from the scales `S`; empty when `fit` fails. -/
def fitted_scales (S x : List ℚ) (epochs : Nat) : List ℚ :=
  match (lquantizer.QEM.new x x S 1 x.length S.length).fit FLT_LOWEST epochs with
  | .ok q => q.scales_data
  | .error _ => []

/-! ## The observer `lquantizer::InputSavingObserver` -/

namespace lquantizer

/-- A `std::unordered_map` whose keys are nodes (`const luci::CircleNode *`, a node being
its address): the entries, every key at most once. -/
abbrev NodeMap (V : Type) := List (Nat × V)

/-- `m.find(key)`: the value stored for `key`, if there is one. -/
def NodeMap.find {V : Type} : NodeMap V → Nat → Option V
  | [], _ => none
  | (k, v) :: m, key => if k = key then some v else NodeMap.find m key

/-- `m[key] = value`: the entry of `key` takes the value, and is created when there is
none. -/
def NodeMap.assign {V : Type} : NodeMap V → Nat → V → NodeMap V
  | [], key, value => [(key, value)]
  | (k, v) :: m, key, value =>
    if k = key then (k, value) :: m else (k, v) :: NodeMap.assign m key value

/-- The data members of `InputSavingObserver`: the borrowed map `_input2node` from an
input-producing node to its consumer, and the capture buffers `_node2idata`. -/
structure InputSavingObserver (α : Type) where
  input2node : NodeMap Nat
  node2idata : NodeMap (List α)

variable {α : Type} [LinearOrderedField α]

/-- The method `allocate_data_buffers`: an empty buffer for every consumer. -/
def InputSavingObserver.allocate_data_buffers (obs : InputSavingObserver α) :
    InputSavingObserver α :=
  { obs with
    node2idata := obs.input2node.foldl (fun node2idata it => node2idata.assign it.2 [])
      obs.node2idata }

/-- The constructor `InputSavingObserver::InputSavingObserver(input2node)`. -/
def InputSavingObserver.new (input2node : NodeMap Nat) : InputSavingObserver α :=
  InputSavingObserver.allocate_data_buffers { input2node := input2node, node2idata := [] }

/-- The method `InputSavingObserver::postTensorWrite`.  `_node2idata[...]` creates an
empty buffer when the consumer has none; `resize` appends zeros, which `memcpy` then
overwrites with the data of the tensor. -/
def InputSavingObserver.postTensorWrite (obs : InputSavingObserver α) (node : Nat)
    (tensor : Tensor α) : Except Error (InputSavingObserver α) :=
  -- save input only if this node exist as a key in _input2node
  match obs.input2node.find node with
  | none => .ok obs
  | some consumer =>
    -- check type of tensor
    if tensor.element_type ≠ DataType.FLOAT32 then .error .assertion
    else
      -- number of input elements to save
      let input_elements := tensor.num_elements
      -- find buffer for writing
      let storage := (obs.node2idata.find consumer).getD []
      -- reallocate buffer
      let start_of_writing := storage.length
      let storage := storage ++ List.replicate input_elements 0
      -- save data of tensor
      let storage := memcpy storage start_of_writing tensor.float_data input_elements
      .ok { obs with node2idata := obs.node2idata.assign consumer storage }

/-- A sequence of calls of `postTensorWrite`, one per pair of a node and the tensor it
has written. -/
def InputSavingObserver.run (obs : InputSavingObserver α) (calls : List (Nat × Tensor α)) :
    Except Error (InputSavingObserver α) :=
  calls.foldlM (fun obs call => obs.postTensorWrite call.1 call.2) obs

/-- The capture buffer of a consumer; empty when the consumer has none. -/
def InputSavingObserver.buffer (obs : InputSavingObserver α) (consumer : Nat) : List α :=
  (obs.node2idata.find consumer).getD []

/-- The data written for a consumer by a sequence of calls: the tensors, in call order, of
the calls whose node the map sends to the consumer. -/
def captured (input2node : NodeMap Nat) (calls : List (Nat × Tensor α)) (consumer : Nat) :
    List α :=
  ((calls.filter (fun call => decide (input2node.find call.1 = some consumer))).map
    (fun call => call.2.float_data)).flatten

end lquantizer

/-! ## A concrete observer -/

/-- The nodes `10` and `11` feed the consumer `20`, the node `12` feeds the consumer `21`. -/
def observerMap : lquantizer.NodeMap Nat := [(10, 20), (11, 20), (12, 21)]

/-- An observer over `observerMap` whose buffer for the consumer `20` holds one value. -/
def observerSample : lquantizer.InputSavingObserver ℚ :=
  { input2node := observerMap, node2idata := [(20, [5]), (21, [])] }

/-- Four calls: the nodes `10`, `13` (not a key), `12` and `11` write tensors of two, one,
one and three values. -/
def observerCalls : List (Nat × Tensor ℚ) :=
  [(10, floatTensor [2] [1, 2]), (13, floatTensor [1] [7]), (12, floatTensor [1] [3]),
   (11, floatTensor [3, 1] [4, 5, 6])]

/-! ## The record source `lquantizer::DataGenerator` -/

namespace lquantizer

/-- Modelled from the spec: the dataset container behind `HDF5Importer` (HDF5Importer.h
is not among the sources), with the accessors that `read_record` uses: `isRawData()`, and
`readTensor(record, input, ...)`, which gives the element type, the shape and the values
of the tensor of an input of a record (of raw data only the values are used); where the
file holds no such tensor the read throws. -/
structure HDF5Importer (α : Type) where
  isRawData : Bool
  readTensor : Int → Int → Option (Tensor α)

/-- Modelled from the spec: a default-constructed `HDF5Importer`, with no file opened. -/
def HDF5Importer.new {α : Type} : HDF5Importer α :=
  { isRawData := false, readTensor := fun _ _ => none }

/-- The data members of `DataGenerator`: the mode, the importer of the data file, the two
indices and their bounds, all `int32_t`. -/
structure DataGenerator (α : Type) where
  random_data : Bool
  hdf5_importer : HDF5Importer α
  input_idx : Int
  inputs_num : Int
  record_idx : Int
  records_num : Int

variable {α : Type} [LinearOrderedField α]

/-- The function `set_float_random_data(data, size)`: `data[i] = distribution(generator)`
for every `i < size`.  The generator is seeded from `std::random_device`; `draw i` is the
value that the uniform distribution hands out for element `i`. -/
def set_float_random_data (draw : Nat → α) (data : List α) (size : Nat) : List α :=
  (List.range size).foldl (fun data i => data.set i (draw i)) data

/-- The method `reset`: return generator state to start position. -/
def DataGenerator.reset (g : DataGenerator α) : DataGenerator α :=
  { g with input_idx := 0, record_idx := 0 }

/-- The constructor `DataGenerator(is_random)`: `reset()`, then
`records_num = std::numeric_limits<int32_t>::max()`. -/
def DataGenerator.new (is_random : Bool) : DataGenerator α :=
  { DataGenerator.reset
      { random_data := is_random, hdf5_importer := HDF5Importer.new, input_idx := 0,
        inputs_num := 0, record_idx := 0, records_num := 0 } with
    records_num := 2147483647 }

/-- The method `inputs_count(count)`: set number of inputs if random_data chosen. -/
def DataGenerator.inputs_count (g : DataGenerator α) (count : Int) :
    Except Error (DataGenerator α) :=
  if ¬ g.random_data then .error .runtime_error
  else .ok { g with inputs_num := count }

/-- The method `set_required_records_num`:
`records_num = records_num > num ? num : records_num`. -/
def DataGenerator.set_required_records_num (g : DataGenerator α) (num : Int) :
    DataGenerator α :=
  { g with records_num := if g.records_num > num then num else g.records_num }

/-- The method `is_empty`. -/
def DataGenerator.is_empty (g : DataGenerator α) : Bool :=
  decide (g.record_idx ≥ g.records_num)

/-- The block `if (random_data) ... else ...` of `read_record`, which fills `input_data`:
random values, or the tensor of the data file at `(record_idx, input_idx)`, which
`readTensor` writes into `input_data` before the two asserts on its element type and on
its number of elements are checked; raw data is written without a check. -/
def DataGenerator.fill (g : DataGenerator α) (draw : Nat → α) (input_data : List α) :
    Except Error (List α) :=
  if g.random_data then
    .ok (set_float_random_data draw input_data input_data.length)
  else
    if ¬ g.hdf5_importer.isRawData then
      match g.hdf5_importer.readTensor g.record_idx g.input_idx with
      | none => .error .runtime_error
      | some tensor =>
        let written := memcpy input_data 0 tensor.float_data tensor.float_data.length
        -- Check the type and the shape of the input data is valid
        if tensor.element_type ≠ DataType.FLOAT32 then .error .assertion
        else if tensor.num_elements ≠ input_data.length then .error .assertion
        else .ok written
    else
      -- Skip type/shape check for raw data
      match g.hdf5_importer.readTensor g.record_idx g.input_idx with
      | none => .error .runtime_error
      | some tensor =>
        .ok (memcpy input_data 0 tensor.float_data tensor.float_data.length)

/-- The block `update input and record idx` of `read_record`. -/
def DataGenerator.advance (g : DataGenerator α) : DataGenerator α :=
  let input_idx := wrapS32 (g.input_idx + 1)
  if input_idx ≥ g.inputs_num then
    { g with input_idx := 0, record_idx := wrapS32 (g.record_idx + 1) }
  else { g with input_idx := input_idx }

/-- The method `DataGenerator::read_record(input_data)`: the returned flag, the content
of `input_data` and the generator after the call; a failed assert and an exception of the
importer are failures of the call. -/
def DataGenerator.read_record (g : DataGenerator α) (draw : Nat → α) (input_data : List α) :
    Except Error (Bool × List α × DataGenerator α) :=
  if g.record_idx ≥ g.records_num then .ok (false, input_data, g)
  else
    match g.fill draw input_data with
    | .error e => .error e
    | .ok input_data =>
      -- update input and record idx
      .ok (true, input_data, g.advance)

/-- The generator after `j` calls of `read_record`, call `i` with the buffer `buffers i`
and the random values `draws i`; a failure of a call is the failure of the sequence. -/
def DataGenerator.after (g : DataGenerator α) (draws : Nat → Nat → α)
    (buffers : Nat → List α) : Nat → Except Error (DataGenerator α)
  | 0 => .ok g
  | j + 1 =>
    match DataGenerator.after g draws buffers j with
    | .error e => .error e
    | .ok g' =>
      match g'.read_record (draws j) (buffers j) with
      | .error e => .error e
      | .ok result => .ok result.2.2

/-- A call of `read_record` with a buffer of `size` values for the input `input` of the
record `record` can fill the buffer: the generator makes random data, or the data file
holds a tensor there which, unless the data is raw, has the element type `FLOAT32` and
`size` elements. -/
def DataGenerator.Readable (g : DataGenerator α) (record input : Int) (size : Nat) : Prop :=
  g.random_data = true
  ∨ ∃ tensor, g.hdf5_importer.readTensor record input = some tensor
      ∧ (g.hdf5_importer.isRawData = false →
          tensor.element_type = DataType.FLOAT32 ∧ tensor.num_elements = size)

/-- The member `_train_batches = 128` of `Quantizer`. -/
def train_batches : Nat := 128

end lquantizer

/-- A random-data generator with two inputs per record and a limit of three records. -/
def generatorSample : lquantizer.DataGenerator ℚ :=
  { ((lquantizer.DataGenerator.new true).set_required_records_num 3) with inputs_num := 2 }

/-- A generator on a data file of typed data with one input per record and two records:
the first record holds the `FLOAT32` tensor `1.0, 2.0`, the second one a tensor of the
element type `S32`. -/
def generatorFile : lquantizer.DataGenerator ℚ :=
  { (lquantizer.DataGenerator.new false : lquantizer.DataGenerator ℚ) with
    hdf5_importer :=
      { isRawData := false
        readTensor := fun record input =>
          if record = 0 ∧ input = 0 then some (floatTensor [2] [1, 2])
          else if record = 1 ∧ input = 0 then some (intTensor [2] [1, 2])
          else none }
    inputs_num := 1
    records_num := 2 }

/-! ## The memory planner `circle_planner::ExecutionPlanner` -/

namespace circle_planner

/-- The struct `AllocationNodeInformation` of `ExecutionPlanner.h`: memory offset from the
beginning of the buffer, required size, the number assigned to the node, the numbers of
the nodes of its first and of its last use, whether the node is temporary, and its
breadth. -/
structure AllocationNodeInformation where
  offset : Nat
  size : Nat
  node_num : Nat
  first_node : Nat
  last_node : Nat
  is_temp : Bool
  breadth : Nat
  deriving DecidableEq, Repr

/-- The live intervals `[first_node, last_node]` of two records overlap, both ends
included. -/
def overlaps (a b : AllocationNodeInformation) : Bool :=
  !(decide (a.last_node < b.first_node) || decide (b.last_node < a.first_node))

/-- Modelled from the spec: step 1 of the greedy-by-size planner (its implementation,
`ExecutionPlanner.cpp`, is not among the sources).  The breadth of a node is the sum of the
sizes of all nodes whose interval contains the tick of the node's first use. -/
def breadth_of (nodes : List AllocationNodeInformation) (node : AllocationNodeInformation) :
    Nat :=
  ((nodes.filter
    (fun other =>
      decide (other.first_node ≤ node.first_node) && decide (node.first_node ≤ other.last_node))).map
    (fun other => other.size)).sum

/-- Modelled from the spec: the order of step 2 of the greedy-by-size planner, the key
`(-size, -breadth, node_id)`: largest size first, ties broken by the largest breadth, then
by the node number. -/
def before (a b : AllocationNodeInformation) : Bool :=
  decide (b.size < a.size)
    || (decide (a.size = b.size)
        && (decide (b.breadth < a.breadth)
            || (decide (a.breadth = b.breadth) && decide (a.node_num ≤ b.node_num))))

/-- Modelled from the spec: the scan of step 3 of the greedy-by-size planner over the
placed records that overlap the candidate, sorted by offset.  `current_offset` is the end
of the occupied ranges scanned so far; the candidate of `size` bytes is placed in the
first gap that suffices, else after the last overlapping record. -/
def find_offset (size : Nat) : Nat → List AllocationNodeInformation → Nat
  | current_offset, [] => current_offset
  | current_offset, record :: records =>
    if current_offset + size ≤ record.offset then current_offset
    else find_offset size (max current_offset (record.offset + record.size)) records

/-- Modelled from the spec: step 3 of the greedy-by-size planner for one candidate.  The
placed records whose interval overlaps the candidate's are sorted by offset and scanned
for the leftmost feasible offset, starting at `0`; the candidate joins the placed
records. -/
def place (placed : List AllocationNodeInformation) (candidate : AllocationNodeInformation) :
    List AllocationNodeInformation :=
  let overlapping := List.insertionSort (fun lhs rhs => lhs.offset ≤ rhs.offset)
    (placed.filter (fun record => overlaps record candidate))
  placed ++ [{ candidate with offset := find_offset candidate.size 0 overlapping }]

/-- Modelled from the spec: steps 1 to 3 of the greedy-by-size planner
(`get_offsets_with_greedy_by_size` / `greedy_by_size_approach`, whose implementation is
not among the sources): every node gets its breadth, the candidates are sorted, and each
one is placed in that order.  Sizes and offsets are natural numbers, as in the spec. -/
def placed_records (nodes : List AllocationNodeInformation) : List AllocationNodeInformation :=
  let candidates := List.insertionSort (fun lhs rhs => before lhs rhs = true)
    (nodes.map (fun node => { node with breadth := breadth_of nodes node }))
  candidates.foldl place []

/-- Modelled from the spec: step 4 of the greedy-by-size planner,
`required_size = max(offset + size)` over all placed records, computed by a running
maximum that starts at `0`. -/
def required_size (placed : List AllocationNodeInformation) : Nat :=
  placed.foldl (fun result record => max result (record.offset + record.size)) 0

/-- Modelled from the spec: the greedy-by-size planner, which returns the placed records
and the required size of the buffer. -/
def greedy_by_size_approach (nodes : List AllocationNodeInformation) :
    List AllocationNodeInformation × Nat :=
  (placed_records nodes, required_size (placed_records nodes))

/-- The byte ranges `[offset, offset + size)` of two records are disjoint: one ends where
the other begins, or before. -/
def disjoint (a b : AllocationNodeInformation) : Prop :=
  a.offset + a.size ≤ b.offset ∨ b.offset + b.size ≤ a.offset

/-- What the planner is given about a record and keeps: number, size and interval. -/
def given (r : AllocationNodeInformation) : Nat × Nat × Nat × Nat :=
  (r.node_num, r.size, r.first_node, r.last_node)

end circle_planner

/-- Three tensors of the sizes `100, 60, 40` with the live intervals
`[0, 3], [1, 2], [2, 4]`. -/
def plannerNodes : List circle_planner.AllocationNodeInformation :=
  [{ offset := 0, size := 100, node_num := 0, first_node := 0, last_node := 3,
     is_temp := false, breadth := 0 },
   { offset := 0, size := 60, node_num := 1, first_node := 1, last_node := 2,
     is_temp := false, breadth := 0 },
   { offset := 0, size := 40, node_num := 2, first_node := 2, last_node := 4,
     is_temp := false, breadth := 0 }]

/-! ## The binary search with a record of its reads -/

/-- The `while (left < right)` loop of `bin_search_encoding` together with a record of
the indices `middle` at which it reads `thresholds`, one per iteration and in the order of
the iterations.  `below middle` is the outcome of the comparison
`thresholds[middle] < value`, whatever the table holds and whatever the value is (for a
NaN on either side the outcome is `false`).  The result is `none` when `fuel` iterations
did not bring the loop to its exit. -/
def bin_search_reads (below : Nat → Bool) : Nat → Nat → Nat → Option (Nat × List Nat)
  | 0, left, right => if left < right then none else some (left, [])
  | fuel + 1, left, right =>
    if left < right then
      let middle := (left + right + 1) >>> 1
      if below middle then
        (bin_search_reads below fuel middle right).map (fun r => (r.1, middle :: r.2))
      else
        (bin_search_reads below fuel left (middle - 1)).map (fun r => (r.1, middle :: r.2))
    else some (left, [])

/-! ## The naive product of the dequantized operands -/

/-- The sign `2 * bit - 1` that position `i` of a packed plane `A` stands for: `+1` for a
set bit and `-1` for a clear one. -/
def plane_sign (A : List Nat) (i : Nat) : Int := 2 * (if planeBit A i then 1 else 0) - 1

namespace kernels

variable {α : Type} [LinearOrderedField α]

/-- The dequantized input `xhat[b, i]`: the sum over the input planes `bi` of
`input_scales[bi] * (2 * bit(P, bi, i) - 1)`, where `P` holds the planes of the quantized
input row `b`, `ceil(H/32)` words each. -/
def LQFullyConnected.xhat (lowest : α) (k : LQFullyConnected α) (b i : Nat) : α :=
  ∑ bi in Finset.range (k.input_scales.dim 0),
    k.input_scales.float_data.getD bi 0
      * (plane_sign ((k.row_planes lowest b).drop (bi * ((k.input.dim 1 + 31) / 32))) i : α)

/-- The dequantized weight `what[o, i]`: the sum over the weight planes `bw` of
`weights_scales[o, bw] * (2 * bit(weights_binary[o, bw], i) - 1)`. -/
def LQFullyConnected.what (k : LQFullyConnected α) (o i : Nat) : α :=
  ∑ bw in Finset.range (k.weights_scales.dim 1),
    k.weights_scales.float_data.getD (o * k.weights_scales.dim 1 + bw) 0
      * (plane_sign (k.weights_binary.int_data.drop
          ((o * k.weights_scales.dim 1 + bw) * k.weights_binary.dim 2)) i : α)

/-- The naive product for batch row `b` and output `o`: the sum over `i < H` of
`xhat[b, i] * what[o, i]`, plus `bias[o]` when a bias is present. -/
def LQFullyConnected.naive_product (lowest : α) (k : LQFullyConnected α) (b o : Nat) : α :=
  (∑ i in Finset.range (k.input.dim 1), k.xhat lowest b i * k.what o i) + k.bias_at o

/-- The tail bits of `weights_binary` are zero: in every plane `[o, bw]` the bits at the
positions from `H` up to the end of the last word are clear. -/
def LQFullyConnected.ZeroTail (k : LQFullyConnected α) : Prop :=
  ∀ o, o < k.weights_binary.dim 0 → ∀ bw, bw < k.weights_scales.dim 1 →
    ∀ j, j < 32 * ((k.input.dim 1 + 31) / 32) → k.input.dim 1 ≤ j →
      planeBit (k.weights_binary.int_data.drop
        ((o * k.weights_scales.dim 1 + bw) * k.weights_binary.dim 2)) j = false

end kernels

/-! ## Gradient descent on the scales: the reference -/

namespace lquantizer

variable {α : Type} [LinearOrderedField α]

/-- The sign `sign[i, b]` of bit `b` of value `i` in the packed planes: `+1` for a set
bit and `-1` for a clear one. -/
def LQBinarizer.sign_at (c : LQBinarizer α) (i b : Nat) : Int :=
  if c.bit b i = 1 then 1 else -1

/-- The reference for `gradient_descent_scales`, the batches: consecutive batches of at
most 64 indices, the last one possibly shorter. -/
def reference_batches (N : Nat) : List (List Nat) :=
  (List.range ((N + 63) / 64)).map
    (fun j => (List.range (min (N - j * 64) 64)).map (fun i => j * 64 + i))

/-- The reference for `gradient_descent_scales`, one value with the signs `sign_i` and the
error `err`: `S[b] := S[b] - 0.001 * (sign[i, b] * err + 0.02 * S[b])` for each of the
`K` bits `b`; nothing else of the array changes. -/
def reference_value (K : Nat) (sign_i : Nat → Int) (err : α) (S : List α) : List α :=
  (List.range S.length).map
    (fun b =>
      if b < K then
        S.getD b 0 - 1 / 1000 * (((sign_i b : Int) : α) * err + 2 / 100 * S.getD b 0)
      else S.getD b 0)

/-- The reference for `gradient_descent_scales`, one batch: `xhat[i]` is the sum over `b`
of `sign[i, b] * S[b]` with the scales `S` as they stand at the start of the batch, then
the scales are updated for each `i` of the batch in order. -/
def LQBinarizer.reference_batch (c : LQBinarizer α) (x_tgt : List α) (S : List α)
    (batch : List Nat) : List α :=
  let xhat := fun (i : Nat) =>
    ∑ b in Finset.range c.encode_bits, ((c.sign_at i b : Int) : α) * S.getD b 0
  batch.foldl
    (fun scales i => reference_value c.encode_bits (c.sign_at i) (xhat i - x_tgt.getD i 0) scales)
    S

/-- The reference for `gradient_descent_scales`: 8 passes over the batches, starting from
the scales of the codec. -/
def LQBinarizer.reference_descent (c : LQBinarizer α) (x_tgt : List α) : List α :=
  (List.range 8).foldl
    (fun S _pass => (reference_batches c.data_float_size).foldl (c.reference_batch x_tgt) S)
    c.scales

end lquantizer

/-! ## The indices that the kernel uses -/

namespace kernels

variable {α : Type} [LinearOrderedField α]

/-- The buffers that `execute` reads and writes: the data of the six tensors, the packed
bit planes `data_binary` of the scratch codec (`input_binary`), and the two tables of the
scratch codec. -/
inductive Buffer where
  | input | input_scales | weights_scales | weights_binary | bias | output
  | input_binary | thresholds | levels
  deriving DecidableEq, Repr

/-- The indices at which `LQBinarizer::quantize_and_pack` uses its buffers, in the order
of the code, for a `data_vector` that starts at index `offset` of the input data: the
`memset` of `encode_bits * data_bin_size` words, and for every value `i` the read
`data_vector[i]`, the reads `thresholds[middle]` and `levels[left]` of
`bin_search_encoding`, and the update of `data_binary[calcOffset(shape, b, idx)]` for every
plane `b`. -/
def LQBinarizer.accesses (c : LQBinarizer α) (data_vector : List α) (offset : Nat) :
    List (Buffer × Nat) :=
  (List.range (c.encode_bits * c.data_bin_size)).map (fun p => (Buffer.input_binary, p))
    ++ (List.range c.data_float_size).flatMap
      (fun i =>
        let idx := i >>> 5
        (Buffer.input, offset + i)
          :: (match bin_search_reads
                (fun middle => decide (c.quantization_thresholds.getD middle 0
                  < data_vector.getD i 0))
                c.levels_count.toNat 0 (c.levels_count - 1).toNat with
              | some (left, reads) =>
                reads.map (fun middle => (Buffer.thresholds, middle)) ++ [(Buffer.levels, left)]
              | none => [])
          ++ (List.range c.encode_bits).map
            (fun b => (Buffer.input_binary, calcOffset c.data_bin_size b idx)))

/-- The indices at which `LQFullyConnected::evalFloat` uses its buffers, in the order of the
code: for every batch the accesses of `quantize_and_pack` on the input row at
`calcOffset(in_shape, batch, 0)`; for every output index, input plane `bi` and weight
plane `bw` the reads `input_scales_data[bi]`, `weight_scales_data[w_offset]`, and in
`bin_dot` the reads `inp_bin_line[i]` and `w_bin_line[i]` for `i < real_size`; the write
`output_buffer[out_idx]`; with a bias the read `bias_data[out_idx]` and the update of
`output_buffer[out_idx]`; at the end the activation over `num_elements` outputs.  The
sizes and the tables of the scratch codec do not change from batch to batch. -/
def LQFullyConnected.accesses (k : LQFullyConnected α) : List (Buffer × Nat) :=
  match k.input_binary with
  | none => []
  | some input_binary =>
    let input_data := k.input.float_data
    let input_encode_bits := k.input_scales.dim 0
    let weights_encode_bits := k.weights_scales.dim 1
    let batches := k.output.dim 0
    let output_size := k.output.dim 1
    let real_size := k.weights_binary.dim 2
    (List.range batches).flatMap
      (fun batch =>
        -- quantize batch of input data
        input_binary.accesses (input_data.drop (calcOffset (k.input.dim 1) batch 0))
            (calcOffset (k.input.dim 1) batch 0)
          -- matrix multiplication between weights and input vector
          ++ (List.range output_size).flatMap
            (fun out_idx =>
              (List.range input_encode_bits).flatMap
                (fun bi =>
                  (Buffer.input_scales, bi)
                    :: (List.range weights_encode_bits).flatMap
                      (fun bw =>
                        let w_offset := calcOffset weights_encode_bits out_idx bw
                        (Buffer.weights_scales, w_offset)
                          :: (List.range real_size).flatMap
                            (fun i =>
                              [(Buffer.input_binary, bi * real_size + i),
                               (Buffer.weights_binary, w_offset * real_size + i)])))
                ++ [(Buffer.output, calcOffset output_size batch 0 + out_idx)])
          -- add bias if exist
          ++ (match k.bias with
              | some _ =>
                (List.range output_size).flatMap
                  (fun out_idx =>
                    [(Buffer.bias, out_idx),
                     (Buffer.output, calcOffset output_size batch 0 + out_idx)])
              | none => []))
      -- compute activation
      ++ (List.range k.output.num_elements).map (fun p => (Buffer.output, p))

/-- The tensors of the kernel hold as many elements as their shapes declare. -/
def LQFullyConnected.Holds (k : LQFullyConnected α) : Prop :=
  k.input.float_data.length = k.input.num_elements
  ∧ k.input_scales.float_data.length = k.input_scales.num_elements
  ∧ k.weights_scales.float_data.length = k.weights_scales.num_elements
  ∧ k.weights_binary.int_data.length = k.weights_binary.num_elements
  ∧ (∀ bias, k.bias = some bias → bias.float_data.length = bias.num_elements)
  ∧ k.output.float_data.length = k.output.num_elements

/-- The number of elements that each buffer holds: the length of the data of a tensor, of
the packed planes and of the tables of the scratch codec. -/
def LQFullyConnected.extent (k : LQFullyConnected α) : Buffer → Nat
  | .input => k.input.float_data.length
  | .input_scales => k.input_scales.float_data.length
  | .weights_scales => k.weights_scales.float_data.length
  | .weights_binary => k.weights_binary.int_data.length
  | .bias =>
    match k.bias with
    | some bias => bias.float_data.length
    | none => 0
  | .output => k.output.float_data.length
  | .input_binary =>
    match k.input_binary with
    | some input_binary => input_binary.data_binary.length
    | none => 0
  | .thresholds =>
    match k.input_binary with
    | some input_binary => input_binary.quantization_thresholds.length
    | none => 0
  | .levels =>
    match k.input_binary with
    | some input_binary => input_binary.quantization_levels.length
    | none => 0

end kernels

/-- The kernel `kernelSimple` with an output tensor that holds four values. -/
def kernelAllocated : kernels.LQFullyConnected ℚ :=
  { kernelSimple with output := floatTensor [1, 4] [0, 0, 0, 0] }

/-- The kernel `kernelAllocated` after `configure`. -/
def kernelAllocatedConfigured : kernels.LQFullyConnected ℚ :=
  { kernelAllocated with
    output := kernels.resize kernelAllocated.output [1, 4]
    input_binary := some (kernels.LQBinarizer.built FLT_LOWEST 5 kernelAllocated.input_scales) }

/-- The kernel `kernelAllocated` with an `input_scales` tensor of the shape `[2, 0]`: two
input bits by its first dimension, and no element. -/
def kernelScalesEmpty : kernels.LQFullyConnected ℚ :=
  { kernelAllocated with input_scales := floatTensor [2, 0] [] }

/-- The kernel `kernelScalesEmpty` after `configure`. -/
def kernelScalesEmptyConfigured : kernels.LQFullyConnected ℚ :=
  { kernelScalesEmpty with
    output := kernels.resize kernelScalesEmpty.output [1, 4]
    input_binary :=
      some (kernels.LQBinarizer.built FLT_LOWEST 5 kernelScalesEmpty.input_scales) }

/-! ## The Circle IR: nodes and graphs -/

namespace luci

/-- Modelled from the spec: the opcodes of `luci::CircleOpcode` (luci/IR/CircleOpcode.h is
not among the sources) that this development tells apart. -/
inductive CircleOpcode where
  | CIRCLEINPUT | CIRCLECONST | CIRCLEOUTPUT | FULLY_CONNECTED | LQ_FULLY_CONNECTED | RELU
  deriving DecidableEq, Repr

/-- Modelled from the spec: the fused activations `luci::FusedActFunc`
(luci/IR/AttrFusedActFunc.h is not among the sources). -/
inductive FusedActFunc where
  | UNDEFINED | NONE | RELU | RELU_N1_TO_1 | RELU6 | TANH | SIGN_BIT
  deriving DecidableEq, Repr

/-- Modelled from the spec: `luci::ShapeStatus` (luci/IR/CircleShapeSignature.h and the
node declarations are not among the sources). -/
inductive ShapeStatus where
  | UNDEFINED | NOSHAPE | VALID
  deriving DecidableEq, Repr

/-- Modelled from the spec: the state of a `luci::CircleNode` that the quantizer reads and
writes (the node declarations of luci/IR are not among the sources): opcode, name, element
type (`none` for `loco::DataType::Unknown`), the dimensions (their number is the rank),
the shape status, the argument slots `at(i)` (a node is its address, here its position in
the graph; `none` is `nullptr`), the fused activation of the mixin, the member
`_weights_hidden_size` of `CircleLQFullyConnected`, and the number of elements that a
`CircleConst` has allocated with `size<DT>(n)`. -/
structure CircleNode where
  opcode : CircleOpcode
  name : String
  dtype : Option DataType
  shape : List Nat
  shape_status : ShapeStatus
  args : List (Option Nat)
  fusedActivationFunction : FusedActFunc
  _weights_hidden_size : Int
  size : Nat
  deriving DecidableEq, Repr

/-- Modelled from the spec: a default-constructed node of the given opcode and arity: no
name, unknown element type, rank 0, undefined shape status, every argument slot null. -/
def CircleNode.fresh (opcode : CircleOpcode) (arity : Nat) : CircleNode :=
  { opcode := opcode
    name := ""
    dtype := none
    shape := []
    shape_status := ShapeStatus.UNDEFINED
    args := List.replicate arity none
    fusedActivationFunction := FusedActFunc.UNDEFINED
    _weights_hidden_size := 0
    size := 0 }

/-- The getter `at(i)->node()` of `FixedArityNode`. -/
def CircleNode.at_node (n : CircleNode) (i : Nat) : Option Nat := n.args.getD i none

/-- The setter `at(i)->node(node)` of `FixedArityNode`. -/
def CircleNode.set_at_node (n : CircleNode) (i : Nat) (node : Option Nat) : CircleNode :=
  { n with args := n.args.set i node }

/-- Modelled from the spec: `rank()`, the number of dimensions. -/
def CircleNode.rank (n : CircleNode) : Nat := n.shape.length

/-- Modelled from the spec: `rank(r)`, which resizes the dimensions to `r` of them; a new
dimension is unknown and reads as `0`. -/
def CircleNode.set_rank (n : CircleNode) (r : Nat) : CircleNode :=
  { n with shape := (n.shape ++ List.replicate r 0).take r }

/-- Modelled from the spec: `dim(i).value()`. -/
def CircleNode.dim (n : CircleNode) (i : Nat) : Nat := n.shape.getD i 0

/-- Modelled from the spec: `dim(i).set(value)`. -/
def CircleNode.set_dim (n : CircleNode) (i value : Nat) : CircleNode :=
  { n with shape := n.shape.set i value }

namespace CircleLQFullyConnected

/-- The default constructor of `CircleLQFullyConnected`: a `FixedArityNode` of five
argument slots with the opcode `LQ_FULLY_CONNECTED` and `_weights_hidden_size = 0`. -/
def new : CircleNode := CircleNode.fresh CircleOpcode.LQ_FULLY_CONNECTED 5

/-- The getter `input()`. -/
def input (n : CircleNode) : Option Nat := n.at_node 0

/-- The setter `input(node)`. -/
def set_input (n : CircleNode) (node : Option Nat) : CircleNode := n.set_at_node 0 node

/-- The getter `input_scales()`. -/
def input_scales (n : CircleNode) : Option Nat := n.at_node 1

/-- The setter `input_scales(node)`. -/
def set_input_scales (n : CircleNode) (node : Option Nat) : CircleNode := n.set_at_node 1 node

/-- The getter `weights_scales()`. -/
def weights_scales (n : CircleNode) : Option Nat := n.at_node 2

/-- The setter `weights_scales(node)`. -/
def set_weights_scales (n : CircleNode) (node : Option Nat) : CircleNode :=
  n.set_at_node 2 node

/-- The getter `weights_binary()`. -/
def weights_binary (n : CircleNode) : Option Nat := n.at_node 3

/-- The setter `weights_binary(node)`. -/
def set_weights_binary (n : CircleNode) (node : Option Nat) : CircleNode :=
  n.set_at_node 3 node

/-- The getter `bias()`. -/
def bias (n : CircleNode) : Option Nat := n.at_node 4

/-- The setter `bias(node)`. -/
def set_bias (n : CircleNode) (node : Option Nat) : CircleNode := n.set_at_node 4 node

/-- The getter `weights_hidden_size()`. -/
def weights_hidden_size (n : CircleNode) : Int := n._weights_hidden_size

/-- The setter `weights_hidden_size(weights_hidden_size)`, whose parameter is an
`int32_t`. -/
def set_weights_hidden_size (n : CircleNode) (weights_hidden_size : Int) : CircleNode :=
  { n with _weights_hidden_size := weights_hidden_size }

/-- Modelled from the spec: the setter `fusedActivationFunction(f)` of the mixin
`CircleNodeMixin<CircleNodeTrait::FusedActFunc>`. -/
def set_fusedActivationFunction (n : CircleNode) (f : FusedActFunc) : CircleNode :=
  { n with fusedActivationFunction := f }

/-- What the getters of a `CircleLQFullyConnected` return: opcode, the five operands in the
order of their argument slots, fused activation, and hidden size. -/
def observe (n : CircleNode) :
    CircleOpcode × Option Nat × Option Nat × Option Nat × Option Nat × Option Nat
      × FusedActFunc × Int :=
  (n.opcode, input n, input_scales n, weights_scales n, weights_binary n, bias n,
    n.fusedActivationFunction, weights_hidden_size n)

end CircleLQFullyConnected

namespace CircleFullyConnected

/-- Modelled from the spec: the getter `input()` of `CircleFullyConnected`
(luci/IR/Nodes/CircleFullyConnected.h is not among the sources), argument slot 0. -/
def input (n : CircleNode) : Option Nat := n.at_node 0

/-- Modelled from the spec: the getter `weights()` of `CircleFullyConnected`, argument
slot 1. -/
def weights (n : CircleNode) : Option Nat := n.at_node 1

/-- Modelled from the spec: the getter `bias()` of `CircleFullyConnected`, argument
slot 2. -/
def bias (n : CircleNode) : Option Nat := n.at_node 2

end CircleFullyConnected

/-- Modelled from the spec: the default constructor of `CircleConst`, a node without
arguments and without data. -/
def CircleConst.new : CircleNode := CircleNode.fresh CircleOpcode.CIRCLECONST 0

end luci

namespace loco

/-- Modelled from the spec: a `loco::Graph` (loco is not among the sources) as the nodes
it owns, in the order of their creation; the address of a node is its position. -/
abbrev Graph := List luci.CircleNode

/-- Modelled from the spec: `g->nodes()->create<T>()`: the graph owns one more node, a
default-constructed `T`, whose address is returned. -/
def Graph.create (g : Graph) (node : luci.CircleNode) : Graph × Nat := (g ++ [node], g.length)

/-- A sequence of setter calls `f` through the pointer `id`: the node at that address
changes, all other nodes stay. -/
def Graph.update (g : Graph) (id : Nat) (f : luci.CircleNode → luci.CircleNode) : Graph :=
  match g[id]? with
  | some n => g.set id (f n)
  | none => g

/-- Modelled from the spec: `loco::replace(node).with(other)`: every argument slot that
holds `node` holds `other` afterwards. -/
def replace_with (g : Graph) (node other : Nat) : Graph :=
  g.map (fun n =>
    { n with args := n.args.map (fun a => if a = some node then some other else a) })

/-- Modelled from the spec: `loco::must_cast<T *>(node)`, which throws when the node is
not of the class `T` (`is_class`), the null pointer included; a pointer to no node of the
graph is dangling. -/
def must_cast (g : Graph) (node : Option Nat) (is_class : luci.CircleNode → Bool) :
    Except Error (Nat × luci.CircleNode) :=
  match node with
  | none => .error .runtime_error
  | some id =>
    match g[id]? with
    | some n => if is_class n then .ok (id, n) else .error .runtime_error
    | none => .error .undefined

end loco

/-! ## The quantizer: building the LQ prototype of a fully connected node -/

namespace lquantizer

open luci loco

/-- The first blocks of `make_lq_fully_connected`, the setter calls on the created LQ node:
element type, rank and dimensions, shape status, fused activation, input and bias of the
node `fc_node`. -/
def pass_fc_node (fc_node : CircleNode) (n : CircleNode) : CircleNode :=
  -- pass dtype
  let n := { n with dtype := some DataType.FLOAT32 }
  -- pass shape
  let n := n.set_rank fc_node.rank
  let n := n.set_dim 0 (fc_node.dim 0)
  let n := n.set_dim 1 (fc_node.dim 1)
  let n := { n with shape_status := ShapeStatus.VALID }
  -- pass activation
  let n := CircleLQFullyConnected.set_fusedActivationFunction n fc_node.fusedActivationFunction
  -- pass input
  let n := CircleLQFullyConnected.set_input n (CircleFullyConnected.input fc_node)
  -- pass bias
  CircleLQFullyConnected.set_bias n (CircleFullyConnected.bias fc_node)

/-- The block of `make_lq_fully_connected` that fills the created constant
`input_scales`. -/
def init_input_scales (name : String) (input_bits_encode : Nat) (n : CircleNode) :
    CircleNode :=
  -- pass shape
  let n := n.set_rank 1
  let n := n.set_dim 0 input_bits_encode
  let n := { n with shape_status := ShapeStatus.VALID }
  -- allocate data
  let n := { n with dtype := some DataType.FLOAT32 }
  let n := { n with size := input_bits_encode }
  -- set name
  { n with name := name ++ "/input_scales" }

/-- The block of `make_lq_fully_connected` that fills the created constant
`weights_scales`; the product for the size is a `uint32_t` product. -/
def init_weights_scales (name : String) (weights : CircleNode) (weight_bits_encode : Nat)
    (n : CircleNode) : CircleNode :=
  -- define shape
  let output_size := weights.dim 0
  let bits := weight_bits_encode
  -- pass shape
  let n := n.set_rank 2
  let n := n.set_dim 0 output_size
  let n := n.set_dim 1 bits
  let n := { n with shape_status := ShapeStatus.VALID }
  -- allocate data
  let n := { n with dtype := some DataType.FLOAT32 }
  let n := { n with size := wrapU32 ((output_size : Int) * (bits : Int)) }
  -- set name
  { n with name := name ++ "/weights_scales" }

/-- The block of `make_lq_fully_connected` that fills the created constant
`weights_binary`; `hidden_size` is the `uint32_t` dimension that `ceil_div` takes as an
`int32_t`, its `int32_t` result becomes a `uint32_t` dimension, and the product for the
size is a `uint32_t` product. -/
def init_weights_binary (name : String) (weights_scales : CircleNode) (hidden_size : Nat)
    (n : CircleNode) : CircleNode :=
  -- define shape (first 2 dimensions must be equal)
  let output_size := weights_scales.dim 0
  let bits := weights_scales.dim 1
  let real_size := ceil_div (wrapS32 hidden_size) 32
  -- pass shape
  let n := n.set_rank 3
  let n := n.set_dim 0 output_size
  let n := n.set_dim 1 bits
  let n := n.set_dim 2 (wrapU32 real_size)
  let n := { n with shape_status := ShapeStatus.VALID }
  -- allocate data
  let n := { n with dtype := some DataType.S32 }
  let n := { n with size := wrapU32 ((output_size : Int) * (bits : Int) * real_size) }
  -- set name
  { n with name := name ++ "/weights_binary" }

/-- The node at an address that the code holds a valid pointer to. -/
def deref (g : Graph) (id : Nat) : Except Error CircleNode :=
  match g[id]? with
  | some n => .ok n
  | none => .error .undefined

/-- The function `make_lq_fully_connected` of `Quantizer.cpp`.  `fc_node` and `weights` are
pointers to `const` nodes, read where the code reads them; every block of setter calls on
a created node is one update of that node.  `weights_hidden_size` takes the `uint32_t`
dimension as an `int32_t`. -/
def make_lq_fully_connected (g : Graph) (node : Nat) (input_bits_encode : Nat)
    (weight_bits_encode : Nat) : Except Error (Graph × Nat) := do
  -- obtain source and target FC nodes
  let fc_node ← must_cast g (some node) (fun n => n.opcode = CircleOpcode.FULLY_CONNECTED)
  let lq_node := g.create CircleLQFullyConnected.new
  -- name of fc node
  let name := fc_node.2.name
  if fc_node.2.rank ≠ 2 then .error .assertion
  else
    let g1 := lq_node.1.update lq_node.2 (pass_fc_node fc_node.2)
    -- create and pass input_scales
    let input_scales := g1.create CircleConst.new
    let g2 := input_scales.1.update input_scales.2 (init_input_scales name input_bits_encode)
    let g3 := g2.update lq_node.2
      (fun n => CircleLQFullyConnected.set_input_scales n (some input_scales.2))
    let weights ← must_cast g3 (CircleFullyConnected.weights fc_node.2) (fun _ => true)
    if weights.2.rank ≠ 2 then .error .assertion
    else
      -- define and pass hidden_size
      let hidden_size := weights.2.dim 1
      let g4 := g3.update lq_node.2
        (fun n => CircleLQFullyConnected.set_weights_hidden_size n (wrapS32 hidden_size))
      -- create and pass weights_scales
      let weights_scales := g4.create CircleConst.new
      let g5 := weights_scales.1.update weights_scales.2
        (init_weights_scales name weights.2 weight_bits_encode)
      let g6 := g5.update lq_node.2
        (fun n => CircleLQFullyConnected.set_weights_scales n (some weights_scales.2))
      -- create and pass weights_binary
      let weights_binary := g6.create CircleConst.new
      let weights_scales_node ← deref weights_binary.1 weights_scales.2
      let g7 := weights_binary.1.update weights_binary.2
        (init_weights_binary name weights_scales_node hidden_size)
      let g8 := g7.update lq_node.2
        (fun n => CircleLQFullyConnected.set_weights_binary n (some weights_binary.2))
      -- set node name
      let g9 := g8.update lq_node.2 (fun n => { n with name := name ++ "/LQFullyConnected" })
      pure (g9, lq_node.2)

end lquantizer

/-- A constant of the element type `FLOAT32` and the shape `[4, 5]`: weights for 4 outputs
and the hidden size 5. -/
def nodeWeights : luci.CircleNode :=
  { luci.CircleConst.new with
    name := "w", dtype := some DataType.FLOAT32, shape := [4, 5], size := 20 }

/-- A `FLOAT32` fully connected node with the output shape `[1, 4]` and the fused
activation `RELU`, whose input, weights and bias are the nodes `0`, `1` and `2`. -/
def nodeFC : luci.CircleNode :=
  { luci.CircleNode.fresh luci.CircleOpcode.FULLY_CONNECTED 3 with
    name := "fc", dtype := some DataType.FLOAT32, shape := [1, 4],
    args := [some 0, some 1, some 2],
    fusedActivationFunction := luci.FusedActFunc.RELU }

/-- A graph with a fully connected node: the input `0`, the constant weights `1`, the
constant bias `2`, and the fully connected node `3`. -/
def graphOneFC : loco.Graph :=
  [{ luci.CircleNode.fresh luci.CircleOpcode.CIRCLEINPUT 0 with
      name := "x", dtype := some DataType.FLOAT32, shape := [1, 5] },
   nodeWeights,
   { luci.CircleConst.new with
      name := "b", dtype := some DataType.FLOAT32, shape := [4], size := 4 },
   nodeFC]

/-! ## The quantizer: binding the FP graph and the LQ graph -/

namespace lquantizer

open luci loco

/-- The data members of `Quantizer` that `make_binded_lqgraph` reads and writes: the
three maps between nodes and the two bit counts. -/
structure Quantizer where
  _input_node2fp_node : NodeMap Nat
  _input_node2lq_node : NodeMap Nat
  _fp2lq_nodes : NodeMap Nat
  _input_encoding_bits : Nat
  _weights_encoding_bits : Nat
  deriving DecidableEq, Repr

/-- The default constructor `Quantizer()`: empty maps and two bits for inputs and for
weights. -/
def Quantizer.new : Quantizer :=
  { _input_node2fp_node := []
    _input_node2lq_node := []
    _fp2lq_nodes := []
    _input_encoding_bits := 2
    _weights_encoding_bits := 2 }

/-- Modelled from the spec: `dynamic_cast<luci::CircleConst *>(node) == nullptr`, which
holds for the null pointer and for every node that is not a `CircleConst`. -/
def is_not_const (g : Graph) (node : Option Nat) : Bool :=
  match node with
  | none => true
  | some id =>
    match g[id]? with
    | some n => decide (n.opcode ≠ CircleOpcode.CIRCLECONST)
    | none => true

/-- The method `Quantizer::make_and_process_lq_node(g, node, fp_node)`; `fp_g` is the graph
of `fp_node`.  The result holds the quantizer, the graph `g`, and the created LQ node or
`none` for `nullptr`. -/
def Quantizer.make_and_process_lq_node (q : Quantizer) (fp_g g : Graph) (node fp_node : Nat) :
    Except Error (Quantizer × Graph × Option Nat) := do
  let n ← deref g node
  -- lq works only with float data
  if n.dtype ≠ some DataType.FLOAT32 then pure (q, g, none)
  else
    match n.opcode with
    | CircleOpcode.FULLY_CONNECTED =>
      -- create fc node
      let created ← make_lq_fully_connected g node q._input_encoding_bits
        q._weights_encoding_bits
      let g := created.1
      let lq_fc := created.2
      let fp_fc ← must_cast fp_g (some fp_node)
        (fun n => n.opcode = CircleOpcode.FULLY_CONNECTED)
      -- only FullyConnected with const weights supported
      if is_not_const fp_g (CircleFullyConnected.weights fp_fc.2) then pure (q, g, none)
      else
        -- extract circle input
        let lq_fc_node ← deref g lq_fc
        let lq_input ← must_cast g (CircleLQFullyConnected.input lq_fc_node) (fun _ => true)
        let fp_input ← must_cast fp_g (CircleFullyConnected.input fp_fc.2) (fun _ => true)
        -- match inputs with fc nodes
        let q := { q with _input_node2lq_node := q._input_node2lq_node.assign lq_input.1 lq_fc }
        let q := { q with
          _input_node2fp_node := q._input_node2fp_node.assign fp_input.1 fp_node }
        -- save node
        let lq_node := lq_fc
        -- replace node with LQ node in target graph
        let g := replace_with g node lq_node
        -- bind FP node to LQ node
        let q := { q with _fp2lq_nodes := q._fp2lq_nodes.assign fp_node lq_node }
        pure (q, g, some lq_node)
    | _ =>
      -- Other LQ ops not implemented, yet
      pure (q, g, none)

/-- The method `Quantizer::make_binded_lqgraph` for modules of one graph, the FP graph
`fp_g` and its clone `lq_g`.  `fp_nodes` and `exchange_nodes` are the results of
`loco::postorder_traversal(output_nodes(...))` on the two graphs (loco is not among the
sources); every node is a Circle node. -/
def Quantizer.make_binded_lqgraph (q : Quantizer) (fp_g lq_g : Graph)
    (fp_nodes exchange_nodes : List Nat) : Except Error (Quantizer × Graph) :=
  if fp_nodes.length ≠ exchange_nodes.length then .error .assertion
  else
    (List.range fp_nodes.length).foldlM
      (fun (state : Quantizer × Graph) n => do
        let fp_node ← must_cast fp_g fp_nodes[n]? (fun _ => true)
        let exchange_node ← must_cast state.2 exchange_nodes[n]? (fun _ => true)
        if fp_node.2.opcode ≠ exchange_node.2.opcode then .error .assertion
        else
          let result ← state.1.make_and_process_lq_node fp_g state.2 exchange_node.1 fp_node.1
          match result.2.2 with
          | none =>
            -- LQ prototype not exist for this node, do nothing
            pure (result.1, result.2.1)
          | some lq_node =>
            -- update graph and bind FP with LQ
            let g := replace_with result.2.1 exchange_node.1 lq_node
            pure ({ result.1 with _fp2lq_nodes := result.1._fp2lq_nodes.assign fp_node.1 lq_node },
              g))
      (q, lq_g)

variable {α : Type} [LinearOrderedField α]

/-- The method `InputSavingObserver::input_data_for`: `assert(_node2idata.count(node))`,
then the buffer of the node. -/
def InputSavingObserver.input_data_for (obs : InputSavingObserver α) (node : Nat) :
    Except Error (List α) :=
  match obs.node2idata.find node with
  | some data => .ok data
  | none => .error .assertion

/-- Step 2 of `Quantizer::train_input`, the lookups: for every pair of `_fp2lq_nodes`
the input data that the observer holds for the FP node. -/
def Quantizer.train_input_data (q : Quantizer) (observer : InputSavingObserver α) :
    Except Error (List (List α)) :=
  q._fp2lq_nodes.mapM (fun it => observer.input_data_for it.1)

end lquantizer

/-- A graph in which two fully connected nodes read the same input: the input `0`; the
constant weights `1` and bias `2` of the fully connected node `3`; the constant weights
`4` and bias `5` of the fully connected node `6`; and the outputs `7` and `8` of the two
fully connected nodes. -/
def graphTwoFC : loco.Graph :=
  [{ luci.CircleNode.fresh luci.CircleOpcode.CIRCLEINPUT 0 with
      name := "x", dtype := some DataType.FLOAT32, shape := [1, 5] },
   { luci.CircleConst.new with
      name := "w1", dtype := some DataType.FLOAT32, shape := [4, 5], size := 20 },
   { luci.CircleConst.new with
      name := "b1", dtype := some DataType.FLOAT32, shape := [4], size := 4 },
   { luci.CircleNode.fresh luci.CircleOpcode.FULLY_CONNECTED 3 with
      name := "fc1", dtype := some DataType.FLOAT32, shape := [1, 4],
      args := [some 0, some 1, some 2],
      fusedActivationFunction := luci.FusedActFunc.NONE },
   { luci.CircleConst.new with
      name := "w2", dtype := some DataType.FLOAT32, shape := [3, 5], size := 15 },
   { luci.CircleConst.new with
      name := "b2", dtype := some DataType.FLOAT32, shape := [3], size := 3 },
   { luci.CircleNode.fresh luci.CircleOpcode.FULLY_CONNECTED 3 with
      name := "fc2", dtype := some DataType.FLOAT32, shape := [1, 3],
      args := [some 0, some 4, some 5],
      fusedActivationFunction := luci.FusedActFunc.NONE },
   { luci.CircleNode.fresh luci.CircleOpcode.CIRCLEOUTPUT 1 with
      name := "y1", dtype := some DataType.FLOAT32, shape := [1, 4], args := [some 3] },
   { luci.CircleNode.fresh luci.CircleOpcode.CIRCLEOUTPUT 1 with
      name := "y2", dtype := some DataType.FLOAT32, shape := [1, 3], args := [some 6] }]

/-- The postorder traversal of `graphTwoFC` from its outputs: the operands of a node come
before the node. -/
def orderTwoFC : List Nat := [0, 1, 2, 3, 7, 4, 5, 6, 8]

/-! # Part II: theorems -/

/-! ## The popcount dot identity -/

/-! ### Auxiliary facts about wrapping -/

theorem wrapS32_modEq (x : Int) : wrapS32 x ≡ x [ZMOD 4294967296] := by
  unfold wrapS32 Int.ModEq
  omega

theorem wrapS32_eq_of_modEq {x y : Int} (h : x ≡ y [ZMOD 4294967296])
    (hlo : -2147483648 ≤ y) (hhi : y < 2147483648) : wrapS32 x = y := by
  unfold wrapS32
  unfold Int.ModEq at h
  omega

theorem wrapS32_of_range {x : Int} (hlo : -2147483648 ≤ x) (hhi : x < 2147483648) :
    wrapS32 x = x :=
  wrapS32_eq_of_modEq (Int.ModEq.refl x) hlo hhi

theorem foldl_wrap_modEq (f : Nat → Int) (l : List Nat) (p0 q0 : Int)
    (h : p0 ≡ q0 [ZMOD 4294967296]) :
    l.foldl (fun p i => wrapS32 (p + f i)) p0 ≡ q0 + (l.map f).sum [ZMOD 4294967296] := by
  induction l generalizing p0 q0 with
  | nil => simpa using h
  | cons x xs ih =>
    simp only [List.foldl_cons, List.map_cons, List.sum_cons]
    have h1 : wrapS32 (p0 + f x) ≡ q0 + f x [ZMOD 4294967296] :=
      (wrapS32_modEq _).trans (h.add_right _)
    have := ih _ _ h1
    rw [add_assoc] at this
    exact this

/-! ### Counting agreeing bits -/

theorem popcount32_eq_sum (w : Nat) :
    (popcount32 w : Int) = ∑ k in Finset.range 32, (if w.testBit k then (1 : Int) else 0) := by
  unfold popcount32
  generalize 32 = n
  induction n with
  | zero => simp
  | succ n ih =>
    rw [List.range_succ, List.countP_append, Finset.sum_range_succ]
    push_cast
    rw [ih]
    by_cases hb : w.testBit n <;> simp [hb]

theorem testBit_not32_xor (x y k : Nat) (hk : k < 32) :
    (not32 (x ^^^ y)).testBit k = (x.testBit k == y.testBit k) := by
  have h := Nat.testBit_two_pow_sub_one 32 k
  norm_num at h
  unfold not32
  rw [Nat.testBit_xor, Nat.testBit_xor, h]
  simp only [hk, decide_True]
  cases x.testBit k <;> cases y.testBit k <;> rfl

theorem sum_words_eq_sum_bits (g : Nat → Int) (n : Nat) :
    ∑ w in Finset.range n, ∑ k in Finset.range 32, g (32 * w + k)
      = ∑ j in Finset.range (32 * n), g j := by
  induction n with
  | zero => simp
  | succ n ih =>
    rw [Finset.sum_range_succ, ih, Nat.mul_succ, Finset.sum_range_add]

theorem list_sum_range_eq (f : Nat → Int) (n : Nat) :
    ((List.range n).map f).sum = ∑ i in Finset.range n, f i := by
  induction n with
  | zero => simp
  | succ n ih => rw [List.sum_range_succ, Finset.sum_range_succ, ih]

theorem sum_popcount_eq (A B : List Nat) (n : Nat) :
    (((List.range n).map
        (fun i => (popcount32 (not32 (A.getD i 0 ^^^ B.getD i 0)) : Int))).sum)
      = ∑ j in Finset.range (32 * n),
          (if planeBit A j = planeBit B j then (1 : Int) else 0) := by
  rw [← sum_words_eq_sum_bits, list_sum_range_eq]
  refine Finset.sum_congr rfl (fun w _ => ?_)
  rw [popcount32_eq_sum]
  refine Finset.sum_congr rfl (fun k hk => ?_)
  have hk32 : k < 32 := Finset.mem_range.mp hk
  have h1 : (32 * w + k) / 32 = w := by omega
  have h2 : (32 * w + k) % 32 = k := by omega
  unfold planeBit
  rw [testBit_not32_xor _ _ _ hk32, h1, h2]
  cases (A.getD w 0).testBit k <;> cases (B.getD w 0).testBit k <;> simp

theorem sum_agree_eq (H : Nat) (a b : Nat → Int)
    (ha : ∀ i, i < H → a i = 1 ∨ a i = -1) (hb : ∀ i, i < H → b i = 1 ∨ b i = -1)
    (A B : List Nat) (hA : PackedSigns H a A) (hB : PackedSigns H b B) :
    2 * (∑ j in Finset.range (32 * ((H + 31) / 32)),
          (if planeBit A j = planeBit B j then (1 : Int) else 0))
      = (∑ i in Finset.range H, a i * b i) + (2 * (32 * ((H + 31) / 32) : Nat) - H : Int) := by
  have hle : H ≤ 32 * ((H + 31) / 32) := by omega
  obtain ⟨t, ht⟩ := Nat.exists_eq_add_of_le hle
  rw [ht, Finset.sum_range_add]
  have htail : ∑ x in Finset.range t,
      (if planeBit A (H + x) = planeBit B (H + x) then (1 : Int) else 0) = t := by
    rw [Finset.sum_congr rfl (g := fun _ => (1 : Int))]
    · simp
    · intro x hx
      have hx' : H + x < 32 * ((H + 31) / 32) := by
        have := Finset.mem_range.mp hx; omega
      have h1 : planeBit A (H + x) = false := by
        have := hA (H + x) hx'
        unfold planeBit
        cases h : (A.getD ((H + x) / 32) 0).testBit ((H + x) % 32)
        · rfl
        · exact absurd (this.mp h).1 (by omega)
      have h2 : planeBit B (H + x) = false := by
        have := hB (H + x) hx'
        unfold planeBit
        cases h : (B.getD ((H + x) / 32) 0).testBit ((H + x) % 32)
        · rfl
        · exact absurd (this.mp h).1 (by omega)
      simp [h1, h2]
  have hhead : 2 * ∑ x in Finset.range H,
      (if planeBit A x = planeBit B x then (1 : Int) else 0)
      = (∑ i in Finset.range H, a i * b i) + H := by
    rw [Finset.mul_sum]
    have : (H : Int) = ∑ _i in Finset.range H, (1 : Int) := by simp
    rw [this, ← Finset.sum_add_distrib]
    refine Finset.sum_congr rfl (fun i hi => ?_)
    have hi' : i < H := Finset.mem_range.mp hi
    have hlt : i < 32 * ((H + 31) / 32) := by omega
    have hAi := hA i hlt
    have hBi := hB i hlt
    unfold planeBit
    rcases ha i hi' with h1 | h1 <;> rcases hb i hi' with h2 | h2 <;>
      cases hx : (A.getD (i / 32) 0).testBit (i % 32) <;>
      cases hy : (B.getD (i / 32) 0).testBit (i % 32) <;>
      simp_all
  rw [htail, mul_add, hhead]
  push_cast
  ring

theorem abs_sum_signs_le (H : Nat) (a b : Nat → Int)
    (ha : ∀ i, i < H → a i = 1 ∨ a i = -1) (hb : ∀ i, i < H → b i = 1 ∨ b i = -1) :
    |∑ i in Finset.range H, a i * b i| ≤ H := by
  calc |∑ i in Finset.range H, a i * b i|
      ≤ ∑ i in Finset.range H, |a i * b i| := Finset.abs_sum_le_sum_abs _ _
    _ ≤ ∑ _i in Finset.range H, (1 : Int) := by
        refine Finset.sum_le_sum (fun i hi => ?_)
        have hi' : i < H := Finset.mem_range.mp hi
        rcases ha i hi' with h1 | h1 <;> rcases hb i hi' with h2 | h2 <;> simp [h1, h2]
    _ = H := by simp

/-- The popcount dot product on packed sign vectors: `bin_dot` returns the sum of
`a i * b i` over `i < H`. -/
theorem bin_dot_packed (H : Nat) (hH32 : H < 2147483648) (a b : Nat → Int)
    (ha : ∀ i, i < H → a i = 1 ∨ a i = -1) (hb : ∀ i, i < H → b i = 1 ∨ b i = -1)
    (A B : List Nat) (hA : PackedSigns H a A) (hB : PackedSigns H b B) :
    bin_dot (H : Int) (((H + 31) / 32 : Nat) : Int) A B = ∑ i in Finset.range H, a i * b i := by
  have habs := abs_sum_signs_le H a b ha hb
  have hsum := sum_agree_eq H a b ha hb A B hA hB
  rw [← sum_popcount_eq] at hsum
  unfold bin_dot
  simp only [Int.toNat_ofNat]
  have hp0 : wrapS32 ((H : Int) - shl32 (((H + 31) / 32 : Nat) : Int) 5)
      ≡ (H : Int) - 32 * ((H + 31) / 32 : Nat) [ZMOD 4294967296] := by
    refine (wrapS32_modEq _).trans (Int.ModEq.sub (Int.ModEq.refl _) ?_)
    unfold shl32
    refine (wrapS32_modEq _).trans ?_
    norm_num [mul_comm]
  have hfold := foldl_wrap_modEq
    (fun i => (popcount32 (not32 (A.getD i 0 ^^^ B.getD i 0)) : Int))
    (List.range ((H + 31) / 32)) _ _ hp0
  apply wrapS32_eq_of_modEq
  · refine (Int.ModEq.sub ((wrapS32_modEq _).trans (Int.ModEq.mul_right _ hfold))
      (Int.ModEq.refl _)).trans ?_
    have : ((H : Int) - 32 * ((H + 31) / 32 : Nat) +
        ((List.range ((H + 31) / 32)).map
          (fun i => (popcount32 (not32 (A.getD i 0 ^^^ B.getD i 0)) : Int))).sum) * 2 ^ 1 - H
        = ∑ i in Finset.range H, a i * b i := by
      push_cast at hsum ⊢
      linarith
    rw [this]
  · have := (abs_le.mp habs).1
    omega
  · have := (abs_le.mp habs).2
    omega

/-- C1. The popcount dot product of the kernel is the signed dot product: for two
length-`H` vectors of `+1` / `-1` entries (`1 ≤ H`, `H` an `int32_t`) packed with zero tail
padding into `ceil(H/32)` words each, `bin_dot` returns the sum of `a i * b i` over
`i < H`. -/
theorem bin_dot_eq_sum (H : Nat) (hH : 1 ≤ H) (hH32 : H < 2147483648) (a b : Nat → Int)
    (ha : ∀ i, i < H → a i = 1 ∨ a i = -1) (hb : ∀ i, i < H → b i = 1 ∨ b i = -1)
    (A B : List Nat) (hA : PackedSigns H a A) (hB : PackedSigns H b B) :
    bin_dot (H : Int) (((H + 31) / 32 : Nat) : Int) A B = ∑ i in Finset.range H, a i * b i := by
  have _hpos : 0 < H := hH
  exact bin_dot_packed H hH32 a b ha hb A B hA hB

/-- C1, at a concrete input: the vectors `(+1, +1, +1)` and `(+1, -1, +1)` packed as the
words `7` and `5`. -/
theorem bin_dot_eq_sum_witness :
    bin_dot 3 1 [7] [5] = ∑ i in Finset.range 3, (1 : Int) * (if i = 1 then -1 else 1) :=
  bin_dot_eq_sum 3 (by decide) (by decide) (fun _ => 1) (fun i => if i = 1 then -1 else 1)
    (fun _ _ => Or.inl rfl) (fun i _ => by by_cases h : i = 1 <;> simp [h])
    [7] [5] (by unfold PackedSigns; decide) (by unfold PackedSigns; decide)

/-! ## Lists as buffers -/

theorem getD_set {β : Type} (l : List β) (i j : Nat) (a d : β) :
    (l.set i a).getD j d = if i = j ∧ i < l.length then a else l.getD j d := by
  rw [List.getD_eq_getElem?_getD, List.getD_eq_getElem?_getD, List.getElem?_set]
  by_cases h : i = j
  · subst h
    by_cases h2 : i < l.length
    · rw [if_pos rfl, if_pos h2, if_pos ⟨rfl, h2⟩]
      rfl
    · rw [if_pos rfl, if_neg h2, if_neg (fun h => h2 h.2),
        List.getElem?_eq_none (Nat.le_of_not_lt h2)]
  · rw [if_neg h, if_neg (fun h' => h h'.1)]

theorem getD_replicate_zero (n j : Nat) : (List.replicate n (0 : Nat)).getD j 0 = 0 := by
  rw [List.getD_eq_getElem?_getD, List.getElem?_replicate]
  split <;> rfl

theorem memset0_length (buf : List Nat) (n : Nat) : n ≤ (memset0 buf n).length := by
  unfold memset0
  simp

theorem memset0_getD (buf : List Nat) (n j : Nat) (hj : j < n) :
    (memset0 buf n).getD j 0 = 0 := by
  unfold memset0
  rw [List.getD_append _ _ _ _ (by simpa using hj)]
  exact getD_replicate_zero n j

theorem memset0_of_length (buf : List Nat) (n : Nat) (h : buf.length = n) :
    memset0 buf n = List.replicate n 0 := by
  unfold memset0
  rw [List.drop_of_length_le (by omega)]
  simp

/-! ## Bit arithmetic -/

theorem shiftRight_and_one (e b : Nat) :
    ((e >>> b) &&& 1) = if e.testBit b then 1 else 0 := by
  rw [Nat.and_one_is_mod, Nat.testBit_to_div_mod, Nat.shiftRight_eq_div_pow]
  rcases Nat.mod_two_eq_zero_or_one (e / 2 ^ b) with h | h <;> simp [h]

theorem and_31 (i : Nat) : i &&& 31 = i % 32 := Nat.and_pow_two_sub_one_eq_mod i 5

theorem shiftRight_5 (i : Nat) : i >>> 5 = i / 32 := Nat.shiftRight_eq_div_pow i 5

theorem testBit_one (t : Nat) : (1 : Nat).testBit t = decide (t = 0) := by
  cases t with
  | zero => simp
  | succ t => simp [Nat.testBit_succ]

theorem testBit_or_bit (w e b off t : Nat) :
    (w ||| (((e >>> b) &&& 1) <<< off)).testBit t
      = (w.testBit t || (decide (t = off) && e.testBit b)) := by
  rw [Nat.testBit_or, Nat.testBit_shiftLeft, shiftRight_and_one]
  by_cases hb : e.testBit b
  · simp only [hb, if_true, testBit_one, Bool.and_true]
    congr 1
    by_cases h : t = off
    · simp [h]
    · have : ¬ (t ≥ off ∧ t - off = 0) := by omega
      simp only [ge_iff_le, h, decide_False]
      by_cases h1 : off ≤ t
      · have : ¬ (t - off = 0) := by omega
        simp [this]
      · simp [h1]
  · simp [hb]

/-! ## Packing: `quantize_and_pack` -/

theorem pack_value_length (K bin : Nat) (buf : List Nat) (i e : Nat) :
    (pack_value K bin buf i e).length = buf.length := by
  unfold pack_value
  induction K with
  | zero => simp
  | succ n ih =>
    rw [List.range_succ, List.foldl_append]
    simp only [List.foldl_cons, List.foldl_nil, List.length_set]
    exact ih

theorem pack_value_getD (K bin : Nat) (buf : List Nat) (i e : Nat)
    (hlen : K * bin ≤ buf.length) (hi : i / 32 < bin) (b w : Nat) (hw : w < bin) :
    (pack_value K bin buf i e).getD (b * bin + w) 0
      = if b < K ∧ w = i / 32 then
          buf.getD (b * bin + w) 0 ||| (((e >>> b) &&& 1) <<< (i % 32))
        else buf.getD (b * bin + w) 0 := by
  unfold pack_value
  simp only [shiftRight_5, and_31, calcOffset]
  induction K with
  | zero => simp
  | succ n ih =>
    have hlen' : n * bin ≤ buf.length := by
      have : n * bin ≤ (n + 1) * bin := Nat.mul_le_mul_right _ (Nat.le_succ n)
      omega
    rw [List.range_succ, List.foldl_append]
    simp only [List.foldl_cons, List.foldl_nil]
    have hl := pack_value_length n bin buf i e
    unfold pack_value at hl
    simp only [shiftRight_5, and_31, calcOffset] at hl
    rw [getD_set, hl]
    have hidx : n * bin + i / 32 < buf.length := by
      have : (n + 1) * bin = n * bin + bin := Nat.succ_mul n bin
      omega
    have h1 := ih hlen'
    by_cases hb : b = n
    · subst hb
      rw [if_neg (fun h => absurd h.1 (lt_irrefl b))] at h1
      by_cases hw2 : w = i / 32
      · subst hw2
        rw [if_pos ⟨rfl, hidx⟩, if_pos ⟨Nat.lt_succ_self b, rfl⟩, h1]
      · have hne : ¬ (b * bin + i / 32 = b * bin + w) := by omega
        rw [if_neg (fun h => hne h.1), if_neg (fun h => hw2 h.2), h1]
    · have hne : ¬ (n * bin + i / 32 = b * bin + w) := by
        intro h
        rcases Nat.lt_or_gt_of_ne hb with h2 | h2
        · have : (b + 1) * bin ≤ n * bin := Nat.mul_le_mul_right _ h2
          have : (b + 1) * bin = b * bin + bin := Nat.succ_mul b bin
          omega
        · have : (n + 1) * bin ≤ b * bin := Nat.mul_le_mul_right _ h2
          have : (n + 1) * bin = n * bin + bin := Nat.succ_mul n bin
          omega
      rw [if_neg (fun h => hne h.1), h1]
      by_cases hc : b < n ∧ w = i / 32
      · rw [if_pos hc, if_pos ⟨by omega, hc.2⟩]
      · rw [if_neg hc, if_neg (fun h => hc ⟨by omega, h.2⟩)]

theorem pack_loop_length (K bin : Nat) (f : Nat → Nat) (buf0 : List Nat) (n : Nat) :
    ((List.range n).foldl (fun buf i => pack_value K bin buf i (f i)) buf0).length
      = buf0.length := by
  induction n with
  | zero => simp
  | succ n ih =>
    rw [List.range_succ, List.foldl_append]
    simp only [List.foldl_cons, List.foldl_nil, pack_value_length]
    exact ih

theorem pack_loop_testBit (K bin : Nat) (f : Nat → Nat) (buf0 : List Nat) (n : Nat)
    (hn : n ≤ 32 * bin) (hlen : K * bin ≤ buf0.length)
    (hzero : ∀ p, p < K * bin → buf0.getD p 0 = 0)
    (b j : Nat) (hb : b < K) (hj : j < 32 * bin) :
    (((List.range n).foldl (fun buf i => pack_value K bin buf i (f i)) buf0).getD
        (b * bin + j / 32) 0).testBit (j % 32)
      = (decide (j < n) && (f j).testBit b) := by
  have hw : j / 32 < bin := by omega
  induction n with
  | zero =>
    have hp : b * bin + j / 32 < K * bin := by
      have : (b + 1) * bin ≤ K * bin := Nat.mul_le_mul_right _ hb
      have : (b + 1) * bin = b * bin + bin := Nat.succ_mul b bin
      omega
    simp only [List.range_zero, List.foldl_nil, Nat.not_lt_zero, decide_False, Bool.false_and]
    rw [hzero _ hp]
    exact Nat.zero_testBit _
  | succ n ih =>
    have ih' := ih (by omega)
    rw [List.range_succ, List.foldl_append]
    simp only [List.foldl_cons, List.foldl_nil]
    rw [pack_value_getD K bin _ n (f n) (by rw [pack_loop_length]; exact hlen) (by omega)
      b (j / 32) hw]
    by_cases hc : j / 32 = n / 32
    · rw [if_pos ⟨hb, hc⟩, testBit_or_bit, ih']
      by_cases hjn : j = n
      · subst hjn
        simp
      · have h2 : ¬ (j % 32 = n % 32) := by omega
        simp only [h2, decide_False, Bool.false_and, Bool.or_false]
        by_cases h3 : j < n
        · have h4 : j < n + 1 := by omega
          simp [h3, h4]
        · have h4 : ¬ j < n + 1 := by omega
          simp [h3, h4]
    · rw [if_neg (fun h => hc h.2), ih']
      have h2 : j < n + 1 ↔ j < n := by
        constructor
        · intro h
          by_contra h3
          have : j = n := by omega
          exact hc (by rw [this])
        · intro h; omega
      simp only [h2]

theorem ceil_bound (N : Nat) : N ≤ 32 * ((N + 31) / 32) := by omega

theorem bit_is_one_iff (e b : Nat) : ((e >>> b) &&& 1 = 1) ↔ e.testBit b = true := by
  rw [shiftRight_and_one]
  by_cases h : e.testBit b <;> simp [h]

theorem lq_quantize_and_pack_bits {α : Type} [LinearOrderedField α]
    (c : lquantizer.LQBinarizer α) (v : List α)
    (hbin : c.data_bin_size = (c.data_float_size + 31) / 32)
    (b j : Nat) (hb : b < c.encode_bits) (hj : j < 32 * c.data_bin_size) :
    ((c.quantize_and_pack v).data_binary.getD (b * c.data_bin_size + j / 32) 0).testBit (j % 32)
      = (decide (j < c.data_float_size)
          && (c.bin_search_encoding (v.getD j 0)).testBit b) := by
  unfold lquantizer.LQBinarizer.quantize_and_pack
  simp only
  exact pack_loop_testBit c.encode_bits c.data_bin_size
    (fun i => c.bin_search_encoding (v.getD i 0)) _ c.data_float_size
    (by rw [hbin]; exact ceil_bound _) (memset0_length _ _)
    (fun p hp => memset0_getD _ _ p hp) b j hb hj

theorem kernel_quantize_and_pack_bits {α : Type} [LinearOrderedField α]
    (c : kernels.LQBinarizer α) (v : List α)
    (hbin : c.data_bin_size = (c.data_float_size + 31) / 32)
    (b j : Nat) (hb : b < c.encode_bits) (hj : j < 32 * c.data_bin_size) :
    ((c.quantize_and_pack v).data_binary.getD (b * c.data_bin_size + j / 32) 0).testBit (j % 32)
      = (decide (j < c.data_float_size)
          && (c.bin_search_encoding (v.getD j 0)).testBit b) := by
  unfold kernels.LQBinarizer.quantize_and_pack
  simp only
  exact pack_loop_testBit c.encode_bits c.data_bin_size
    (fun i => c.bin_search_encoding (v.getD i 0)) _ c.data_float_size
    (by rw [hbin]; exact ceil_bound _) (memset0_length _ _)
    (fun p hp => memset0_getD _ _ p hp) b j hb hj

/-! ## Unpacking and dequantizing -/

theorem fill_inner {β : Type} (val : Nat → β) (base : Nat) (buf : List β) (d : β) (n : Nat)
    (hlen : base + n ≤ buf.length) :
    ((List.range n).foldl (fun buf b => buf.set (base + b) (val b)) buf).length = buf.length
    ∧ ∀ p, ((List.range n).foldl (fun buf b => buf.set (base + b) (val b)) buf).getD p d
        = if base ≤ p ∧ p < base + n then val (p - base) else buf.getD p d := by
  induction n with
  | zero =>
    refine ⟨rfl, fun p => ?_⟩
    rw [if_neg (by omega)]
    rfl
  | succ n ih =>
    obtain ⟨ih1, ih2⟩ := ih (by omega)
    rw [List.range_succ, List.foldl_append]
    simp only [List.foldl_cons, List.foldl_nil, List.length_set]
    refine ⟨ih1, fun p => ?_⟩
    rw [getD_set, ih1, ih2]
    by_cases hp : base + n = p
    · subst hp
      rw [if_pos ⟨rfl, by omega⟩, if_pos ⟨by omega, by omega⟩]
      congr 1
      omega
    · rw [if_neg (fun h => hp h.1)]
      by_cases hc : base ≤ p ∧ p < base + n
      · rw [if_pos hc, if_pos ⟨hc.1, by omega⟩]
      · rw [if_neg hc, if_neg (fun h => hc ⟨h.1, by omega⟩)]

theorem fill_outer {β : Type} (val : Nat → Nat → β) (K : Nat) (buf : List β) (d : β) (m : Nat)
    (hlen : m * K ≤ buf.length) :
    ((List.range m).foldl
        (fun buf i => (List.range K).foldl (fun buf b => buf.set (i * K + b) (val i b)) buf)
        buf).length = buf.length
    ∧ ∀ i b, i < m → b < K →
        ((List.range m).foldl
          (fun buf i => (List.range K).foldl (fun buf b => buf.set (i * K + b) (val i b)) buf)
          buf).getD (i * K + b) d = val i b := by
  induction m with
  | zero => exact ⟨rfl, fun i b hi _ => absurd hi (Nat.not_lt_zero i)⟩
  | succ m ih =>
    have hsucc : (m + 1) * K = m * K + K := Nat.succ_mul m K
    obtain ⟨ih1, ih2⟩ := ih (by omega)
    rw [List.range_succ, List.foldl_append]
    simp only [List.foldl_cons, List.foldl_nil]
    obtain ⟨h1, h2⟩ := fill_inner (val m) (m * K) _ d K (by rw [ih1]; omega)
    refine ⟨by rw [h1, ih1], fun i b hi hb => ?_⟩
    rw [h2]
    by_cases him : i = m
    · subst him
      rw [if_pos ⟨by omega, by omega⟩]
      congr 1
      omega
    · have hlt : i < m := by omega
      have : (i + 1) * K ≤ m * K := Nat.mul_le_mul_right _ hlt
      have : (i + 1) * K = i * K + K := Nat.succ_mul i K
      rw [if_neg (fun h => by omega)]
      exact ih2 i b hlt hb

theorem unpack_binary_spec {α : Type} [LinearOrderedField α] (c : lquantizer.LQBinarizer α)
    (buffer : List Int) (hlen : buffer.length = c.encode_bits * c.data_float_size) :
    (c.unpack_binary buffer).length = c.encode_bits * c.data_float_size
    ∧ ∀ i b, i < c.data_float_size → b < c.encode_bits →
        (c.unpack_binary buffer).getD (i * c.encode_bits + b) 0
          = if (c.data_binary.getD (b * c.data_bin_size + (i >>> 5)) 0 >>> (i &&& 31)) &&& 1 = 1
            then 1 else -1 := by
  unfold lquantizer.LQBinarizer.unpack_binary
  obtain ⟨h1, h2⟩ := fill_outer
    (fun i b =>
      if (c.data_binary.getD (b * c.data_bin_size + (i >>> 5)) 0 >>> (i &&& 31)) &&& 1 = 1
      then (1 : Int) else -1)
    c.encode_bits buffer 0 c.data_float_size (by rw [hlen, Nat.mul_comm])
  exact ⟨by rw [h1, hlen], h2⟩

theorem accum_inner {α : Type} [LinearOrderedField α] (t : Nat → α) (i : Nat) (data : List α)
    (n : Nat) (hi : i < data.length) :
    ((List.range n).foldl (fun data b => data.set i (data.getD i 0 + t b)) data).length
      = data.length
    ∧ ((List.range n).foldl (fun data b => data.set i (data.getD i 0 + t b)) data).getD i 0
      = data.getD i 0 + ∑ b in Finset.range n, t b
    ∧ ∀ p, p ≠ i →
        ((List.range n).foldl (fun data b => data.set i (data.getD i 0 + t b)) data).getD p 0
          = data.getD p 0 := by
  induction n with
  | zero => simp
  | succ n ih =>
    obtain ⟨ih1, ih2, ih3⟩ := ih
    rw [List.range_succ, List.foldl_append]
    simp only [List.foldl_cons, List.foldl_nil, List.length_set]
    refine ⟨ih1, ?_, fun p hp => ?_⟩
    · rw [getD_set, ih1, if_pos ⟨rfl, hi⟩, ih2, Finset.sum_range_succ, add_assoc]
    · rw [getD_set, if_neg (fun h => hp h.1.symm)]
      exact ih3 p hp

theorem dequantize_spec {α : Type} [LinearOrderedField α] (c : lquantizer.LQBinarizer α)
    (bins : List Int) (data : List α) (size : Nat) (hsize : size ≤ data.length) :
    (c.dequantize bins data size).length = data.length
    ∧ (∀ i, i < size →
        (c.dequantize bins data size).getD i 0
          = ∑ b in Finset.range c.encode_bits,
              (bins.getD (i * c.encode_bits + b) 0 : α) * c.scales.getD b 0)
    ∧ ∀ p, size ≤ p → (c.dequantize bins data size).getD p 0 = data.getD p 0 := by
  unfold lquantizer.LQBinarizer.dequantize
  induction size with
  | zero =>
    exact ⟨rfl, fun i hi => absurd hi (Nat.not_lt_zero i), fun p _ => rfl⟩
  | succ n ih =>
    obtain ⟨ih1, ih2, ih3⟩ := ih (by omega)
    rw [List.range_succ, List.foldl_append]
    simp only [List.foldl_cons, List.foldl_nil]
    have hn : n < (List.set (List.foldl
        (fun data i =>
          List.foldl
            (fun data b =>
              data.set i (data.getD i 0 + (bins.getD (i * c.encode_bits + b) 0 : α)
                * c.scales.getD b 0))
            (data.set i 0) (List.range c.encode_bits))
        data (List.range n)) n 0).length := by
      rw [List.length_set, ih1]; omega
    obtain ⟨h1, h2, h3⟩ := accum_inner
      (fun b => (bins.getD (n * c.encode_bits + b) 0 : α) * c.scales.getD b 0) n _
      c.encode_bits hn
    refine ⟨by rw [h1, List.length_set, ih1], fun i hi => ?_, fun p hp => ?_⟩
    · by_cases hin : i = n
      · subst hin
        rw [h2, getD_set, if_pos ⟨rfl, by rw [ih1]; omega⟩, zero_add]
      · rw [h3 i hin, getD_set, if_neg (fun h => hin h.1.symm)]
        exact ih2 i (by omega)
    · rw [h3 p (by omega), getD_set, if_neg (fun h => by omega)]
      exact ih3 p (by omega)

/-! ## The tables built by the constructor -/

theorem two_pow_int_bound (K : Nat) (hK : K ≤ 30) :
    (0 : Int) < 2 ^ K ∧ (2 : Int) ^ K ≤ 1073741824 := by
  have h : (2 : Nat) ^ K ≤ 2 ^ 30 := Nat.pow_le_pow_right (by norm_num) hK
  have h2 : (((2 : Nat) ^ K : Nat) : Int) ≤ 1073741824 := by exact_mod_cast h
  rw [Nat.cast_pow] at h2
  exact ⟨by positivity, h2⟩

theorem shl32_one (K : Nat) (hK : K ≤ 30) : shl32 1 K = 2 ^ K := by
  unfold shl32
  obtain ⟨h1, h2⟩ := two_pow_int_bound K hK
  rw [one_mul]
  generalize (2 : Int) ^ K = p at h1 h2
  exact wrapS32_of_range (by omega) (by omega)

theorem two_pow_toNat (K : Nat) :
    ((2 : Int) ^ K).toNat = 2 ^ K ∧ ((2 : Int) ^ K - 1).toNat = 2 ^ K - 1 := by
  have h : ((2 : Int) ^ K) = (((2 : Nat) ^ K : Nat) : Int) := by push_cast; rfl
  have hpos : 0 < (2 : Nat) ^ K := Nat.two_pow_pos K
  rw [h]
  generalize (2 : Nat) ^ K = m at hpos
  exact ⟨Int.toNat_ofNat m, by omega⟩

theorem shl32_one_31 : shl32 1 31 = -2147483648 := by decide

theorem ceil_div_32 (N : Nat) (hN : N + 31 < 2147483648) :
    ceil_div (N : Int) 32 = (((N + 31) / 32 : Nat) : Int) := by
  unfold ceil_div
  have h0 : wrapS32 (wrapS32 ((N : Int) + 32) - 1) = (N : Int) + 31 := by
    unfold wrapS32
    omega
  rw [h0, Int.tdiv_eq_ediv (by omega) (by omega)]
  have h : ((N : Int) + 31) / 32 = (((N + 31) / 32 : Nat) : Int) := by omega
  rw [h]
  exact wrapS32_of_range (by omega) (by omega)

theorem ceil_div_32_neg (H : Nat) (h1 : 2147483648 ≤ H + 31) (h2 : H < 2147483648) :
    -67108864 ≤ ceil_div (H : Int) 32 ∧ ceil_div (H : Int) 32 < 0 := by
  unfold ceil_div
  have h0 : wrapS32 (wrapS32 ((H : Int) + 32) - 1) = (H : Int) + 31 - 4294967296 := by
    unfold wrapS32
    omega
  rw [h0]
  have h3 : ((H : Int) + 31 - 4294967296).tdiv 32
      = -((4294967296 - ((H : Int) + 31)) / 32) := by
    have : (H : Int) + 31 - 4294967296 = -(4294967296 - ((H : Int) + 31)) := by ring
    rw [this, Int.neg_tdiv, Int.tdiv_eq_ediv (by omega) (by omega)]
  rw [h3]
  unfold wrapS32
  omega

section Tables

variable {α : Type} [LinearOrderedField α]

theorem sort_levels_perm (l : List (Level α)) : (sort_levels l).Perm l := by
  unfold sort_levels
  cases l with
  | nil => exact List.Perm.refl _
  | cons first rest =>
    refine List.Perm.cons _ ?_
    rcases List.eq_nil_or_concat rest with h | ⟨init, last, h⟩
    · subst h
      exact List.Perm.nil
    · subst h
      rw [List.concat_eq_append]
      simp only [List.dropLast_concat, List.getLast?_append, List.getLast?_singleton,
        Option.or_some, Option.toList_some]
      exact List.Perm.append_right _ (List.perm_insertionSort _ _)

theorem sort_levels_length (l : List (Level α)) : (sort_levels l).length = l.length :=
  (sort_levels_perm l).length_eq

theorem init_levels_length (S : List α) (K n : Nat) : (init_levels S K n).length = n := by
  unfold init_levels
  simp

theorem mem_init_levels (S : List α) (K n : Nat) (x : Level α) :
    x ∈ init_levels S K n ↔ ∃ e, e < n ∧ x = (level_value S K e, e) := by
  unfold init_levels
  simp only [List.mem_map, List.mem_range]
  constructor
  · rintro ⟨e, he, rfl⟩; exact ⟨e, he, rfl⟩
  · rintro ⟨e, he, rfl⟩; exact ⟨e, he, rfl⟩

theorem init_thresholds_length (lowest : α) (L : List (Level α)) (n : Nat) (hn : 1 ≤ n) :
    (init_thresholds lowest L n).length = n := by
  unfold init_thresholds
  simp
  omega

theorem init_thresholds_getD (lowest : α) (L : List (Level α)) (n j : Nat) (hj : j + 1 < n) :
    (init_thresholds lowest L n).getD (j + 1) 0
      = ((L.getD j (0, 0)).1 + (L.getD (j + 1) (0, 0)).1) / 2 := by
  unfold init_thresholds
  rw [List.getD_cons_succ, List.getD_eq_getElem _ _ (by simp; omega)]
  simp

end Tables

/-! ## Success of the constructors -/

section NewOk

variable {α : Type} [LinearOrderedField α]

theorem alloc_size_ok (N K : Nat) (hN : N + 31 < 2147483648) (hK : K ≤ 30) :
    wrapS32 ((((N + 31) / 32 : Nat) : Int) * (K : Int)) = (((N + 31) / 32 * K : Nat) : Int) := by
  have hbinK : (N + 31) / 32 * K ≤ 67108864 * 30 := Nat.mul_le_mul (by omega) hK
  rw [← Nat.cast_mul]
  generalize (N + 31) / 32 * K = m at hbinK
  exact wrapS32_of_range (by omega) (by omega)

theorem lquantizer_new_ok (lowest : α) (N K : Nat) (S : List α) (hN1 : 1 ≤ N)
    (hN : N + 31 < 2147483648) (hK1 : 1 ≤ K) (hK : K ≤ 30) :
    lquantizer.LQBinarizer.new lowest N S K
      = .ok (lquantizer.LQBinarizer.built lowest N S K) := by
  unfold lquantizer.LQBinarizer.new lquantizer.LQBinarizer.built
  obtain ⟨hp1, hp2⟩ := two_pow_int_bound K hK
  obtain ⟨ht1, _⟩ := two_pow_toNat K
  have hp3 : (2 : Int) ^ 1 ≤ 2 ^ K := pow_le_pow_right₀ (by norm_num) hK1
  rw [if_neg (by omega), if_neg (by omega)]
  simp only [ceil_div_32 N hN, alloc_size_ok N K hN hK, shl32_one K hK, Int.toNat_ofNat, ht1]
  rw [if_neg (by
    rintro (h | h)
    · have : (0 : Int) ≤ (((N + 31) / 32 * K : Nat) : Int) := Int.natCast_nonneg _
      omega
    · omega), if_neg (by omega)]

theorem kernels_new_ok (lowest : α) (N : Nat) (data_scales : Tensor α)
    (hN : N + 31 < 2147483648) (hK1 : 1 ≤ data_scales.dim 0) (hK : data_scales.dim 0 ≤ 30) :
    kernels.LQBinarizer.new lowest N data_scales
      = .ok (kernels.LQBinarizer.built lowest N data_scales) := by
  unfold kernels.LQBinarizer.new kernels.LQBinarizer.built
  obtain ⟨hp1, hp2⟩ := two_pow_int_bound (data_scales.dim 0) hK
  obtain ⟨ht1, _⟩ := two_pow_toNat (data_scales.dim 0)
  have hp3 : (2 : Int) ^ 1 ≤ 2 ^ data_scales.dim 0 := pow_le_pow_right₀ (by norm_num) hK1
  simp only [ceil_div_32 N hN, alloc_size_ok N _ hN hK, shl32_one _ hK, Int.toNat_ofNat, ht1]
  rw [if_neg (by omega), if_neg (by
    rintro (h | h)
    · have : (0 : Int) ≤ (((N + 31) / 32 * data_scales.dim 0 : Nat) : Int) :=
        Int.natCast_nonneg _
      omega
    · omega), if_neg (by omega)]

theorem lquantizer_new_31 (lowest : α) (N : Nat) (S : List α) (hN1 : 1 ≤ N) :
    lquantizer.LQBinarizer.new lowest N S 31 = .error .bad_alloc := by
  unfold lquantizer.LQBinarizer.new
  rw [if_neg (by omega), if_neg (by decide)]
  simp only [shl32_one_31]
  rw [if_pos (Or.inr (by decide))]

theorem kernels_new_31 (lowest : α) (N : Nat) (data_scales : Tensor α)
    (hK : data_scales.dim 0 = 31) :
    kernels.LQBinarizer.new lowest N data_scales = .error .bad_alloc := by
  unfold kernels.LQBinarizer.new
  simp only [hK, shl32_one_31]
  rw [if_neg (by decide), if_pos (Or.inr (by decide))]

/-- The allocation of the bit-plane buffer fails when rounding the vector length up to a
multiple of 32 leaves the `int32_t` range. -/
theorem alloc_size_neg (N K : Nat) (h1 : 2147483648 ≤ N + 31) (h2 : N < 2147483648)
    (hK1 : 1 ≤ K) (hK : K ≤ 31) : wrapS32 (ceil_div (N : Int) 32 * (K : Int)) < 0 := by
  obtain ⟨hc1, hc2⟩ := ceil_div_32_neg N h1 h2
  generalize ceil_div (N : Int) 32 = q at hc1 hc2
  have hlo : -67108864 * 31 ≤ q * (K : Int) := by nlinarith
  have hhi : q * (K : Int) < 0 := by nlinarith
  rw [wrapS32_of_range (by omega) (by omega)]
  exact hhi

/-- A training-time codec exists only for a non-empty vector whose length rounds up
within the `int32_t` range and for 1 to 30 bits, and then it is the built codec. -/
theorem lquantizer_new_built (lowest : α) (N K : Nat) (S : List α)
    (c : lquantizer.LQBinarizer α) (hN : N < 2147483648)
    (hc : lquantizer.LQBinarizer.new lowest N S K = .ok c) :
    1 ≤ K ∧ K ≤ 30 ∧ 1 ≤ N ∧ N + 31 < 2147483648
      ∧ c = lquantizer.LQBinarizer.built lowest N S K := by
  have hN1 : 1 ≤ N := by
    by_contra hcon
    have h0 : N = 0 := by omega
    unfold lquantizer.LQBinarizer.new at hc
    rw [if_pos h0] at hc
    cases hc
  have hK32 : K < 32 := by
    by_contra hcon
    unfold lquantizer.LQBinarizer.new at hc
    rw [if_neg (by omega), if_pos (by omega)] at hc
    cases hc
  have hK0 : 1 ≤ K := by
    by_contra hcon
    have h0 : K = 0 := by omega
    subst h0
    unfold lquantizer.LQBinarizer.new at hc
    rw [if_neg (by omega), if_neg (by decide)] at hc
    have h1 : shl32 1 0 = 1 := by decide
    simp only [h1, Nat.cast_zero, mul_zero] at hc
    rw [if_neg (by decide), if_pos (by decide)] at hc
    cases hc
  have hK30 : K ≤ 30 := by
    by_contra hcon
    have h31 : K = 31 := by omega
    rw [h31, lquantizer_new_31 lowest N S hN1] at hc
    cases hc
  have hN31 : N + 31 < 2147483648 := by
    by_contra hcon
    have hneg := alloc_size_neg N K (by omega) hN hK0 (by omega)
    unfold lquantizer.LQBinarizer.new at hc
    rw [if_neg (by omega), if_neg (by omega)] at hc
    simp only at hc
    rw [if_pos (Or.inl hneg)] at hc
    cases hc
  rw [lquantizer_new_ok lowest N K S hN1 hN31 hK0 hK30] at hc
  injection hc with h
  exact ⟨hK0, hK30, hN1, hN31, h.symm⟩

/-- An inference-time codec exists only for a vector whose length rounds up within the
`int32_t` range and for 1 to 30 bits, and then it is the built codec. -/
theorem kernels_new_built (lowest : α) (N : Nat) (data_scales : Tensor α)
    (c : kernels.LQBinarizer α) (hN : N < 2147483648)
    (hc : kernels.LQBinarizer.new lowest N data_scales = .ok c) :
    1 ≤ data_scales.dim 0 ∧ data_scales.dim 0 ≤ 30 ∧ N + 31 < 2147483648
      ∧ c = kernels.LQBinarizer.built lowest N data_scales := by
  have hK32 : data_scales.dim 0 < 32 := by
    by_contra hcon
    unfold kernels.LQBinarizer.new at hc
    simp only at hc
    rw [if_pos (by omega)] at hc
    cases hc
  have hK0 : 1 ≤ data_scales.dim 0 := by
    by_contra hcon
    have h0 : data_scales.dim 0 = 0 := by omega
    unfold kernels.LQBinarizer.new at hc
    have h1 : shl32 1 0 = 1 := by decide
    simp only [h0, h1, Nat.cast_zero, mul_zero] at hc
    rw [if_neg (by decide), if_neg (by decide), if_pos (by decide)] at hc
    cases hc
  have hK30 : data_scales.dim 0 ≤ 30 := by
    by_contra hcon
    have h31 : data_scales.dim 0 = 31 := by omega
    rw [kernels_new_31 lowest N data_scales h31] at hc
    cases hc
  have hN31 : N + 31 < 2147483648 := by
    by_contra hcon
    have hneg := alloc_size_neg N (data_scales.dim 0) (by omega) hN hK0 (by omega)
    unfold kernels.LQBinarizer.new at hc
    simp only at hc
    rw [if_neg (by omega), if_pos (Or.inl hneg)] at hc
    cases hc
  rw [kernels_new_ok lowest N data_scales hN31 hK0 hK30] at hc
  injection hc with h
  exact ⟨hK0, hK30, hN31, h.symm⟩

/-- What a successful construction of the training-time codec yields. -/
theorem lquantizer_new_inv (lowest : α) (N K : Nat) (S : List α)
    (c : lquantizer.LQBinarizer α) (hN : N < 2147483648)
    (hc : lquantizer.LQBinarizer.new lowest N S K = .ok c) :
    K ≤ 30 ∧ 1 ≤ N ∧ c.data_float_size = N ∧ c.data_bin_size = (N + 31) / 32
      ∧ c.encode_bits = K ∧ c.levels_count = 2 ^ K
      ∧ c.data_binary = List.replicate ((N + 31) / 32 * K) 0
      ∧ c.quantization_levels = sort_levels (init_levels S K (2 ^ K))
      ∧ c.quantization_thresholds
          = init_thresholds lowest (sort_levels (init_levels S K (2 ^ K))) (2 ^ K)
      ∧ c.scales = S := by
  obtain ⟨_, hK30, hN1, _, rfl⟩ := lquantizer_new_built lowest N K S c hN hc
  exact ⟨hK30, hN1, rfl, rfl, rfl, rfl, rfl, rfl, rfl, rfl⟩

/-- For 1 to 30 bits the constructor succeeds, `levels_count` is `2^K`, and the level
table has `2^K` entries: a permutation of the pairs `(value(e), e)` for `e < 2^K`. -/
theorem level_table_perm (lowest : α) (N K : Nat) (S : List α) (hN1 : 1 ≤ N)
    (hN : N + 31 < 2147483648) (hK1 : 1 ≤ K) (hK : K ≤ 30) :
    ∃ c, lquantizer.LQBinarizer.new lowest N S K = .ok c
      ∧ c.levels_count = 2 ^ K
      ∧ c.quantization_levels.length = 2 ^ K
      ∧ c.quantization_levels.Perm
          ((List.range (2 ^ K)).map (fun e => (level_value S K e, e))) :=
  ⟨lquantizer.LQBinarizer.built lowest N S K, lquantizer_new_ok lowest N K S hN1 hN hK1 hK, rfl,
    by
      unfold lquantizer.LQBinarizer.built
      rw [sort_levels_length, init_levels_length],
    sort_levels_perm _⟩

end NewOk

/-! ## Binary search -/

section Search

variable {α : Type} [LinearOrderedField α]

/-- The loop of `bin_search_encoding` with enough fuel stops at an index `r` between the
initial bounds with `T[r] < v` (unless `r` is the initial left bound) and
`¬ T[r+1] < v` (unless `r` is the initial right bound). -/
theorem bin_search_loop_spec (T : List α) (v : α) (fuel left right : Nat)
    (hlr : left ≤ right) (hfuel : right - left ≤ fuel) :
    left ≤ bin_search_loop T v fuel left right
    ∧ bin_search_loop T v fuel left right ≤ right
    ∧ (bin_search_loop T v fuel left right = left
        ∨ T.getD (bin_search_loop T v fuel left right) 0 < v)
    ∧ (bin_search_loop T v fuel left right = right
        ∨ ¬ T.getD (bin_search_loop T v fuel left right + 1) 0 < v) := by
  induction fuel generalizing left right with
  | zero =>
    have : left = right := by omega
    subst this
    simp [bin_search_loop]
  | succ fuel ih =>
    unfold bin_search_loop
    by_cases hlt : left < right
    · rw [if_pos hlt]
      simp only [Nat.shiftRight_eq_div_pow, pow_one]
      have hm1 : left < (left + right + 1) / 2 := by omega
      have hm2 : (left + right + 1) / 2 ≤ right := by omega
      by_cases hT : T.getD ((left + right + 1) / 2) 0 < v
      · rw [if_pos hT]
        obtain ⟨h1, h2, h3, h4⟩ := ih ((left + right + 1) / 2) right hm2 (by omega)
        refine ⟨by omega, h2, Or.inr ?_, h4⟩
        rcases h3 with h3 | h3
        · rw [h3]; exact hT
        · exact h3
      · rw [if_neg hT]
        obtain ⟨h1, h2, h3, h4⟩ := ih left ((left + right + 1) / 2 - 1) (by omega) (by omega)
        refine ⟨h1, by omega, h3, Or.inr ?_⟩
        rcases h4 with h4 | h4
        · rw [h4]
          have : (left + right + 1) / 2 - 1 + 1 = (left + right + 1) / 2 := by omega
          rw [this]
          exact hT
        · exact h4
    · rw [if_neg hlt]
      have : left = right := by omega
      subst this
      simp

end Search

/-! ## Reconstruction -/

section Reconstruct

variable {α : Type} [LinearOrderedField α]

theorem foldl_add_eq_sum (g : Nat → α) (n : Nat) (a : α) :
    (List.range n).foldl (fun v b => v + g b) a = a + ∑ b in Finset.range n, g b := by
  induction n with
  | zero => simp
  | succ n ih =>
    rw [List.range_succ, List.foldl_append, ih, Finset.sum_range_succ]
    simp only [List.foldl_cons, List.foldl_nil]
    ring

theorem bit_ne_zero_iff (e b : Nat) : ((e >>> b) &&& 1 ≠ 0) ↔ e.testBit b = true := by
  rw [shiftRight_and_one]
  by_cases h : e.testBit b <;> simp [h]

theorem level_value_eq_sum (S : List α) (K e : Nat) :
    level_value S K e
      = ∑ b in Finset.range K, (if e.testBit b = true then S.getD b 0 else -S.getD b 0) := by
  unfold level_value
  rw [foldl_add_eq_sum, zero_add]
  refine Finset.sum_congr rfl (fun b _ => ?_)
  by_cases h : e.testBit b = true
  · rw [if_pos h, if_pos ((bit_ne_zero_iff e b).mpr h)]
  · rw [if_neg h, if_neg (fun h' => h ((bit_ne_zero_iff e b).mp h'))]

theorem word_bit_eq_one_iff (w off : Nat) : ((w >>> off) &&& 1 = 1) ↔ w.testBit off = true :=
  bit_is_one_iff w off

omit [LinearOrderedField α] in
theorem lq_bit_eq (c : lquantizer.LQBinarizer α) (b i : Nat) :
    c.bit b i
      = if (c.data_binary.getD (b * c.data_bin_size + i / 32) 0).testBit (i % 32) = true
        then 1 else 0 := by
  unfold lquantizer.LQBinarizer.bit
  rw [shiftRight_and_one, shiftRight_5, and_31]

/-- The reconstruction of `x` is, value by value, the level value of the chosen
encoding. -/
theorem reconstruct_spec (c : lquantizer.LQBinarizer α)
    (hbin : c.data_bin_size = (c.data_float_size + 31) / 32) (x : List α) :
    (c.reconstruct x).length = c.data_float_size
    ∧ ∀ i, i < c.data_float_size →
        (c.reconstruct x).getD i 0
          = level_value c.scales c.encode_bits (c.bin_search_encoding (x.getD i 0)) := by
  unfold lquantizer.LQBinarizer.reconstruct
  simp only
  have hbits := lq_quantize_and_pack_bits c x hbin
  have hq1 : (c.quantize_and_pack x).encode_bits = c.encode_bits := rfl
  have hq2 : (c.quantize_and_pack x).data_float_size = c.data_float_size := rfl
  have hq3 : (c.quantize_and_pack x).data_bin_size = c.data_bin_size := rfl
  have hq4 : (c.quantize_and_pack x).scales = c.scales := rfl
  generalize c.quantize_and_pack x = q at hbits hq1 hq2 hq3 hq4 ⊢
  obtain ⟨_, hu⟩ := unpack_binary_spec q
    (List.replicate (q.encode_bits * q.data_float_size) 0) (by simp)
  obtain ⟨hd1, hd2, _⟩ := dequantize_spec q
    (q.unpack_binary (List.replicate (q.encode_bits * q.data_float_size) 0))
    (List.replicate q.data_float_size 0) q.data_float_size (by simp)
  refine ⟨by rw [hd1, List.length_replicate, hq2], fun i hi => ?_⟩
  rw [hd2 i (by omega), level_value_eq_sum, hq1, hq4]
  refine Finset.sum_congr rfl (fun b hb => ?_)
  have hb' : b < c.encode_bits := Finset.mem_range.mp hb
  have hj : i < 32 * c.data_bin_size := by rw [hbin]; omega
  have h1 := hu i b (by omega) (by omega)
  rw [hq1] at h1
  rw [h1]
  simp only [word_bit_eq_one_iff, shiftRight_5, and_31, hq3, hbits b i hb' hj]
  by_cases he : (c.bin_search_encoding (x.getD i 0)).testBit b = true
  · simp [hi, he]
  · simp [hi, he]

end Reconstruct

/-! ## Re-quantizing a reconstruction -/

section Idempotent

variable {α : Type} [LinearOrderedField α]

/-- On a codec returned by the constructor, the encoding chosen for a value is the
encoding of a table entry, and that entry holds the level value of its encoding. -/
theorem encoding_is_level (lowest : α) (N K : Nat) (S : List α)
    (c : lquantizer.LQBinarizer α) (hN : N < 2147483648)
    (hc : lquantizer.LQBinarizer.new lowest N S K = .ok c) (v : α) :
    ∃ r, r < 2 ^ K
      ∧ c.bin_search_encoding v = (c.quantization_levels.getD r (0, 0)).2
      ∧ c.bin_search_encoding v < 2 ^ K
      ∧ (c.quantization_levels.getD r (0, 0)).1
          = level_value S K (c.bin_search_encoding v) := by
  obtain ⟨_, _, _, _, _, h6, _, h8, h9, _⟩ := lquantizer_new_inv lowest N K S c hN hc
  obtain ⟨ht1, ht2⟩ := two_pow_toNat K
  have hpos : 0 < (2 : Nat) ^ K := Nat.two_pow_pos K
  unfold lquantizer.LQBinarizer.bin_search_encoding bin_search
  simp only [h6, ht1, ht2]
  obtain ⟨_, hr, _, _⟩ := bin_search_loop_spec c.quantization_thresholds v (2 ^ K) 0 (2 ^ K - 1)
    (Nat.zero_le _) (by omega)
  generalize bin_search_loop c.quantization_thresholds v (2 ^ K) 0 (2 ^ K - 1) = r at hr
  have hlen : c.quantization_levels.length = 2 ^ K := by
    rw [h8, sort_levels_length, init_levels_length]
  have hmem : c.quantization_levels.getD r (0, 0) ∈ init_levels S K (2 ^ K) := by
    rw [List.getD_eq_getElem _ _ (by omega : r < c.quantization_levels.length)]
    have hm := List.getElem_mem (l := c.quantization_levels)
      (by omega : r < c.quantization_levels.length)
    generalize c.quantization_levels[r] = y at hm
    rw [h8] at hm
    exact (sort_levels_perm _).mem_iff.mp hm
  obtain ⟨e, he, hx⟩ := (mem_init_levels S K (2 ^ K) _).mp hmem
  refine ⟨r, by omega, rfl, ?_, ?_⟩
  · rw [hx]; exact he
  · rw [hx]

theorem quantize_and_pack_congr (c : lquantizer.LQBinarizer α) (x y : List α)
    (h : ∀ i, i < c.data_float_size →
      c.bin_search_encoding (x.getD i 0) = c.bin_search_encoding (y.getD i 0)) :
    c.quantize_and_pack x = c.quantize_and_pack y := by
  unfold lquantizer.LQBinarizer.quantize_and_pack
  simp only
  congr 1
  refine List.foldl_ext _ _ _ (fun buf i hi => ?_)
  rw [h i (List.mem_range.mp hi)]

end Idempotent

/-! ## Non-negative scales: the table is sorted and the search finds the nearest level -/

section Nonneg

variable {α : Type} [LinearOrderedField α]

/-- With non-negative scales the all-minus level is the least and the all-plus level the
greatest level value. -/
theorem level_value_bounds (S : List α) (K e : Nat) (hS : ∀ b, b < K → 0 ≤ S.getD b 0) :
    level_value S K 0 ≤ level_value S K e
      ∧ level_value S K e ≤ level_value S K (2 ^ K - 1) := by
  rw [level_value_eq_sum, level_value_eq_sum, level_value_eq_sum]
  constructor
  · refine Finset.sum_le_sum (fun b hb => ?_)
    have h0 := hS b (Finset.mem_range.mp hb)
    rw [if_neg (by simp)]
    by_cases h : e.testBit b = true
    · rw [if_pos h]; linarith
    · rw [if_neg h]
  · refine Finset.sum_le_sum (fun b hb => ?_)
    have hb' := Finset.mem_range.mp hb
    have h0 := hS b hb'
    have htop : (2 ^ K - 1).testBit b = true := by
      rw [Nat.testBit_two_pow_sub_one]; simpa using hb'
    rw [if_pos htop]
    by_cases h : e.testBit b = true
    · rw [if_pos h]
    · rw [if_neg h]; linarith

/-- Sorting between the first and the last entry sorts the whole table when the first
entry is a least and the last entry a greatest one. -/
theorem sort_levels_sorted (first : Level α) (rest : List (Level α)) (hne : rest ≠ [])
    (hfirst : ∀ y, y ∈ rest → first.1 ≤ y.1)
    (hlast : ∀ y, y ∈ rest → y.1 ≤ (rest.getLast hne).1) :
    (sort_levels (first :: rest)).Pairwise (fun a b => a.1 ≤ b.1) := by
  unfold sort_levels
  simp only [List.getLast?_eq_getLast _ hne, Option.toList_some]
  have hperm := List.perm_insertionSort (fun lhs rhs : Level α => lhs.1 ≤ rhs.1) rest.dropLast
  have hsub : ∀ y, y ∈ rest.dropLast → y ∈ rest := fun y hy =>
    (List.dropLast_sublist rest).subset hy
  have hsorted : (List.insertionSort (fun lhs rhs : Level α => lhs.1 ≤ rhs.1)
      rest.dropLast).Pairwise (fun a b => a.1 ≤ b.1) := by
    haveI : IsTotal (Level α) (fun lhs rhs => lhs.1 ≤ rhs.1) := ⟨fun a b => le_total a.1 b.1⟩
    haveI : IsTrans (Level α) (fun lhs rhs => lhs.1 ≤ rhs.1) :=
      ⟨fun a b c h1 h2 => le_trans h1 h2⟩
    exact List.sorted_insertionSort _ _
  rw [List.pairwise_cons]
  constructor
  · intro y hy
    rcases List.mem_append.mp hy with h | h
    · exact hfirst y (hsub y (hperm.mem_iff.mp h))
    · rw [List.mem_singleton.mp h]
      exact hfirst _ (List.getLast_mem hne)
  · rw [List.pairwise_append]
    refine ⟨hsorted, List.pairwise_singleton _ _, fun a ha b hb => ?_⟩
    rw [List.mem_singleton.mp hb]
    exact hlast a (hsub a (hperm.mem_iff.mp ha))

theorem init_levels_succ (S : List α) (K n : Nat) :
    init_levels S K (n + 1) = init_levels S K n ++ [(level_value S K n, n)] := by
  unfold init_levels
  rw [List.range_succ, List.map_append]
  rfl

/-- With non-negative scales and at least one bit, the table that the constructor builds
is in ascending order of value, the encoding `0` is at index `0` and the encoding
`2^K - 1` at index `2^K - 1`. -/
theorem sort_levels_init_sorted (S : List α) (K : Nat) (hK : 1 ≤ K)
    (hS : ∀ b, b < K → 0 ≤ S.getD b 0) :
    (sort_levels (init_levels S K (2 ^ K))).Pairwise (fun a b => a.1 ≤ b.1)
      ∧ ((sort_levels (init_levels S K (2 ^ K))).getD 0 (0, 0)).2 = 0
      ∧ ((sort_levels (init_levels S K (2 ^ K))).getD (2 ^ K - 1) (0, 0)).2 = 2 ^ K - 1 := by
  obtain ⟨m, hm⟩ : ∃ m, 2 ^ K = m + 2 := by
    have : 2 ^ 1 ≤ 2 ^ K := Nat.pow_le_pow_right (by norm_num) hK
    exact ⟨2 ^ K - 2, by omega⟩
  have hlastval : (level_value S K (m + 1), m + 1) = (level_value S K (2 ^ K - 1), 2 ^ K - 1) := by
    have : m + 1 = 2 ^ K - 1 := by omega
    rw [this]
  have hdecomp : init_levels S K (2 ^ K)
      = (level_value S K 0, 0)
          :: ((init_levels S K (m + 1)).tail ++ [(level_value S K (m + 1), m + 1)]) := by
    rw [hm, init_levels_succ]
    have h0 : init_levels S K (m + 1)
        = (level_value S K 0, 0) :: (init_levels S K (m + 1)).tail := by
      unfold init_levels
      rw [List.range_succ_eq_map]
      rfl
    conv_lhs => rw [h0]
    rfl
  have hne : (init_levels S K (m + 1)).tail ++ [(level_value S K (m + 1), m + 1)] ≠ [] := by
    simp
  have hmemrest : ∀ y, y ∈ (init_levels S K (m + 1)).tail ++ [(level_value S K (m + 1), m + 1)]
      → ∃ e, y = (level_value S K e, e) := by
    intro y hy
    have : y ∈ init_levels S K (2 ^ K) := by
      rw [hdecomp]
      exact List.mem_cons_of_mem _ hy
    obtain ⟨e, _, he⟩ := (mem_init_levels S K _ y).mp this
    exact ⟨e, he⟩
  have hgl : ((init_levels S K (m + 1)).tail ++ [(level_value S K (m + 1), m + 1)]).getLast hne
      = (level_value S K (2 ^ K - 1), 2 ^ K - 1) := by
    rw [List.getLast_append_singleton, hlastval]
  refine ⟨?_, ?_, ?_⟩
  · rw [hdecomp]
    refine sort_levels_sorted _ _ hne (fun y hy => ?_) (fun y hy => ?_)
    · obtain ⟨e, rfl⟩ := hmemrest y hy
      exact (level_value_bounds S K e hS).1
    · obtain ⟨e, rfl⟩ := hmemrest y hy
      rw [hgl]
      exact (level_value_bounds S K e hS).2
  · rw [hdecomp]
    rfl
  · rw [hdecomp]
    unfold sort_levels
    simp only [List.getLast?_eq_getLast _ hne, Option.toList_some, hgl]
    have hlen : (List.insertionSort (fun lhs rhs : Level α => lhs.1 ≤ rhs.1)
        ((init_levels S K (m + 1)).tail ++ [(level_value S K (m + 1), m + 1)]).dropLast).length
        = m := by
      rw [List.length_insertionSort, List.dropLast_concat, List.length_tail,
        init_levels_length]
      rfl
    have hidx : 2 ^ K - 1 = m + 1 := by omega
    rw [hidx, List.getD_cons_succ, List.getD_eq_getElem?_getD,
      List.getElem?_append_right (by omega), hlen]
    simp

end Nonneg

section Nearest

variable {α : Type} [LinearOrderedField α]

/-- On a table in ascending order of value, the binary search stops at the largest index
whose threshold is below the value (index `0` when there is none), and the level there is
a nearest one. -/
theorem bin_search_loop_sorted (lowest : α) (L : List (Level α)) (n : Nat)
    (hn : L.length = n) (hn1 : 1 ≤ n) (hsorted : L.Pairwise (fun a b => a.1 ≤ b.1)) (v : α) :
    bin_search_loop (init_thresholds lowest L n) v n 0 (n - 1) < n
    ∧ (bin_search_loop (init_thresholds lowest L n) v n 0 (n - 1) = 0
        ∨ (init_thresholds lowest L n).getD
            (bin_search_loop (init_thresholds lowest L n) v n 0 (n - 1)) 0 < v)
    ∧ (∀ j, bin_search_loop (init_thresholds lowest L n) v n 0 (n - 1) < j → j < n →
        ¬ (init_thresholds lowest L n).getD j 0 < v)
    ∧ (∀ j, j < n →
        |(L.getD (bin_search_loop (init_thresholds lowest L n) v n 0 (n - 1)) (0, 0)).1 - v|
          ≤ |(L.getD j (0, 0)).1 - v|) := by
  obtain ⟨_, h2, h3, h4⟩ := bin_search_loop_spec (init_thresholds lowest L n) v n 0 (n - 1)
    (Nat.zero_le _) (by omega)
  generalize bin_search_loop (init_thresholds lowest L n) v n 0 (n - 1) = r at h2 h3 h4
  have hmono : ∀ i j, i ≤ j → j < n → (L.getD i (0, 0)).1 ≤ (L.getD j (0, 0)).1 := by
    intro i j hij hj
    rcases Nat.lt_or_ge i j with h | h
    · rw [List.getD_eq_getElem _ _ (by omega : i < L.length),
        List.getD_eq_getElem _ _ (by omega : j < L.length)]
      exact List.pairwise_iff_getElem.mp hsorted i j (by omega) (by omega) h
    · have : i = j := by omega
      subst this
      exact le_refl _
  have hup : ∀ j, r < j → j < n →
      v ≤ ((L.getD r (0, 0)).1 + (L.getD j (0, 0)).1) / 2 := by
    intro j hrj hj
    rcases h4 with h4 | h4
    · omega
    · rw [init_thresholds_getD lowest L n r (by omega)] at h4
      have := hmono (r + 1) j (by omega) hj
      linarith [not_lt.mp h4]
  have hdown : ∀ j, j < r →
      ((L.getD j (0, 0)).1 + (L.getD r (0, 0)).1) / 2 < v := by
    intro j hjr
    rcases h3 with h3 | h3
    · omega
    · obtain ⟨p, hp⟩ : ∃ p, r = p + 1 := ⟨r - 1, by omega⟩
      subst hp
      rw [init_thresholds_getD lowest L n p (by omega)] at h3
      have := hmono j p (by omega) (by omega)
      linarith
  refine ⟨by omega, h3, fun j hrj hj => ?_, fun j hj => ?_⟩
  · obtain ⟨p, hp⟩ : ∃ p, j = p + 1 := ⟨j - 1, by omega⟩
    subst hp
    rw [init_thresholds_getD lowest L n p (by omega)]
    have h5 := hup (p + 1) hrj hj
    have h6 := hmono r p (by omega) (by omega)
    linarith
  · rcases Nat.lt_trichotomy r j with h | h | h
    · have h5 := hup j h hj
      have h6 := hmono r j (by omega) hj
      have h7 := le_abs_self ((L.getD j (0, 0)).1 - v)
      refine abs_le.mpr ⟨by linarith, by linarith⟩
    · subst h
      exact le_refl _
    · have h5 := hdown j h
      have h6 := hmono j r (by omega) (by omega)
      have h7 := neg_le_abs ((L.getD j (0, 0)).1 - v)
      refine abs_le.mpr ⟨by linarith, by linarith⟩

/-- With non-negative scales and at least one bit, the binary search on the tables that
the constructors build returns the encoding stored at the largest index whose threshold is
below the value (index `0` when there is none). -/
theorem bin_search_largest (lowest : α) (S : List α) (K : Nat) (hK1 : 1 ≤ K)
    (hS : ∀ b, b < K → 0 ≤ S.getD b 0) (v : α) :
    ∃ r, r < 2 ^ K
      ∧ bin_search ((2 : Int) ^ K) (sort_levels (init_levels S K (2 ^ K)))
          (init_thresholds lowest (sort_levels (init_levels S K (2 ^ K))) (2 ^ K)) v
          = ((sort_levels (init_levels S K (2 ^ K))).getD r (0, 0)).2
      ∧ (r = 0
          ∨ (init_thresholds lowest (sort_levels (init_levels S K (2 ^ K))) (2 ^ K)).getD r 0 < v)
      ∧ ∀ j, r < j → j < 2 ^ K →
          ¬ (init_thresholds lowest (sort_levels (init_levels S K (2 ^ K))) (2 ^ K)).getD j 0
              < v := by
  obtain ⟨ht1, ht2⟩ := two_pow_toNat K
  have hlen : (sort_levels (init_levels S K (2 ^ K))).length = 2 ^ K := by
    rw [sort_levels_length, init_levels_length]
  have hsorted := (sort_levels_init_sorted S K hK1 hS).1
  obtain ⟨h1, h2, h3, _⟩ := bin_search_loop_sorted lowest _ (2 ^ K) hlen
    (Nat.two_pow_pos K) hsorted v
  refine ⟨_, h1, ?_, h2, h3⟩
  unfold bin_search
  simp only [ht1, ht2]

end Nearest

/-! ## The codec claims -/

/-- C3 (failing input). With one bit and the single scale `-1.0`, which is a sorted
scales vector, the constructor succeeds and leaves the level `+1.0` of encoding `0` in the
first place of the table, before the level `-1.0`, although its comment says that the
first and the last value always have correct places; the value `5.0` is then
reconstructed as `-1.0`, although the lattice value `+1.0` is strictly closer to `5.0`. -/
theorem reconstruct_not_nearest_negative_scale :
    ∃ c, lquantizer.LQBinarizer.new FLT_LOWEST 1 [(-1 : ℚ)] 1 = .ok c
      ∧ c.reconstruct [5] = [-1]
      ∧ level_value [(-1 : ℚ)] 1 0 = 1
      ∧ |(1 : ℚ) - 5| < |(-1 : ℚ) - 5| :=
  ⟨lquantizer.LQBinarizer.built FLT_LOWEST 1 [-1] 1,
    lquantizer_new_ok FLT_LOWEST 1 1 [-1] (by decide) (by decide) (by decide) (by decide),
    by decide!, by decide!, by decide!⟩

/-- Reconstruction is nearest where the scales are non-negative.
For every codec returned by the constructor (for a vector length `N`
that is an `int32_t`) from non-negative scales `S`, and every vector `x`, the
reconstruction `dequantize(unpack(quantize(x)))` holds at every `i < N` one of the
`2^K` lattice values, and no lattice value is closer to `x[i]`. -/
theorem reconstruct_nearest {α : Type} [LinearOrderedField α] (lowest : α) (N K : Nat)
    (S x : List α) (c : lquantizer.LQBinarizer α) (hN : N < 2147483648)
    (hc : lquantizer.LQBinarizer.new lowest N S K = .ok c)
    (hS : ∀ b, b < K → 0 ≤ S.getD b 0) (i : Nat) (hi : i < N) :
    (∃ e, e < 2 ^ K ∧ (c.reconstruct x).getD i 0 = level_value S K e)
    ∧ ∀ e, e < 2 ^ K →
        |(c.reconstruct x).getD i 0 - x.getD i 0| ≤ |level_value S K e - x.getD i 0| := by
  obtain ⟨hK1, _, _, _, _⟩ := lquantizer_new_built lowest N K S c hN hc
  obtain ⟨_, _, h3, h4, h5, h6, _, h8, h9, h10⟩ := lquantizer_new_inv lowest N K S c hN hc
  have hbin : c.data_bin_size = (c.data_float_size + 31) / 32 := by rw [h4, h3]
  obtain ⟨_, hrec⟩ := reconstruct_spec c hbin x
  obtain ⟨ht1, ht2⟩ := two_pow_toNat K
  have hpos : 0 < (2 : Nat) ^ K := Nat.two_pow_pos K
  have hlen : c.quantization_levels.length = 2 ^ K := by
    rw [h8, sort_levels_length, init_levels_length]
  have hsorted : c.quantization_levels.Pairwise (fun a b => a.1 ≤ b.1) := by
    rw [h8]
    exact (sort_levels_init_sorted S K hK1 hS).1
  obtain ⟨r, hr, he, helt, hv⟩ := encoding_is_level lowest N K S c hN hc (x.getD i 0)
  rw [hrec i (by rw [h3]; exact hi), h10, h5]
  refine ⟨⟨_, helt, rfl⟩, fun e he' => ?_⟩
  have hmem : (level_value S K e, e) ∈ c.quantization_levels := by
    rw [h8]
    exact (sort_levels_perm _).mem_iff.mpr ((mem_init_levels S K _ _).mpr ⟨e, he', rfl⟩)
  obtain ⟨j, hj, hje⟩ := List.getElem_of_mem hmem
  have hnear := (bin_search_loop_sorted lowest c.quantization_levels (2 ^ K) hlen hpos hsorted
    (x.getD i 0)).2.2.2 j (by omega)
  rw [List.getD_eq_getElem _ _ hj, hje] at hnear
  have hsearch : c.bin_search_encoding (x.getD i 0)
      = (c.quantization_levels.getD
          (bin_search_loop (init_thresholds lowest c.quantization_levels (2 ^ K))
            (x.getD i 0) (2 ^ K) 0 (2 ^ K - 1)) (0, 0)).2 := by
    unfold lquantizer.LQBinarizer.bin_search_encoding bin_search
    simp only [h6, ht1, ht2]
    rw [← h8] at h9
    rw [h9]
  have hr' := (bin_search_loop_sorted lowest c.quantization_levels (2 ^ K) hlen hpos hsorted
    (x.getD i 0)).1
  generalize bin_search_loop (init_thresholds lowest c.quantization_levels (2 ^ K))
    (x.getD i 0) (2 ^ K) 0 (2 ^ K - 1) = r' at hnear hsearch hr'
  have hmem' : c.quantization_levels.getD r' (0, 0) ∈ init_levels S K (2 ^ K) := by
    rw [List.getD_eq_getElem _ _ (by omega : r' < c.quantization_levels.length)]
    have hm := List.getElem_mem (l := c.quantization_levels)
      (by omega : r' < c.quantization_levels.length)
    generalize c.quantization_levels[r'] = y at hm
    rw [h8] at hm
    exact (sort_levels_perm _).mem_iff.mp hm
  obtain ⟨e'', _, hx⟩ := (mem_init_levels S K (2 ^ K) _).mp hmem'
  rw [hx] at hnear hsearch
  rw [hsearch]
  exact hnear

/-- The nearest reconstruction at a concrete input: the codec for the scales `0.5, 1.0` and the value
`0.9` at index `3` of the vector `-2.0, -0.4, 0.2, 0.9, 2.0`. -/
theorem reconstruct_nearest_witness :
    (∃ e, e < 2 ^ 2
        ∧ (codecHalfOne.reconstruct sampleVector).getD 3 0 = level_value [1 / 2, 1] 2 e)
    ∧ ∀ e, e < 2 ^ 2 →
        |(codecHalfOne.reconstruct sampleVector).getD 3 0 - sampleVector.getD 3 0|
          ≤ |level_value [1 / 2, 1] 2 e - sampleVector.getD 3 0| :=
  reconstruct_nearest FLT_LOWEST 5 2 [1 / 2, 1] sampleVector codecHalfOne (by decide)
    (lquantizer_new_ok FLT_LOWEST 5 2 [1 / 2, 1] (by decide) (by decide) (by decide) (by decide))
    (by decide!) 3 (by decide)

/-- C4 (failing input). With the sorted scales `-2.0, -1.0` the constructor leaves the
levels `3, -1, 1, -3` in the table, the first and the last one not in their correct
places, and the thresholds are `lowest, 1, 0, -1`; for the value `-0.5` the binary search returns the encoding `0` stored
at index `0`, although index `3` (encoding `3`) is the largest index whose threshold is
below the value. -/
theorem bin_search_not_largest_negative_scales :
    ∃ c, lquantizer.LQBinarizer.new FLT_LOWEST 1 [(-2 : ℚ), -1] 2 = .ok c
      ∧ c.quantization_levels = [(3, 0), (-1, 1), (1, 2), (-3, 3)]
      ∧ c.quantization_thresholds = [FLT_LOWEST, 1, 0, -1]
      ∧ c.bin_search_encoding (-1 / 2) = 0
      ∧ c.quantization_thresholds.getD 3 0 < -1 / 2 :=
  ⟨lquantizer.LQBinarizer.built FLT_LOWEST 1 [-2, -1] 2,
    lquantizer_new_ok FLT_LOWEST 1 2 [-2, -1] (by decide) (by decide) (by decide) (by decide),
    by decide!, by decide!, by decide!, by decide!⟩

/-- The search result where the scales are non-negative.
For every codec returned by either constructor (for a vector length `N`
that is an `int32_t`) from non-negative scales and every value `v`, `bin_search_encoding v` is the
encoding `L[r].encoding` at the largest index `r < 2^K` with `T[r] < v`, where index `0`
counts as below every value: `r = 0` or `T[r] < v`, and `T[j] < v` fails for every
`j` with `r < j < 2^K`. -/
theorem bin_search_encoding_largest {α : Type} [LinearOrderedField α] (lowest : α) (N : Nat)
    (v : α) :
    (∀ (K : Nat) (S : List α) (c : lquantizer.LQBinarizer α),
      N < 2147483648 → lquantizer.LQBinarizer.new lowest N S K = .ok c →
      (∀ b, b < K → 0 ≤ S.getD b 0) →
      ∃ r, r < 2 ^ K
        ∧ c.bin_search_encoding v = (c.quantization_levels.getD r (0, 0)).2
        ∧ (r = 0 ∨ c.quantization_thresholds.getD r 0 < v)
        ∧ ∀ j, r < j → j < 2 ^ K → ¬ c.quantization_thresholds.getD j 0 < v)
    ∧ (∀ (data_scales : Tensor α) (c : kernels.LQBinarizer α),
      N < 2147483648 → kernels.LQBinarizer.new lowest N data_scales = .ok c →
      (∀ b, b < data_scales.dim 0 → 0 ≤ data_scales.float_data.getD b 0) →
      ∃ r, r < 2 ^ data_scales.dim 0
        ∧ c.bin_search_encoding v = (c.quantization_levels.getD r (0, 0)).2
        ∧ (r = 0 ∨ c.quantization_thresholds.getD r 0 < v)
        ∧ ∀ j, r < j → j < 2 ^ data_scales.dim 0 →
            ¬ c.quantization_thresholds.getD j 0 < v) := by
  constructor
  · intro K S c hN hc hS
    obtain ⟨hK1, _, _, _, rfl⟩ := lquantizer_new_built lowest N K S c hN hc
    exact bin_search_largest lowest S K hK1 hS v
  · intro data_scales c hN hc hS
    obtain ⟨hK1, _, _, rfl⟩ := kernels_new_built lowest N data_scales c hN hc
    exact bin_search_largest lowest data_scales.float_data (data_scales.dim 0) hK1 hS v

/-- The search result at a concrete input: the training-time codec for the scales `0.5, 1.0`
and the value `0.9`. -/
theorem bin_search_encoding_largest_witness :
    ∃ r, r < 2 ^ 2
      ∧ codecHalfOne.bin_search_encoding (9 / 10)
          = (codecHalfOne.quantization_levels.getD r (0, 0)).2
      ∧ (r = 0 ∨ codecHalfOne.quantization_thresholds.getD r 0 < 9 / 10)
      ∧ ∀ j, r < j → j < 2 ^ 2 → ¬ codecHalfOne.quantization_thresholds.getD j 0 < 9 / 10 :=
  (bin_search_encoding_largest FLT_LOWEST 5 (9 / 10 : ℚ)).1 2 [1 / 2, 1] codecHalfOne
    (by decide)
    (lquantizer_new_ok FLT_LOWEST 5 2 [1 / 2, 1] (by decide) (by decide) (by decide) (by decide))
    (by decide!)

/-- C5. After `quantize_and_pack v`, whatever the bit-plane buffer held before (`junk`),
for every plane `b < K` and every position `j < 32 * ceil(N/32)`, bit `j & 31` of word
`B[b][j >> 5]` is `1` exactly when `j < N` and bit `b` of the encoding chosen for `v[j]`
is `1`; this holds for the training-time codec and for the inference-time codec. -/
theorem quantize_and_pack_bits {α : Type} [LinearOrderedField α] :
    (∀ (c : lquantizer.LQBinarizer α) (junk : List Nat) (v : List α) (b j : Nat),
      c.data_bin_size = (c.data_float_size + 31) / 32 → b < c.encode_bits →
      j < 32 * ((c.data_float_size + 31) / 32) →
      ((({ c with data_binary := junk }.quantize_and_pack v).data_binary.getD
            (calcOffset c.data_bin_size b (j >>> 5)) 0 >>> (j &&& 31)) &&& 1 = 1
        ↔ (j < c.data_float_size ∧ (c.bin_search_encoding (v.getD j 0) >>> b) &&& 1 = 1)))
    ∧ (∀ (c : kernels.LQBinarizer α) (junk : List Nat) (v : List α) (b j : Nat),
      c.data_bin_size = (c.data_float_size + 31) / 32 → b < c.encode_bits →
      j < 32 * ((c.data_float_size + 31) / 32) →
      ((({ c with data_binary := junk }.quantize_and_pack v).data_binary.getD
            (calcOffset c.data_bin_size b (j >>> 5)) 0 >>> (j &&& 31)) &&& 1 = 1
        ↔ (j < c.data_float_size ∧ (c.bin_search_encoding (v.getD j 0) >>> b) &&& 1 = 1))) := by
  constructor
  · intro c junk v b j hbin hb hj
    have h := lq_quantize_and_pack_bits { c with data_binary := junk } v hbin b j hb
      (by rw [hbin]; exact hj)
    rw [bit_is_one_iff, bit_is_one_iff, shiftRight_5, and_31]
    unfold calcOffset
    rw [h]
    simp [lquantizer.LQBinarizer.bin_search_encoding]
  · intro c junk v b j hbin hb hj
    have h := kernel_quantize_and_pack_bits { c with data_binary := junk } v hbin b j hb
      (by rw [hbin]; exact hj)
    rw [bit_is_one_iff, bit_is_one_iff, shiftRight_5, and_31]
    unfold calcOffset
    rw [h]
    simp [kernels.LQBinarizer.bin_search_encoding]

/-- C5, at a concrete input: the training-time codec for the scales `0.5, 1.0`, a buffer
full of set bits, the vector `-2.0, -0.4, 0.2, 0.9, 2.0`, plane `1`, position `2`. -/
theorem quantize_and_pack_bits_witness :
    ((({ codecHalfOne with data_binary := [4294967295, 4294967295] }.quantize_and_pack
          sampleVector).data_binary.getD
            (calcOffset codecHalfOne.data_bin_size 1 (2 >>> 5)) 0 >>> (2 &&& 31)) &&& 1 = 1
      ↔ (2 < codecHalfOne.data_float_size
          ∧ (codecHalfOne.bin_search_encoding (sampleVector.getD 2 0) >>> 1) &&& 1 = 1)) :=
  (quantize_and_pack_bits (α := ℚ)).1 codecHalfOne [4294967295, 4294967295] sampleVector 1 2
    (by decide) (by decide) (by decide)

/-- C6. For every codec with scales `S` and every content `B` of its packed buffer,
`unpack_binary` fills a buffer of `K * N` signed bytes so that entry `i * K + b` is `+1`
when bit `i` of plane `b` is `1` and `-1` when it is `0`, and `dequantize` applied to that
buffer yields `S[0] * (2 * bit(B,0,i) - 1) + ... + S[K-1] * (2 * bit(B,K-1,i) - 1)` at every
`i < N`. -/
theorem unpack_dequantize {α : Type} [LinearOrderedField α] (c : lquantizer.LQBinarizer α)
    (buffer : List Int) (data : List α)
    (hbuffer : buffer.length = c.encode_bits * c.data_float_size)
    (hdata : c.data_float_size ≤ data.length) :
    (c.unpack_binary buffer).length = c.encode_bits * c.data_float_size
    ∧ (∀ i b, i < c.data_float_size → b < c.encode_bits →
        (c.unpack_binary buffer).getD (i * c.encode_bits + b) 0
          = if c.bit b i = 1 then 1 else -1)
    ∧ (∀ i, i < c.data_float_size →
        (c.dequantize (c.unpack_binary buffer) data c.data_float_size).getD i 0
          = ∑ b in Finset.range c.encode_bits,
              c.scales.getD b 0 * (2 * (c.bit b i : α) - 1)) := by
  obtain ⟨h1, h2'⟩ := unpack_binary_spec c buffer hbuffer
  have h2 : ∀ i b, i < c.data_float_size → b < c.encode_bits →
      (c.unpack_binary buffer).getD (i * c.encode_bits + b) 0
        = if c.bit b i = 1 then 1 else -1 := h2'
  obtain ⟨_, h3, _⟩ := dequantize_spec c (c.unpack_binary buffer) data c.data_float_size hdata
  refine ⟨h1, h2, fun i hi => ?_⟩
  rw [h3 i hi]
  refine Finset.sum_congr rfl (fun b hb => ?_)
  rw [h2 i b hi (Finset.mem_range.mp hb)]
  have hbit : c.bit b i = 1 ∨ c.bit b i = 0 := by
    rw [lq_bit_eq]
    by_cases h : (c.data_binary.getD (b * c.data_bin_size + i / 32) 0).testBit (i % 32) = true
    · left; rw [if_pos h]
    · right; rw [if_neg h]
  rcases hbit with h | h
  · rw [h, if_pos rfl]
    push_cast
    ring
  · rw [h, if_neg (by decide)]
    push_cast
    ring

/-- C6, at a concrete input: the codec for the scales `0.5, 1.0` after packing the vector
`-2.0, -0.4, 0.2, 0.9, 2.0`, unpacked into a zeroed buffer of 10 bytes and dequantized
into a zeroed vector of 5 values. -/
theorem unpack_dequantize_witness :
    ((codecHalfOne.quantize_and_pack sampleVector).unpack_binary (List.replicate 10 0)).length
      = (codecHalfOne.quantize_and_pack sampleVector).encode_bits
          * (codecHalfOne.quantize_and_pack sampleVector).data_float_size
    ∧ (∀ i b, i < (codecHalfOne.quantize_and_pack sampleVector).data_float_size →
        b < (codecHalfOne.quantize_and_pack sampleVector).encode_bits →
        ((codecHalfOne.quantize_and_pack sampleVector).unpack_binary (List.replicate 10 0)).getD
            (i * (codecHalfOne.quantize_and_pack sampleVector).encode_bits + b) 0
          = if (codecHalfOne.quantize_and_pack sampleVector).bit b i = 1 then 1 else -1)
    ∧ (∀ i, i < (codecHalfOne.quantize_and_pack sampleVector).data_float_size →
        ((codecHalfOne.quantize_and_pack sampleVector).dequantize
            ((codecHalfOne.quantize_and_pack sampleVector).unpack_binary (List.replicate 10 0))
            (List.replicate 5 0)
            (codecHalfOne.quantize_and_pack sampleVector).data_float_size).getD i 0
          = ∑ b in Finset.range (codecHalfOne.quantize_and_pack sampleVector).encode_bits,
              (codecHalfOne.quantize_and_pack sampleVector).scales.getD b 0
                * (2 * ((codecHalfOne.quantize_and_pack sampleVector).bit b i : ℚ) - 1)) :=
  unpack_dequantize (codecHalfOne.quantize_and_pack sampleVector) (List.replicate 10 0)
    (List.replicate 5 0) (by decide) (by decide)

/-- C8 (failing input). With the sorted scales `-0.5, 1.0` the constructor builds the
level table `-0.5, -1.5, 1.5, 0.5` (encodings `0, 1, 2, 3`): only the two entries in the
middle are sorted, the first and the last value do not have correct places, and the table
is not in ascending order of value. -/
theorem level_table_unsorted_negative_scale :
    ∃ c, lquantizer.LQBinarizer.new FLT_LOWEST 1 [(-1 / 2 : ℚ), 1] 2 = .ok c
      ∧ c.quantization_levels = [(-1 / 2, 0), (-3 / 2, 1), (3 / 2, 2), (1 / 2, 3)]
      ∧ ¬ c.quantization_levels.Pairwise (fun a b => a.1 ≤ b.1) :=
  ⟨lquantizer.LQBinarizer.built FLT_LOWEST 1 [-1 / 2, 1] 2,
    lquantizer_new_ok FLT_LOWEST 1 2 [-1 / 2, 1] (by decide) (by decide) (by decide) (by decide),
    by decide!, by decide!⟩

/-- The level table where the scales are non-negative.
For every codec returned by either constructor (for a vector length `N`
that is an `int32_t`) from non-negative scales, the level table, of which only the indices
`1 .. 2^K - 2` are sorted, is in ascending order of value over all its indices, with the
all-minus encoding `0` at index `0` and the all-plus encoding `2^K - 1` at index
`2^K - 1`. -/
theorem level_table_sorted {α : Type} [LinearOrderedField α] (lowest : α) (N : Nat) :
    (∀ (K : Nat) (S : List α) (c : lquantizer.LQBinarizer α),
      N < 2147483648 → lquantizer.LQBinarizer.new lowest N S K = .ok c →
      (∀ b, b < K → 0 ≤ S.getD b 0) →
      c.quantization_levels.Pairwise (fun a b => a.1 ≤ b.1)
        ∧ (c.quantization_levels.getD 0 (0, 0)).2 = 0
        ∧ (c.quantization_levels.getD (2 ^ K - 1) (0, 0)).2 = 2 ^ K - 1)
    ∧ (∀ (data_scales : Tensor α) (c : kernels.LQBinarizer α),
      N < 2147483648 → kernels.LQBinarizer.new lowest N data_scales = .ok c →
      (∀ b, b < data_scales.dim 0 → 0 ≤ data_scales.float_data.getD b 0) →
      c.quantization_levels.Pairwise (fun a b => a.1 ≤ b.1)
        ∧ (c.quantization_levels.getD 0 (0, 0)).2 = 0
        ∧ (c.quantization_levels.getD (2 ^ data_scales.dim 0 - 1) (0, 0)).2
            = 2 ^ data_scales.dim 0 - 1) := by
  constructor
  · intro K S c hN hc hS
    obtain ⟨hK1, _, _, _, rfl⟩ := lquantizer_new_built lowest N K S c hN hc
    exact sort_levels_init_sorted S K hK1 hS
  · intro data_scales c hN hc hS
    obtain ⟨hK1, _, _, rfl⟩ := kernels_new_built lowest N data_scales c hN hc
    exact sort_levels_init_sorted data_scales.float_data (data_scales.dim 0) hK1 hS

/-- The sorted level table at a concrete input: the inference-time codec for the scales
`0.5, 1.0`. -/
theorem level_table_sorted_witness :
    kernelCodecHalfOne.quantization_levels.Pairwise (fun a b => a.1 ≤ b.1)
      ∧ (kernelCodecHalfOne.quantization_levels.getD 0 (0, 0)).2 = 0
      ∧ (kernelCodecHalfOne.quantization_levels.getD (2 ^ (floatTensor [2] [1 / 2, 1]).dim 0 - 1)
          (0, 0)).2 = 2 ^ (floatTensor [2] [1 / 2, 1]).dim 0 - 1 :=
  (level_table_sorted FLT_LOWEST 5).2 (floatTensor [2] [1 / 2, 1]) kernelCodecHalfOne
    (by decide)
    (kernels_new_ok FLT_LOWEST 5 (floatTensor [2] [1 / 2, 1]) (by decide) (by decide)
      (by decide))
    (by decide!)

/-- C9 (failing input). For `K = 31` the constructor's `int32_t` value of `1 << K` is
`-2147483648`, not `2^31`; the level table cannot be allocated and the construction fails,
so no table of `2^31` entries is built. -/
theorem level_count_overflow_31 :
    shl32 1 31 = -2147483648
      ∧ lquantizer.LQBinarizer.new FLT_LOWEST 1 (List.replicate 31 (1 : ℚ)) 31
          = .error .bad_alloc :=
  ⟨shl32_one_31, lquantizer_new_31 FLT_LOWEST 1 _ (by decide)⟩

/-! ## The kernel: configuration -/

section Configure

open kernels

variable {α : Type} [LinearOrderedField α]

theorem check_bind {β : Type} (cond : Bool) (f : Unit → Except Error β) :
    (LUCI_INTERPRETER_CHECK cond >>= f) = if cond = true then f () else .error .runtime_error := by
  cases cond <;> rfl

omit [LinearOrderedField α] in
theorem bias_match_iff (bias? : Option (Tensor α)) (P : Tensor α → Prop) [DecidablePred P] :
    (match bias? with
      | none => true
      | some bias => decide (P bias)) = true ↔ ∀ bias, bias? = some bias → P bias := by
  cases bias? with
  | none => simp
  | some t => simp

/-- The kernel after a successful `configure`: the output resized to
`[input.dim(0), weights_binary.dim(0)]` and the scratch codec `ib` installed. -/
theorem configure_of_valid (lowest : α) (k : LQFullyConnected α) (hv : k.Valid) :
    k.configure lowest
      = (LQBinarizer.new lowest (k.input.dim 1) k.input_scales >>= fun ib =>
          pure { k with
            output := resize k.output [k.input.dim 0, k.weights_binary.dim 0]
            input_binary := some ib }) := by
  obtain ⟨h1, h2, h3, h4, h5, h6, h7, h8, h9, h10, h11, h12, h13, h14, h15, h16⟩ := hv
  unfold LQFullyConnected.configure
  simp only [check_bind, decide_eq_true_eq]
  rw [if_pos h1, if_pos h2, if_pos h3, if_pos h4, if_pos h5,
    if_pos ((bias_match_iff k.bias (fun bias => bias.element_type = DataType.FLOAT32)).mpr h6),
    if_pos h7, if_pos h8,
    if_pos ((bias_match_iff k.bias
      (fun bias => bias.num_elements = k.weights_binary.dim 0)).mpr h9),
    if_pos h10, if_pos h11, if_pos h12, if_pos h13, if_pos h14, if_pos h15, if_pos h16]

/-- When one of the checked conditions is violated, `configure` throws. -/
theorem configure_of_invalid (lowest : α) (k : LQFullyConnected α) (hv : ¬ k.Valid) :
    k.configure lowest = .error .runtime_error := by
  unfold LQFullyConnected.configure
  simp only [check_bind, decide_eq_true_eq, ← ite_and]
  rw [if_neg]
  rintro ⟨h1, h2, h3, h4, h5, h6, h7, h8, h9, h10, h11, h12, h13, h14, h15, h16⟩
  exact hv ⟨h1, h2, h3, h4, h5,
    (bias_match_iff k.bias (fun bias => bias.element_type = DataType.FLOAT32)).mp h6,
    h7, h8,
    (bias_match_iff k.bias (fun bias => bias.num_elements = k.weights_binary.dim 0)).mp h9,
    h10, h11, h12, h13, h14, h15, h16⟩

/-- With no input bit the scratch codec cannot be built: the level table has one entry
and the range handed to `std::sort` ends before it begins. -/
theorem kernels_new_0 (lowest : α) (N : Nat) (data_scales : Tensor α)
    (hK : data_scales.dim 0 = 0) :
    LQBinarizer.new lowest N data_scales = .error .undefined := by
  unfold LQBinarizer.new
  have h1 : shl32 1 0 = 1 := by decide
  simp only [hK, h1, Nat.cast_zero, mul_zero]
  rw [if_neg (by decide), if_neg (by decide), if_pos (by decide)]

omit [LinearOrderedField α] in
/-- The checked conditions leave room for the rounding of `ceil_div`. -/
theorem valid_hidden_size (k : LQFullyConnected α) (hH : k.input.dim 1 < 2147483648)
    (hv : k.Valid) : k.input.dim 1 + 31 < 2147483648 := by
  obtain ⟨_, _, _, _, _, _, _, _, _, _, _, h12, _, _, _, h16⟩ := hv
  by_contra hcon
  have := (ceil_div_32_neg (k.input.dim 1) (by omega) hH).2
  rw [← h16] at h12
  omega

/-- A successful `configure`: the conditions hold, the hidden size leaves room for the
rounding of `ceil_div`, the number of input bits is between 1 and 30, and the configured
kernel is the given one with the output resized and a freshly built scratch codec. -/
theorem configure_ok_inv (lowest : α) (k k' : LQFullyConnected α)
    (hH : k.input.dim 1 < 2147483648) (hcfg : k.configure lowest = .ok k') :
    k.Valid ∧ k.input.dim 1 + 31 < 2147483648 ∧ 1 ≤ k.input_scales.dim 0
      ∧ k.input_scales.dim 0 ≤ 30
      ∧ k' = { k with
          output := resize k.output [k.input.dim 0, k.weights_binary.dim 0]
          input_binary := some (LQBinarizer.built lowest (k.input.dim 1) k.input_scales) } := by
  by_cases hv : k.Valid
  · rw [configure_of_valid lowest k hv] at hcfg
    cases hnew : LQBinarizer.new lowest (k.input.dim 1) k.input_scales with
    | error e =>
      rw [hnew] at hcfg
      cases hcfg
    | ok c =>
      obtain ⟨hK1, hK, hN, rfl⟩ := kernels_new_built lowest _ _ c hH hnew
      rw [hnew] at hcfg
      refine ⟨hv, hN, hK1, hK, ?_⟩
      injection hcfg with h
      exact h.symm
  · rw [configure_of_invalid lowest k hv] at hcfg
    cases hcfg

/-- What `configure` does on a kernel whose hidden size is an `int32_t`: it throws when a
checked condition is violated; when all of them hold it succeeds for 1 to 30 input bits,
with the output resized to `[input.dim(0), weights_binary.dim(0)]`, throws for 31 input
bits, and has no defined behaviour for no input bit. -/
theorem configure_spec (lowest : α) (k : LQFullyConnected α)
    (hH : k.input.dim 1 < 2147483648) :
    (¬ k.Valid → k.configure lowest = .error .runtime_error)
    ∧ (k.Valid → 1 ≤ k.input_scales.dim 0 → k.input_scales.dim 0 ≤ 30 →
        k.configure lowest = .ok { k with
          output := resize k.output [k.input.dim 0, k.weights_binary.dim 0]
          input_binary := some (LQBinarizer.built lowest (k.input.dim 1) k.input_scales) })
    ∧ (k.Valid → k.input_scales.dim 0 = 31 → k.configure lowest = .error .bad_alloc)
    ∧ (k.Valid → k.input_scales.dim 0 = 0 → k.configure lowest = .error .undefined) := by
  refine ⟨configure_of_invalid lowest k, fun hv hK1 hK => ?_, fun hv hK => ?_, fun hv hK => ?_⟩
  · rw [configure_of_valid lowest k hv,
      kernels_new_ok lowest _ _ (valid_hidden_size k hH hv) hK1 hK]
    rfl
  · rw [configure_of_valid lowest k hv, kernels_new_31 lowest _ _ hK]
    rfl
  · rw [configure_of_valid lowest k hv, kernels_new_0 lowest _ _ hK]
    rfl

end Configure

/-! ## The kernel: execution -/

section Execute

open kernels

variable {α : Type} [LinearOrderedField α]

omit [LinearOrderedField α] in
theorem getD_take {β : Type} (l : List β) (n i : Nat) (d : β) (hi : i < n) :
    (l.take n).getD i d = l.getD i d := by
  rw [List.getD_eq_getElem?_getD, List.getD_eq_getElem?_getD, List.getElem?_take_of_lt hi]

theorem foldl_wrap_congr (f g : Nat → Int) (l : List Nat) (p0 : Int)
    (h : ∀ i, i ∈ l → f i = g i) :
    l.foldl (fun p i => wrapS32 (p + f i)) p0 = l.foldl (fun p i => wrapS32 (p + g i)) p0 := by
  refine List.foldl_ext _ _ _ (fun p i hi => ?_)
  rw [h i hi]

/-- The popcount dot product reads only the first `real_size` words of its operands. -/
theorem bin_dot_take (hidden_size : Int) (real_size : Nat) (A B : List Nat) :
    bin_dot hidden_size real_size (A.take real_size) (B.take real_size)
      = bin_dot hidden_size real_size A B := by
  unfold bin_dot
  simp only [Int.toNat_ofNat]
  congr 3
  refine List.foldl_ext _ _ _ (fun p i hi => ?_)
  have hi' : i < real_size := List.mem_range.mp hi
  rw [getD_take A real_size i 0 hi', getD_take B real_size i 0 hi']

theorem output_total_eq_sum (hidden_size : Int) (real_size Ki Kw : Nat)
    (si sw : List α) (P W : List Nat) (o : Nat) :
    output_total hidden_size real_size Ki Kw si sw P W o
      = ∑ bi in Finset.range Ki, ∑ bw in Finset.range Kw,
          si.getD bi 0 * sw.getD (o * Kw + bw) 0
            * ((bin_dot hidden_size real_size (P.drop (bi * real_size))
                (W.drop ((o * Kw + bw) * real_size)) : Int) : α) := by
  unfold output_total calcOffset
  simp only [foldl_add_eq_sum, zero_add]

theorem kernel_quantize_and_pack_congr (c : kernels.LQBinarizer α) (x y : List α)
    (h : ∀ i, i < c.data_float_size → x.getD i 0 = y.getD i 0) :
    c.quantize_and_pack x = c.quantize_and_pack y := by
  unfold kernels.LQBinarizer.quantize_and_pack
  simp only
  congr 1
  refine List.foldl_ext _ _ _ (fun buf i hi => ?_)
  rw [h i (List.mem_range.mp hi)]

/-- Packing does not depend on what the scratch buffer held before. -/
theorem kernel_quantize_and_pack_scratch (c : kernels.LQBinarizer α) (junk junk' : List Nat)
    (v : List α) (h : junk.length = c.encode_bits * c.data_bin_size)
    (h' : junk'.length = c.encode_bits * c.data_bin_size) :
    ({ c with data_binary := junk }.quantize_and_pack v).data_binary
      = ({ c with data_binary := junk' }.quantize_and_pack v).data_binary := by
  unfold kernels.LQBinarizer.quantize_and_pack
  simp only [memset0_of_length junk _ h, memset0_of_length junk' _ h']
  rfl

theorem kernel_quantize_and_pack_fields (c : kernels.LQBinarizer α) (v : List α)
    (h : c.data_binary.length = c.encode_bits * c.data_bin_size) :
    c.quantize_and_pack v = { c with data_binary := (c.quantize_and_pack v).data_binary }
    ∧ (c.quantize_and_pack v).data_binary.length = c.encode_bits * c.data_bin_size := by
  refine ⟨rfl, ?_⟩
  unfold kernels.LQBinarizer.quantize_and_pack
  simp only
  rw [pack_loop_length c.encode_bits c.data_bin_size
    (fun i => c.bin_search_encoding (v.getD i 0)), memset0_of_length _ _ h,
    List.length_replicate]

/-- The loop over the batches of `evalFloat`: whatever the scratch buffer of the codec
`c0` holds at the start, the output is the rows one after the other, and row `b` is made
from the planes that `c0` packs from the input at offset `b * H`. -/
theorem batch_fold_spec (c0 : kernels.LQBinarizer α) (input : List α) (H O : Nat)
    (mkrow : List Nat → List α) (hrow : ∀ P, (mkrow P).length = O) (m : Nat)
    (junk : List Nat) (hjunk : junk.length = c0.encode_bits * c0.data_bin_size) :
    (∃ D, ((List.range m).foldl
            (fun (state : kernels.LQBinarizer α × List α) batch =>
              (state.1.quantize_and_pack (input.drop (calcOffset H batch 0)),
                state.2 ++ mkrow
                  (state.1.quantize_and_pack (input.drop (calcOffset H batch 0))).data_binary))
            ({ c0 with data_binary := junk }, [])).1 = { c0 with data_binary := D }
          ∧ D.length = c0.encode_bits * c0.data_bin_size)
    ∧ ((List.range m).foldl
          (fun (state : kernels.LQBinarizer α × List α) batch =>
            (state.1.quantize_and_pack (input.drop (calcOffset H batch 0)),
              state.2 ++ mkrow
                (state.1.quantize_and_pack (input.drop (calcOffset H batch 0))).data_binary))
          ({ c0 with data_binary := junk }, [])).2.length = m * O
    ∧ ∀ b o, b < m → o < O →
        ((List.range m).foldl
          (fun (state : kernels.LQBinarizer α × List α) batch =>
            (state.1.quantize_and_pack (input.drop (calcOffset H batch 0)),
              state.2 ++ mkrow
                (state.1.quantize_and_pack (input.drop (calcOffset H batch 0))).data_binary))
          ({ c0 with data_binary := junk }, [])).2.getD (b * O + o) 0
          = (mkrow ({ c0 with data_binary := List.replicate (c0.encode_bits * c0.data_bin_size) 0
                    }.quantize_and_pack (input.drop (b * H))).data_binary).getD o 0 := by
  induction m with
  | zero =>
    exact ⟨⟨junk, rfl, hjunk⟩, by simp, fun b o hb _ => absurd hb (Nat.not_lt_zero b)⟩
  | succ m ih =>
    obtain ⟨⟨D, hD1, hD2⟩, hlen, hget⟩ := ih
    rw [List.range_succ, List.foldl_append]
    simp only [List.foldl_cons, List.foldl_nil]
    generalize (List.range m).foldl
          (fun (state : kernels.LQBinarizer α × List α) batch =>
            (state.1.quantize_and_pack (input.drop (calcOffset H batch 0)),
              state.2 ++ mkrow
                (state.1.quantize_and_pack (input.drop (calcOffset H batch 0))).data_binary))
          ({ c0 with data_binary := junk }, []) = st at hD1 hlen hget
    rw [hD1]
    have hsucc : (m + 1) * O = m * O + O := Nat.succ_mul m O
    refine ⟨⟨_, rfl, ?_⟩, ?_, fun b o hb ho => ?_⟩
    · exact (kernel_quantize_and_pack_fields { c0 with data_binary := D } _ hD2).2
    · rw [List.length_append, hlen, hrow, hsucc]
    · by_cases hbm : b = m
      · subst hbm
        rw [List.getD_eq_getElem?_getD, List.getElem?_append_right (by rw [hlen]; omega), hlen,
          ← List.getD_eq_getElem?_getD]
        have : b * O + o - b * O = o := by omega
        rw [this, kernel_quantize_and_pack_scratch c0 D
          (List.replicate (c0.encode_bits * c0.data_bin_size) 0) _ hD2 (by simp)]
        unfold calcOffset
        rw [Nat.add_zero]
      · have hlt : b < m := by omega
        have h1 : (b + 1) * O ≤ m * O := Nat.mul_le_mul_right _ hlt
        have h2 : (b + 1) * O = b * O + O := Nat.succ_mul b O
        rw [List.getD_append _ _ _ _ (by rw [hlen]; omega)]
        exact hget b o hlt ho

end Execute

section ExecuteMain

open kernels

variable {α : Type} [LinearOrderedField α]

/-- The value that `evalFloat` stores for one output of a batch row before the
activation, as a function of the packed planes `P` of the row. -/
theorem output_row_getD (hidden_size : Int) (real_size Ki Kw O : Nat) (si sw : List α)
    (W : List Nat) (bias_data : Option (List α)) (P : List Nat) (o : Nat) (ho : o < O) :
    (output_row hidden_size real_size Ki Kw O si sw W bias_data P).getD o 0
      = output_total hidden_size real_size Ki Kw si sw P W o
          + (match bias_data with
              | some bias_data => bias_data.getD o 0
              | none => 0) := by
  have hmap : ∀ f : Nat → α, ((List.range O).map f).getD o 0 = f o := by
    intro f
    rw [List.getD_eq_getElem _ _ (by simpa using ho)]
    simp
  unfold output_row
  cases bias_data with
  | none => simp only [hmap, add_zero]
  | some bd => simp only [hmap]

theorem output_row_length (hidden_size : Int) (real_size Ki Kw O : Nat) (si sw : List α)
    (W : List Nat) (bias_data : Option (List α)) (P : List Nat) :
    (output_row hidden_size real_size Ki Kw O si sw W bias_data P).length = O := by
  unfold output_row
  cases bias_data <;> simp

omit [LinearOrderedField α] in
theorem computeActivationInplace_all (act : α → α) (data : List α) :
    computeActivationInplace act data data.length = data.map act := by
  unfold computeActivationInplace
  simp

theorem bias_at_eq (k : LQFullyConnected α) (o : Nat) :
    (match Option.map (fun bias : Tensor α => bias.float_data) k.bias with
      | some bias_data => bias_data.getD o 0
      | none => 0) = k.bias_at o := by
  unfold LQFullyConnected.bias_at
  cases k.bias <;> rfl

omit [LinearOrderedField α] in
theorem getElem?_map_getD {β : Type} (f : α → β) (l : List α) (i : Nat) (d : α)
    (hi : i < l.length) : (l.map f)[i]? = some (f (l.getD i d)) := by
  rw [List.getElem?_map, List.getElem?_eq_getElem hi, List.getD_eq_getElem _ _ hi]
  rfl

/-- What `execute` writes after a successful `configure`, whatever the scratch bit-plane
buffer holds when it starts: output `b * output_size + o` is the activation of the sum of
`input_scales[bi] * weights_scales[o, bw] * bin_dot(...)` plus the bias, with the input
planes packed from row `b` alone. -/
theorem execute_output (lowest : α) (k k' : LQFullyConnected α) (junk : List Nat)
    (hH : k.input.dim 1 < 2147483648)
    (hcfg : k.configure lowest = .ok k')
    (hjunk : junk.length = k.input_scales.dim 0 * ((k.input.dim 1 + 31) / 32)) :
    ∃ k'', (k'.with_scratch junk).execute = .ok k''
      ∧ k''.output.shape = [k.input.dim 0, k.weights_binary.dim 0]
      ∧ ∀ b o, b < k.input.dim 0 → o < k.weights_binary.dim 0 →
          k''.output.float_data[b * k.weights_binary.dim 0 + o]?
            = some (k.params.activation
                ((∑ bi in Finset.range (k.input_scales.dim 0),
                  ∑ bw in Finset.range (k.weights_scales.dim 1),
                    k.input_scales.float_data.getD bi 0
                      * k.weights_scales.float_data.getD (o * k.weights_scales.dim 1 + bw) 0
                      * ((bin_dot k.params.hidden_size (k.weights_binary.dim 2)
                          (((k.row_planes lowest b).drop (bi * k.weights_binary.dim 2)).take
                            (k.weights_binary.dim 2))
                          ((k.weights_binary.int_data.drop
                              ((o * k.weights_scales.dim 1 + bw) * k.weights_binary.dim 2)).take
                            (k.weights_binary.dim 2)) : Int) : α))
                  + k.bias_at o)) := by
  obtain ⟨hv, hN, _, hK, hk'⟩ := configure_ok_inv lowest k k' hH hcfg
  obtain ⟨h1, _, _, _, _, _, _, _, _, _, _, h12, _, _, _, h16⟩ := hv
  subst hk'
  unfold LQFullyConnected.execute LQFullyConnected.with_scratch
  simp only [h1, Option.map_some']
  unfold LQFullyConnected.evalFloat
  simp only
  have hd0 : (resize k.output [k.input.dim 0, k.weights_binary.dim 0]).dim 0
      = k.input.dim 0 := rfl
  have hd1 : (resize k.output [k.input.dim 0, k.weights_binary.dim 0]).dim 1
      = k.weights_binary.dim 0 := rfl
  have hne : (resize k.output [k.input.dim 0, k.weights_binary.dim 0]).num_elements
      = k.input.dim 0 * k.weights_binary.dim 0 := by
    simp [resize, Tensor.num_elements]
  simp only [hd0, hd1, hne]
  have hbuilt : ({ LQBinarizer.built lowest (k.input.dim 1) k.input_scales with
        data_binary := List.replicate
          ((LQBinarizer.built lowest (k.input.dim 1) k.input_scales).encode_bits
            * (LQBinarizer.built lowest (k.input.dim 1) k.input_scales).data_bin_size) 0 }
        : LQBinarizer α)
      = LQBinarizer.built lowest (k.input.dim 1) k.input_scales := by
    unfold LQBinarizer.built
    simp only [Nat.mul_comm]
  obtain ⟨_, hlen, hget⟩ := batch_fold_spec
    (LQBinarizer.built lowest (k.input.dim 1) k.input_scales) k.input.float_data
    (k.input.dim 1) (k.weights_binary.dim 0)
    (fun P => output_row k.params.hidden_size (k.weights_binary.dim 2) (k.input_scales.dim 0)
      (k.weights_scales.dim 1) (k.weights_binary.dim 0) k.input_scales.float_data
      k.weights_scales.float_data k.weights_binary.int_data
      (Option.map (fun bias => bias.float_data) k.bias) P)
    (fun P => output_row_length _ _ _ _ _ _ _ _ _ P) (k.input.dim 0) junk hjunk
  rw [hbuilt] at hget
  refine ⟨_, rfl, rfl, fun b o hb ho => ?_⟩
  simp only
  generalize (List.foldl
    (fun (state : LQBinarizer α × List α) batch =>
      (state.1.quantize_and_pack
          (List.drop (calcOffset (k.input.dim 1) batch 0) k.input.float_data),
        state.2 ++
          output_row k.params.hidden_size (k.weights_binary.dim 2) (k.input_scales.dim 0)
            (k.weights_scales.dim 1) (k.weights_binary.dim 0) k.input_scales.float_data
            k.weights_scales.float_data k.weights_binary.int_data
            (Option.map (fun bias => bias.float_data) k.bias)
            (state.1.quantize_and_pack
                (List.drop (calcOffset (k.input.dim 1) batch 0) k.input.float_data)).data_binary))
    ({ LQBinarizer.built lowest (k.input.dim 1) k.input_scales with data_binary := junk }, [])
    (List.range (k.input.dim 0))) = st at hlen hget
  have hidx : b * k.weights_binary.dim 0 + o < st.2.length := by
    have h1 : (b + 1) * k.weights_binary.dim 0 ≤ k.input.dim 0 * k.weights_binary.dim 0 :=
      Nat.mul_le_mul_right _ hb
    have h2 : (b + 1) * k.weights_binary.dim 0
        = b * k.weights_binary.dim 0 + k.weights_binary.dim 0 := Nat.succ_mul _ _
    omega
  have hplanes : ((LQBinarizer.built lowest (k.input.dim 1) k.input_scales).quantize_and_pack
        (List.drop (b * k.input.dim 1) k.input.float_data)).data_binary
      = k.row_planes lowest b := by
    unfold LQFullyConnected.row_planes
    rw [kernel_quantize_and_pack_congr _ _
      ((k.input.float_data.drop (b * k.input.dim 1)).take (k.input.dim 1))
      (fun i hi => (getD_take _ _ i 0 hi).symm)]
  have hval := hget b o hb ho
  rw [output_row_getD _ _ _ _ _ _ _ _ _ _ o ho, output_total_eq_sum, bias_at_eq, hplanes]
    at hval
  have hact : (computeActivationInplace k.params.activation st.2
      (k.input.dim 0 * k.weights_binary.dim 0))[b * k.weights_binary.dim 0 + o]?
      = some (k.params.activation (st.2.getD (b * k.weights_binary.dim 0 + o) 0)) := by
    rw [← hlen, computeActivationInplace_all]
    exact getElem?_map_getD _ _ _ 0 hidx
  rw [hact, hval]
  have hsum : ∀ P : List Nat,
      (∑ bi in Finset.range (k.input_scales.dim 0),
        ∑ bw in Finset.range (k.weights_scales.dim 1),
          k.input_scales.float_data.getD bi 0
            * k.weights_scales.float_data.getD (o * k.weights_scales.dim 1 + bw) 0
            * ((bin_dot k.params.hidden_size (k.weights_binary.dim 2)
                (P.drop (bi * k.weights_binary.dim 2))
                (k.weights_binary.int_data.drop
                  ((o * k.weights_scales.dim 1 + bw) * k.weights_binary.dim 2)) : Int) : α))
      = ∑ bi in Finset.range (k.input_scales.dim 0),
        ∑ bw in Finset.range (k.weights_scales.dim 1),
          k.input_scales.float_data.getD bi 0
            * k.weights_scales.float_data.getD (o * k.weights_scales.dim 1 + bw) 0
            * ((bin_dot k.params.hidden_size (k.weights_binary.dim 2)
                ((P.drop (bi * k.weights_binary.dim 2)).take (k.weights_binary.dim 2))
                ((k.weights_binary.int_data.drop
                  ((o * k.weights_scales.dim 1 + bw) * k.weights_binary.dim 2)).take
                    (k.weights_binary.dim 2)) : Int) : α) := by
    intro P
    refine Finset.sum_congr rfl (fun bi _ => Finset.sum_congr rfl (fun bw _ => ?_))
    rw [bin_dot_take]
  rw [hsum]

/-- C2. For every configuration accepted by `configure` (the hidden size an `int32_t`) and
whatever the scratch bit-plane buffer holds when `execute` starts (`junk`), `execute`
succeeds, the output has the shape `[input.dim(0), weights_binary.dim(0)]`, and for every
batch row `b` and output index `o` the output element at `b * output_size + o` is the
fused activation applied to the sum over all input planes `bi` and weight planes `bw` of
`input_scales[bi] * weights_scales[o, bw] * bin_dot(P[bi, :], weights_binary[o, bw, :])`
plus `bias[o]` (or `0` without a bias), where `P` is packed from input row `b` alone by a
freshly built codec: no other row and no earlier scratch content enters the value. -/
theorem execute_spec (lowest : α) (k k' : LQFullyConnected α) (junk : List Nat)
    (hH : k.input.dim 1 < 2147483648)
    (hcfg : k.configure lowest = .ok k')
    (hjunk : junk.length = k.input_scales.dim 0 * ((k.input.dim 1 + 31) / 32)) :
    ∃ k'', (k'.with_scratch junk).execute = .ok k''
      ∧ k''.output.shape = [k.input.dim 0, k.weights_binary.dim 0]
      ∧ ∀ b o, b < k.input.dim 0 → o < k.weights_binary.dim 0 →
          k''.output.float_data[b * k.weights_binary.dim 0 + o]?
            = some (k.params.activation
                ((∑ bi in Finset.range (k.input_scales.dim 0),
                  ∑ bw in Finset.range (k.weights_scales.dim 1),
                    k.input_scales.float_data.getD bi 0
                      * k.weights_scales.float_data.getD (o * k.weights_scales.dim 1 + bw) 0
                      * ((bin_dot k.params.hidden_size (k.weights_binary.dim 2)
                          (((k.row_planes lowest b).drop (bi * k.weights_binary.dim 2)).take
                            (k.weights_binary.dim 2))
                          ((k.weights_binary.int_data.drop
                              ((o * k.weights_scales.dim 1 + bw) * k.weights_binary.dim 2)).take
                            (k.weights_binary.dim 2)) : Int) : α))
                  + k.bias_at o)) :=
  execute_output lowest k k' junk hH hcfg hjunk

end ExecuteMain

/-! ## The kernel claims -/

section KernelClaims

open kernels

theorem kernelSimple_valid : kernelSimple.Valid := by decide

theorem kernelSimple_configure :
    kernelSimple.configure FLT_LOWEST = .ok kernelSimpleConfigured := by
  rw [configure_of_valid FLT_LOWEST kernelSimple kernelSimple_valid,
    kernels_new_ok FLT_LOWEST _ _ (by decide) (by decide) (by decide)]
  rfl

theorem kernelInputBits31_valid : kernelInputBits31.Valid := by decide

/-- C2, at a concrete input: the kernel of the test `LQFullyConnectedTest.Simple`, with a
scratch buffer holding the words `4294967295` and `12345` when `execute` starts. -/
theorem execute_spec_witness :
    ∃ k'', (kernelSimpleConfigured.with_scratch [4294967295, 12345]).execute = .ok k''
      ∧ k''.output.shape = [kernelSimple.input.dim 0, kernelSimple.weights_binary.dim 0]
      ∧ ∀ b o, b < kernelSimple.input.dim 0 → o < kernelSimple.weights_binary.dim 0 →
          k''.output.float_data[b * kernelSimple.weights_binary.dim 0 + o]?
            = some (kernelSimple.params.activation
                ((∑ bi in Finset.range (kernelSimple.input_scales.dim 0),
                  ∑ bw in Finset.range (kernelSimple.weights_scales.dim 1),
                    kernelSimple.input_scales.float_data.getD bi 0
                      * kernelSimple.weights_scales.float_data.getD
                          (o * kernelSimple.weights_scales.dim 1 + bw) 0
                      * ((bin_dot kernelSimple.params.hidden_size
                          (kernelSimple.weights_binary.dim 2)
                          (((kernelSimple.row_planes FLT_LOWEST b).drop
                              (bi * kernelSimple.weights_binary.dim 2)).take
                            (kernelSimple.weights_binary.dim 2))
                          ((kernelSimple.weights_binary.int_data.drop
                              ((o * kernelSimple.weights_scales.dim 1 + bw)
                                * kernelSimple.weights_binary.dim 2)).take
                            (kernelSimple.weights_binary.dim 2)) : Int) : ℚ))
                  + kernelSimple.bias_at o)) :=
  execute_spec FLT_LOWEST kernelSimple kernelSimpleConfigured [4294967295, 12345]
    (by decide) kernelSimple_configure (by decide)

/-- C10 (failing input). The kernel of the test `LQFullyConnectedTest.Simple` with 31
input scales satisfies every condition that `configure` checks (`31 < 32`), yet
`configure` does not succeed: the `int32_t` value of `1 << 31` is negative and building
the scratch codec throws. -/
theorem configure_fails_input_bits_31 :
    kernelInputBits31.Valid
      ∧ kernelInputBits31.input_scales.dim 0 = 31
      ∧ kernelInputBits31.configure FLT_LOWEST = .error .bad_alloc := by
  refine ⟨kernelInputBits31_valid, rfl, ?_⟩
  rw [configure_of_valid FLT_LOWEST kernelInputBits31 kernelInputBits31_valid,
    kernels_new_31 FLT_LOWEST (kernelInputBits31.input.dim 1) kernelInputBits31.input_scales rfl]
  rfl

end KernelClaims

/-! ## Failing constructions and the worked scenarios -/

section Scenarios

variable {α : Type} [LinearOrderedField α]

/-- The binary search never reads `thresholds[0]`: two threshold tables that agree from
index `1` on give the same result. -/
theorem bin_search_loop_congr (T T' : List α) (v : α)
    (h : ∀ m, 1 ≤ m → T.getD m 0 = T'.getD m 0) (fuel left right : Nat) :
    bin_search_loop T v fuel left right = bin_search_loop T' v fuel left right := by
  induction fuel generalizing left right with
  | zero => rfl
  | succ fuel ih =>
    unfold bin_search_loop
    by_cases hlt : left < right
    · rw [if_pos hlt, if_pos hlt]
      simp only [Nat.shiftRight_eq_div_pow, pow_one]
      rw [h ((left + right + 1) / 2) (by omega), ih, ih]
    · rw [if_neg hlt, if_neg hlt]

/-- With no bit the training-time codec cannot be built for a non-empty vector: the level
table has one entry and the range handed to `std::sort` ends before it begins. -/
theorem lquantizer_new_0 (lowest : α) (N : Nat) (S : List α) (hN : 1 ≤ N) :
    lquantizer.LQBinarizer.new lowest N S 0 = .error .undefined := by
  unfold lquantizer.LQBinarizer.new
  have h1 : shl32 1 0 = 1 := by decide
  rw [if_neg (by omega), if_neg (by decide)]
  simp only [h1, Nat.cast_zero, mul_zero]
  rw [if_neg (by decide), if_pos (by decide)]

/-- C11 (counterexample). The inference-time codec for vectors of length `0` with the two
scales `0.5, 1.0` is built: the constructor of `kernels::LQBinarizer` has no check on
the vector length. -/
theorem kernel_codec_built_for_length_0 :
    ∃ c, kernels.LQBinarizer.new FLT_LOWEST 0 (floatTensor [2] [1 / 2, 1]) = .ok c
      ∧ c.data_float_size = 0 ∧ c.encode_bits = 2 ∧ c.data_binary = [] :=
  ⟨kernels.LQBinarizer.built FLT_LOWEST 0 (floatTensor [2] [1 / 2, 1]),
    kernels_new_ok FLT_LOWEST 0 (floatTensor [2] [1 / 2, 1]) (by decide) (by decide)
      (by decide),
    rfl, rfl, rfl⟩

/-- C11 (amended). Constructing the training-time codec fails on its `assert` when the
vector length is `0`.  Neither constructor checks the bit count `K`: for `K < 1` (the call
of `std::sort` on a range that ends before it begins) and for `K ≥ 32` (the shift
`1 << K`) the construction has undefined behaviour, for the training-time codec (with a
vector length of at least `1`) and for the inference-time codec alike. -/
theorem construction_fails {α : Type} [LinearOrderedField α] (lowest : α) (N K : Nat)
    (S : List α) (data_scales : Tensor α) :
    lquantizer.LQBinarizer.new lowest 0 S K = .error .assertion
    ∧ (K < 1 ∨ 32 ≤ K → 1 ≤ N → lquantizer.LQBinarizer.new lowest N S K = .error .undefined)
    ∧ (data_scales.dim 0 < 1 ∨ 32 ≤ data_scales.dim 0 →
        kernels.LQBinarizer.new lowest N data_scales = .error .undefined) := by
  refine ⟨?_, fun hK hN => ?_, fun hK => ?_⟩
  · unfold lquantizer.LQBinarizer.new
    rw [if_pos rfl]
  · rcases hK with hK | hK
    · have h0 : K = 0 := by omega
      rw [h0]
      exact lquantizer_new_0 lowest N S hN
    · unfold lquantizer.LQBinarizer.new
      rw [if_neg (by omega), if_pos hK]
  · rcases hK with hK | hK
    · exact kernels_new_0 lowest N data_scales (by omega)
    · unfold kernels.LQBinarizer.new
      simp only
      rw [if_pos hK]

/-- C11 (amended), at a concrete input: vectors of length `5`, `32` bits for the
training-time codec and a scales tensor of shape `[0]` for the inference-time codec. -/
theorem construction_fails_witness :
    lquantizer.LQBinarizer.new FLT_LOWEST 0 [1 / 2, 1] 32 = .error .assertion
    ∧ lquantizer.LQBinarizer.new FLT_LOWEST 5 [1 / 2, 1] 32 = .error .undefined
    ∧ kernels.LQBinarizer.new FLT_LOWEST 5 (floatTensor [0] []) = .error .undefined :=
  ⟨(construction_fails FLT_LOWEST 5 32 [1 / 2, 1] (floatTensor [0] [])).1,
    (construction_fails FLT_LOWEST 5 32 [1 / 2, 1] (floatTensor [0] [])).2.1
      (Or.inr (by decide)) (by decide),
    (construction_fails FLT_LOWEST 5 32 [1 / 2, 1] (floatTensor [0] [])).2.2
      (Or.inl (by decide))⟩

/-- C12. The kernel of the test `LQFullyConnectedTest.Simple` (`Ki = 2`, `Kw = 3`,
`H = 5`, `O = 4`, one batch row): `configure` succeeds with the output shape `[1, 4]`,
and `execute` after it writes `-0.2014, -0.1546, 0.1526, 4.2936` in exact arithmetic,
each within `1e-3` of the expected value. -/
theorem simple_scenario :
    (kernelSimple.configure FLT_LOWEST).toOption.map (fun k => k.output.shape) = some [1, 4]
    ∧ ((kernelSimple.configure FLT_LOWEST >>= fun k => k.execute).toOption.map
        (fun k => k.output.float_data))
        = some [-1007 / 5000, -773 / 5000, 763 / 5000, 5367 / 1250]
    ∧ ((kernelSimple.configure FLT_LOWEST >>= fun k => k.execute).toOption.map
        (fun k => k.output.shape)) = some [1, 4]
    ∧ ∀ i, i < 4 →
        |([-1007 / 5000, -773 / 5000, 763 / 5000, 5367 / 1250] : List ℚ).getD i 0
          - ([-2014 / 10000, -1546 / 10000, 1526 / 10000, 42936 / 10000] : List ℚ).getD i 0|
          ≤ 1 / 1000 := by
  refine ⟨by decide!, by decide!, by decide!, ?_⟩
  intro i hi
  interval_cases i <;> norm_num

/-- C13. The training-time codec for `K = 2` and `S = [0.5, 1.0]` on vectors of length
`5`: the constructor succeeds, the level values in table order are
`-1.5, -0.5, 0.5, 1.5`, the thresholds are `lowest, -1.0, 0.0, 1.0`, where the entry at
index `0` stands for minus infinity (the search gives the same encoding whatever is stored
there), and `-2.0, -0.4, 0.2, 0.9, 2.0` is reconstructed as `-1.5, -0.5, 0.5, 0.5, 1.5`. -/
theorem codec_scenario :
    lquantizer.LQBinarizer.new FLT_LOWEST 5 [1 / 2, 1] 2 = .ok codecHalfOne
    ∧ codecHalfOne.quantization_levels.map (fun level => level.1)
        = [-3 / 2, -1 / 2, 1 / 2, 3 / 2]
    ∧ codecHalfOne.quantization_thresholds = [FLT_LOWEST, -1, 0, 1]
    ∧ (∀ t v : ℚ,
        bin_search codecHalfOne.levels_count codecHalfOne.quantization_levels
            (t :: codecHalfOne.quantization_thresholds.tail) v
          = codecHalfOne.bin_search_encoding v)
    ∧ codecHalfOne.reconstruct sampleVector = [-3 / 2, -1 / 2, 1 / 2, 1 / 2, 3 / 2] := by
  refine ⟨lquantizer_new_ok FLT_LOWEST 5 2 [1 / 2, 1] (by decide) (by decide) (by decide)
    (by decide), by decide!, by decide!, fun t v => ?_, by decide!⟩
  have hT : codecHalfOne.quantization_thresholds = [FLT_LOWEST, -1, 0, 1] := by decide!
  unfold lquantizer.LQBinarizer.bin_search_encoding bin_search
  simp only [hT, List.tail_cons]
  rw [bin_search_loop_congr (t :: [-1, 0, 1]) [FLT_LOWEST, -1, 0, 1] v
    (fun m hm => by
      obtain ⟨m', rfl⟩ : ∃ m', m = m' + 1 := ⟨m - 1, by omega⟩
      rfl)]

end Scenarios

/-! ## One-bit kernels -/

section OneBit

variable {α : Type} [LinearOrderedField α]

theorem one_bit_tables (lowest : α) (S : List α) (hs : S.getD 0 0 = 1) :
    sort_levels (init_levels S 1 (2 ^ 1)) = [(-1, 0), (1, 1)]
    ∧ init_thresholds lowest (sort_levels (init_levels S 1 (2 ^ 1))) (2 ^ 1) = [lowest, 0] := by
  have hl : init_levels S 1 (2 ^ 1) = [(-1, 0), (1, 1)] := by
    rw [List.getD_eq_getElem?_getD] at hs
    simp [init_levels, level_value, List.range_succ, hs]
  rw [hl]
  constructor
  · simp [sort_levels]
  · simp [sort_levels, init_thresholds, List.range_succ]

theorem kernel_encoding_one_bit (lowest : α) (N : Nat) (data_scales : Tensor α)
    (hK : data_scales.dim 0 = 1) (hs : data_scales.float_data.getD 0 0 = 1) (v : α) :
    (kernels.LQBinarizer.built lowest N data_scales).bin_search_encoding v
      = if 0 < v then 1 else 0 := by
  obtain ⟨hL, hT⟩ := one_bit_tables lowest data_scales.float_data hs
  unfold kernels.LQBinarizer.bin_search_encoding kernels.LQBinarizer.built bin_search
  simp only [hK]
  rw [hT, hL]
  by_cases hv : 0 < v
  · simp [bin_search_loop, hv]
  · simp [bin_search_loop, hv]

theorem sign_cases (v : α) : strict_sign v = 1 ∨ strict_sign v = -1 := by
  unfold strict_sign
  by_cases h : 0 < v
  · left; rw [if_pos h]
  · right; rw [if_neg h]

open kernels in
/-- The bit plane of a row packed by the one-bit codec with scale `1` holds the signs of
the row. -/
theorem one_bit_row_packed (lowest : α) (N : Nat) (data_scales : Tensor α) (x : List α)
    (hK : data_scales.dim 0 = 1) (hs : data_scales.float_data.getD 0 0 = 1) :
    PackedSigns N (fun i => strict_sign (x.getD i 0))
      ((((LQBinarizer.built lowest N data_scales).quantize_and_pack x).data_binary.drop
        (0 * ((N + 31) / 32))).take ((N + 31) / 32)) := by
  intro j hj
  have hlt : j / 32 < (N + 31) / 32 := by omega
  rw [getD_take _ _ _ _ hlt, Nat.zero_mul, List.drop_zero]
  have h := kernel_quantize_and_pack_bits (LQBinarizer.built lowest N data_scales) x rfl 0 j
    (by show 0 < data_scales.dim 0; omega) hj
  have h0 : 0 * (LQBinarizer.built lowest N data_scales).data_bin_size + j / 32 = j / 32 := by
    rw [Nat.zero_mul, Nat.zero_add]
  rw [h0] at h
  rw [h, kernel_encoding_one_bit lowest N data_scales hK hs]
  have hN : (LQBinarizer.built lowest N data_scales).data_float_size = N := rfl
  rw [hN]
  unfold strict_sign
  by_cases hv : 0 < x.getD j 0
  · rw [if_pos hv]
    simp only [if_pos hv]
    simp
  · rw [if_neg hv]
    simp only [if_neg hv]
    simp

open kernels in
/-- C14 (amended). For one input bit and one weight bit, input scale `1`, every weight
scale `1`, `weights_binary` packing a matrix `W` of `+1` / `-1` entries with zero tail
bits, a bias that is absent or zero and no activation, `execute` after a successful
`configure` writes for every batch row `b` and output index `o` the sum over `i < H` of
`sign(x[b, i]) * W[o, i]`, where `sign(v)` is `+1` for `v > 0` and `-1` for every other
value, zero included. -/
theorem sign_product (lowest : α) (k k' : LQFullyConnected α) (junk : List Nat)
    (W : Nat → Nat → Int)
    (hH : k.input.dim 1 < 2147483648)
    (hcfg : k.configure lowest = .ok k')
    (hjunk : junk.length = k.input_scales.dim 0 * ((k.input.dim 1 + 31) / 32))
    (hKi : k.input_scales.dim 0 = 1) (hKw : k.weights_scales.dim 1 = 1)
    (hsi : k.input_scales.float_data.getD 0 0 = 1)
    (hsw : ∀ o, o < k.weights_binary.dim 0 → k.weights_scales.float_data.getD o 0 = 1)
    (hW : ∀ o i, o < k.weights_binary.dim 0 → i < k.input.dim 1 → W o i = 1 ∨ W o i = -1)
    (hpack : ∀ o, o < k.weights_binary.dim 0 →
      PackedSigns (k.input.dim 1) (W o)
        ((k.weights_binary.int_data.drop (o * k.weights_binary.dim 2)).take
          (k.weights_binary.dim 2)))
    (hbias : ∀ o, o < k.weights_binary.dim 0 → k.bias_at o = 0)
    (hact : ∀ x, k.params.activation x = x) :
    ∃ k'', (k'.with_scratch junk).execute = .ok k''
      ∧ ∀ b o, b < k.input.dim 0 → o < k.weights_binary.dim 0 →
          k''.output.float_data[b * k.weights_binary.dim 0 + o]?
            = some (((∑ i in Finset.range (k.input.dim 1),
                strict_sign (k.input.float_data.getD (b * k.input.dim 1 + i) 0) * W o i : Int) : α)) := by
  obtain ⟨k'', hex, _, hval⟩ := execute_output lowest k k' junk hH hcfg hjunk
  obtain ⟨hv, hN, _, _, _⟩ := configure_ok_inv lowest k k' hH hcfg
  obtain ⟨_, _, _, _, _, _, _, _, _, _, _, h12, _, _, _, h16⟩ := hv
  have hdim : k.weights_binary.dim 2 = (k.input.dim 1 + 31) / 32 := by
    rw [← h16, ceil_div_32 _ hN] at h12
    exact_mod_cast h12
  refine ⟨k'', hex, fun b o hb ho => ?_⟩
  rw [hval b o hb ho, hact, hbias o ho, add_zero, hKi, hKw]
  simp only [Finset.sum_range_one, Nat.mul_one, Nat.add_zero, hsi, hsw o ho, one_mul]
  have hrow := one_bit_row_packed lowest (k.input.dim 1) k.input_scales
    ((k.input.float_data.drop (b * k.input.dim 1)).take (k.input.dim 1)) hKi hsi
  have hdot := bin_dot_packed (k.input.dim 1) hH
    (fun i => strict_sign (((k.input.float_data.drop (b * k.input.dim 1)).take
      (k.input.dim 1)).getD i 0)) (W o)
    (fun i _ => sign_cases _)
    (fun i hi => hW o i ho hi) _ _ hrow (by have := hpack o ho; rw [hdim] at this; exact this)
  have hplanes : k.row_planes lowest b
      = ((LQBinarizer.built lowest (k.input.dim 1) k.input_scales).quantize_and_pack
          ((k.input.float_data.drop (b * k.input.dim 1)).take (k.input.dim 1))).data_binary :=
    rfl
  rw [← h16, hdim, hplanes, hdot]
  congr 2
  refine Finset.sum_congr rfl (fun i hi => ?_)
  show strict_sign (((k.input.float_data.drop (b * k.input.dim 1)).take (k.input.dim 1)).getD i 0)
    * W o i = strict_sign (k.input.float_data.getD (b * k.input.dim 1 + i) 0) * W o i
  rw [getD_take _ _ _ _ (Finset.mem_range.mp hi), List.getD_eq_getElem?_getD,
    List.getElem?_drop, ← List.getD_eq_getElem?_getD]

theorem kernelOneBit_configure :
    kernelOneBit.configure FLT_LOWEST = .ok kernelOneBitConfigured := by
  rw [configure_of_valid FLT_LOWEST kernelOneBit (by decide),
    kernels_new_ok FLT_LOWEST _ _ (by decide) (by decide) (by decide)]
  rfl

/-- C14 (amended), at a concrete input: the kernel `kernelOneBit`, whose input row `0.5, -2.0, 0.0`
has the signs `+1, -1, -1`, with a scratch buffer holding the word `4294967295`. -/
theorem sign_product_witness :
    ∃ k'', (kernelOneBitConfigured.with_scratch [4294967295]).execute = .ok k''
      ∧ ∀ b o, b < kernelOneBit.input.dim 0 → o < kernelOneBit.weights_binary.dim 0 →
          k''.output.float_data[b * kernelOneBit.weights_binary.dim 0 + o]?
            = some (((∑ i in Finset.range (kernelOneBit.input.dim 1),
                strict_sign (kernelOneBit.input.float_data.getD (b * kernelOneBit.input.dim 1 + i) 0)
                  * signsOneBit o i : Int) : ℚ)) :=
  sign_product FLT_LOWEST kernelOneBit kernelOneBitConfigured [4294967295] signsOneBit
    (by decide) kernelOneBit_configure (by decide) (by decide) (by decide) (by decide!)
    (fun o ho => by
      have ho' : o < 2 := ho
      interval_cases o <;> decide!)
    (fun o i _ _ => by
      unfold signsOneBit
      by_cases h : ([5, 2].getD o 0).testBit i = true
      · left; rw [if_pos h]
      · right; rw [if_neg h])
    (fun o ho => by
      have ho' : o < 2 := ho
      interval_cases o <;> (unfold PackedSigns; decide))
    (fun o _ => rfl) (fun _ => rfl)

/-- C14 (counterexample). The kernel `kernelOneBit` has one input bit and one weight bit,
all scales `1`, weight planes with zero tail bits (rows `+1, -1, +1` and `-1, +1, -1`), no
bias and no activation; its input row `0.5, -2.0, 0.0` holds a zero.  `execute` writes
`1, -1`: the zero counts as `-1`.  With the sign function of mathematics, for which the
sign of zero is `0`, the sums of `sign(x[i]) * W[o, i]` are `2, -2`, and with the sign that
counts zero as positive they are `3, -3`. -/
theorem sign_product_fails_at_zero :
    ((kernelOneBit.configure FLT_LOWEST >>= fun k => k.execute).toOption.map
        (fun k => k.output.float_data)) = some [1, -1]
    ∧ (List.range 2).map
        (fun o => ∑ i in Finset.range 3,
          signum (kernelOneBit.input.float_data.getD i 0) * signsOneBit o i) = [2, -2]
    ∧ (List.range 2).map
        (fun o => ∑ i in Finset.range 3,
          sign_nonneg (kernelOneBit.input.float_data.getD i 0) * signsOneBit o i) = [3, -3]
    ∧ (List.range 2).map
        (fun o => ∑ i in Finset.range 3,
          strict_sign (kernelOneBit.input.float_data.getD i 0) * signsOneBit o i) = [1, -1] := by
  refine ⟨by decide!, by decide!, by decide!, by decide!⟩

end OneBit
/-! ## The optimizer: sorted rows -/

section Rows

variable {α : Type} [LinearOrderedField α]

open lquantizer

omit [LinearOrderedField α] in
theorem row_getElem? {β : Type} (l : List β) (n o i : Nat) :
    (row l n o)[i]? = if i < n then l[o * n + i]? else none := by
  unfold row
  by_cases h : i < n
  · rw [if_pos h, List.getElem?_take_of_lt h, List.getElem?_drop]
  · rw [if_neg h]
    exact List.getElem?_eq_none (by rw [List.length_take]; omega)

/-- Sorting `K` values from `off` on, after a codec has rewritten the first `K` values of
the array `s` that starts at `off`: the length stays, the values outside the `K` sorted
ones stay, and the sorted ones are the first `K` values of `s` in ascending order. -/
theorem sort_floats_spec (old s : List α) (off K : Nat) (h1 : off + K ≤ old.length)
    (h2 : s.length + off = old.length) (h3 : ∀ p, K ≤ p → s[p]? = old[off + p]?) :
    (sort_floats (old.take off ++ s) off K).length = old.length
    ∧ (∀ p, p < off ∨ off + K ≤ p → (sort_floats (old.take off ++ s) off K)[p]? = old[p]?)
    ∧ ((sort_floats (old.take off ++ s) off K).drop off).take K
        = List.insertionSort (fun lhs rhs => lhs ≤ rhs) (s.take K) := by
  have hA : (old.take off).length = off := by rw [List.length_take]; omega
  have hB : (List.insertionSort (fun lhs rhs : α => lhs ≤ rhs) (s.take K)).length = K := by
    rw [List.length_insertionSort, List.length_take]; omega
  have hnew : sort_floats (old.take off ++ s) off K
      = old.take off ++ (List.insertionSort (fun lhs rhs => lhs ≤ rhs) (s.take K) ++ s.drop K) := by
    unfold sort_floats
    rw [List.take_left' hA, List.drop_left' hA, List.append_assoc]
    congr 2
    have : off + K = (old.take off).length + K := by rw [hA]
    rw [this, List.drop_append]
  rw [hnew]
  refine ⟨?_, fun p hp => ?_, ?_⟩
  · rw [List.length_append, List.length_append, hA, hB, List.length_drop]
    omega
  · rcases hp with hp | hp
    · rw [List.getElem?_append_left (by omega), List.getElem?_take_of_lt hp]
    · rw [List.getElem?_append_right (by omega), List.getElem?_append_right (by omega),
        List.getElem?_drop, hA, hB, h3 _ (by omega)]
      congr 1
      omega
  · rw [List.drop_left' hA, List.take_left' hB]

omit [LinearOrderedField α] in
theorem row_eq_of_frame {β : Type} (l l' : List β) (K off o : Nat)
    (hfr : ∀ p, p < off ∨ off + K ≤ p → l'[p]? = l[p]?)
    (ho : o * K + K ≤ off ∨ off + K ≤ o * K) : row l' K o = row l K o := by
  refine List.ext_getElem? (fun i => ?_)
  rw [row_getElem?, row_getElem?]
  by_cases hi : i < K
  · rw [if_pos hi, if_pos hi]
    exact hfr _ (by omega)
  · rw [if_neg hi, if_neg hi]

omit [LinearOrderedField α] in
theorem agreeFrom_refl {β : Type} (n : Nat) (s : List β) : AgreeFrom n s s :=
  ⟨rfl, fun _ _ => rfl⟩

omit [LinearOrderedField α] in
theorem agreeFrom_trans {β : Type} {n : Nat} {s s' s'' : List β} (h : AgreeFrom n s s')
    (h' : AgreeFrom n s' s'') : AgreeFrom n s s'' :=
  ⟨h'.1.trans h.1, fun p hp => (h'.2 p hp).trans (h.2 p hp)⟩

omit [LinearOrderedField α] in
theorem agreeFrom_set {β : Type} (n : Nat) (s : List β) (b : Nat) (v : β) (hb : b < n) :
    AgreeFrom n s (s.set b v) :=
  ⟨List.length_set _ _ _, fun p hp => by
    rw [List.getElem?_set_ne (by omega)]⟩

omit [LinearOrderedField α] in
/-- A loop whose every step keeps an invariant keeps it. -/
theorem foldl_invariant {σ β : Type} (P : σ → Prop) (f : σ → β → σ) (l : List β)
    (hf : ∀ st x, x ∈ l → P st → P (f st x)) (s0 : σ) (h0 : P s0) : P (l.foldl f s0) := by
  induction l generalizing s0 with
  | nil => exact h0
  | cons x xs ih =>
    rw [List.foldl_cons]
    exact ih (fun st y hy => hf st y (List.mem_cons_of_mem _ hy)) _
      (hf s0 x (List.mem_cons_self _ _) h0)

theorem descent_value_agree (K : Nat) (s : List α) (x : List Int) (err : α) :
    AgreeFrom K s (descent_value K s x err) := by
  unfold descent_value
  refine foldl_invariant (fun st => AgreeFrom K s st) _ _ (fun st b hb hst => ?_) s
    (agreeFrom_refl K s)
  exact agreeFrom_trans hst (agreeFrom_set K st b _ (List.mem_range.mp hb))

theorem descent_batch_agree (c : LQBinarizer α) (bin_trans : List Int) (data_vector : List α)
    (state : List α × List α) (n : Nat) :
    AgreeFrom c.encode_bits state.1 (descent_batch c bin_trans data_vector state n).1 := by
  unfold descent_batch
  simp only
  refine foldl_invariant (fun st => AgreeFrom c.encode_bits state.1 st) _ _
    (fun st i _ hst => ?_) state.1 (agreeFrom_refl _ _)
  exact agreeFrom_trans hst (descent_value_agree _ _ _ _)

/-- Gradient descent rewrites the first `encode_bits` scales only, and nothing else of
the codec. -/
theorem gradient_descent_agree (c : LQBinarizer α) (data_vector : List α) :
    AgreeFrom c.encode_bits c.scales (c.gradient_descent_scales data_vector).scales
    ∧ (c.gradient_descent_scales data_vector).encode_bits = c.encode_bits
    ∧ (c.gradient_descent_scales data_vector).data_binary = c.data_binary := by
  refine ⟨?_, rfl, rfl⟩
  unfold LQBinarizer.gradient_descent_scales
  simp only
  refine foldl_invariant (fun st : List α × List α => AgreeFrom c.encode_bits c.scales st.1)
    _ _ (fun st _ _ hst => ?_) _ (agreeFrom_refl _ _)
  refine foldl_invariant (fun st' : List α × List α => AgreeFrom c.encode_bits c.scales st'.1)
    _ _ (fun st' j _ hst' => ?_) _ hst
  exact agreeFrom_trans hst' (descent_batch_agree _ _ _ _ _)

omit [LinearOrderedField α] in
theorem wrapU32_mul (a b : Nat) (h : a * b < 4294967296) :
    wrapU32 ((a : Int) * (b : Int)) = a * b := by
  unfold wrapU32
  rw [← Nat.cast_mul]
  generalize a * b = m at h
  omega

/-- A codec that the constructor returns borrows the scales it was given and has the
requested number of bits. -/
theorem lquantizer_new_fields (lowest : α) (N K : Nat) (S : List α) (c : LQBinarizer α)
    (hc : LQBinarizer.new lowest N S K = .ok c) : c.scales = S ∧ c.encode_bits = K := by
  unfold LQBinarizer.new at hc
  simp only at hc
  split_ifs at hc
  injection hc with h
  subst h
  exact ⟨rfl, rfl⟩

omit [LinearOrderedField α] in
/-- A loop in the `Except` monad whose every successful step keeps an invariant keeps it
when it succeeds. -/
theorem foldlM_invariant {σ β : Type} (P : σ → Prop) (f : σ → β → Except Error σ)
    (l : List β) (hf : ∀ st x st', x ∈ l → P st → f st x = .ok st' → P st')
    (s0 s1 : σ) (h0 : P s0) (h : l.foldlM f s0 = .ok s1) : P s1 := by
  induction l generalizing s0 with
  | nil =>
    injection h with h
    exact h ▸ h0
  | cons x xs ih =>
    rw [List.foldlM_cons] at h
    cases hx : f s0 x with
    | error e =>
      rw [hx] at h
      cases h
    | ok st =>
      rw [hx] at h
      exact ih (fun st y st' hy => hf st y st' (List.mem_cons_of_mem _ hy)) st
        (hf s0 x st (List.mem_cons_self _ _) h0 hx) h

omit [LinearOrderedField α] in
/-- A loop in the `Except` monad succeeds when every step from a state with the invariant
succeeds and keeps the invariant. -/
theorem foldlM_succeeds {σ β : Type} (P : σ → Prop) (f : σ → β → Except Error σ)
    (l : List β) (hf : ∀ st x, x ∈ l → P st → ∃ st', f st x = .ok st' ∧ P st')
    (s0 : σ) (h0 : P s0) : ∃ s1, l.foldlM f s0 = .ok s1 ∧ P s1 := by
  induction l generalizing s0 with
  | nil => exact ⟨s0, rfl, h0⟩
  | cons x xs ih =>
    obtain ⟨st, hst, hP⟩ := hf s0 x (List.mem_cons_self _ _) h0
    obtain ⟨s1, hs1, hP1⟩ := ih (fun st y hy => hf st y (List.mem_cons_of_mem _ hy)) st hP
    refine ⟨s1, ?_, hP1⟩
    rw [List.foldlM_cons, hst]
    exact hs1

/-- The state of the optimizer that its loops keep: the sizes, the source and the target
stay, the scales array keeps its length, and every row of scales is sorted. -/
theorem fit_step_spec (lowest : α) (q q' : QEM α) (o : Nat)
    (ho : o < q.output_size) (hlen : q.scales_data.length = q.output_size * q.encode_bits)
    (hOK : q.output_size * q.encode_bits < 4294967296)
    (hsorted : ∀ o', o' < q.output_size →
      (row q.scales_data q.encode_bits o').Sorted (fun lhs rhs => lhs ≤ rhs))
    (h : q.fit_step lowest o = .ok q') :
    q'.fp_source_data = q.fp_source_data ∧ q'.fp_target_data = q.fp_target_data
    ∧ q'.output_size = q.output_size ∧ q'.hidden_size = q.hidden_size
    ∧ q'.encode_bits = q.encode_bits
    ∧ q'.scales_data.length = q.scales_data.length
    ∧ ∀ o', o' < q.output_size →
      (row q'.scales_data q.encode_bits o').Sorted (fun lhs rhs => lhs ≤ rhs) := by
  have hmul : (o + 1) * q.encode_bits ≤ q.output_size * q.encode_bits :=
    Nat.mul_le_mul_right _ ho
  have hoff : wrapU32 ((o : Int) * (q.encode_bits : Int)) = o * q.encode_bits :=
    wrapU32_mul _ _ (by rw [Nat.succ_mul] at hmul; omega)
  unfold QEM.fit_step at h
  rw [hoff] at h
  cases hnew : LQBinarizer.new lowest q.hidden_size (q.scales_data.drop (o * q.encode_bits))
      q.encode_bits with
  | error e =>
    simp only [hnew] at h
    cases h
  | ok c =>
    simp only [hnew] at h
    injection h with h
    subst h
    obtain ⟨hs, hk⟩ := lquantizer_new_fields lowest _ _ _ c hnew
    obtain ⟨hag, _, _⟩ := gradient_descent_agree
      (c.quantize_and_pack (q.fp_source_data.drop
        (wrapU32 ((o : Int) * (q.hidden_size : Int)))))
      (q.fp_target_data.drop (wrapU32 ((o : Int) * (q.hidden_size : Int))))
    have hk' : (c.quantize_and_pack (q.fp_source_data.drop
        (wrapU32 ((o : Int) * (q.hidden_size : Int))))).encode_bits = q.encode_bits := hk
    have hs' : (c.quantize_and_pack (q.fp_source_data.drop
        (wrapU32 ((o : Int) * (q.hidden_size : Int))))).scales
        = q.scales_data.drop (o * q.encode_bits) := hs
    rw [hk', hs'] at hag
    obtain ⟨hag1, hag2⟩ := hag
    rw [List.length_drop] at hag1
    rw [Nat.succ_mul] at hmul
    obtain ⟨h1, h2, h3⟩ := sort_floats_spec q.scales_data _ (o * q.encode_bits) q.encode_bits
      (by omega) (by rw [hag1]; omega)
      (fun p hp => by rw [hag2 p hp, List.getElem?_drop])
    refine ⟨rfl, rfl, rfl, rfl, rfl, h1, fun o' ho' => ?_⟩
    by_cases hoo : o' = o
    · subst hoo
      show (((sort_floats _ _ _).drop _).take _).Sorted _
      unfold QEM.with_scales
      simp only
      rw [h3]
      exact List.sorted_insertionSort _ _
    · have hrow := row_eq_of_frame q.scales_data
        (sort_floats (q.scales_data.take (o * q.encode_bits)
          ++ ((c.quantize_and_pack (q.fp_source_data.drop
              (wrapU32 ((o : Int) * (q.hidden_size : Int))))).gradient_descent_scales
            (q.fp_target_data.drop (wrapU32 ((o : Int) * (q.hidden_size : Int))))).scales)
          (o * q.encode_bits) q.encode_bits)
        q.encode_bits (o * q.encode_bits) o' h2
        (by
          rcases Nat.lt_or_gt_of_ne hoo with hlt | hgt
          · left
            have := Nat.mul_le_mul_right q.encode_bits (Nat.succ_le_of_lt hlt)
            rw [Nat.succ_mul] at this
            exact this
          · right
            have := Nat.mul_le_mul_right q.encode_bits (Nat.succ_le_of_lt hgt)
            rw [Nat.succ_mul] at this
            exact this)
      show (row (sort_floats _ _ _) _ _).Sorted _
      unfold QEM.with_scales
      simp only
      rw [hrow]
      exact hsorted o' ho'

/-- One step of `fit` keeps the state of the optimizer. -/
theorem fit_step_kept (lowest : α) (q0 q q' : QEM α) (o : Nat) (ho : o < q0.output_size)
    (hlen : q0.scales_data.length = q0.output_size * q0.encode_bits)
    (hOK : q0.output_size * q0.encode_bits < 4294967296)
    (hq : q0.Kept q) (h : q.fit_step lowest o = .ok q') : q0.Kept q' := by
  obtain ⟨h1, h2, h3, h4, h5, h6, h7⟩ := hq
  obtain ⟨g1, g2, g3, g4, g5, g6, g7⟩ := fit_step_spec lowest q q' o (by rw [h3]; exact ho)
    (by rw [h6, h3, h5]; exact hlen) (by rw [h3, h5]; exact hOK)
    (by rw [h3, h5]; exact h7) h
  rw [h3, h5] at g7
  exact ⟨g1.trans h1, g2.trans h2, g3.trans h3, g4.trans h4, g5.trans h5, g6.trans h6, g7⟩

/-- One step of `fit` succeeds when the codec can be built: `1` to `30` bits and a
non-empty row whose length rounds up within the `int32_t` range. -/
theorem fit_step_succeeds (lowest : α) (q : QEM α) (o : Nat)
    (hK1 : 1 ≤ q.encode_bits) (hK : q.encode_bits ≤ 30) (hH1 : 1 ≤ q.hidden_size)
    (hH : q.hidden_size + 31 < 2147483648) : ∃ q', q.fit_step lowest o = .ok q' := by
  unfold QEM.fit_step
  simp only [lquantizer_new_ok lowest _ _ _ hH1 hH hK1 hK]
  exact ⟨_, rfl⟩

/-- What `fit` keeps: when it succeeds on an optimizer with sorted rows, the rows of the
result are sorted and everything else is as before. -/
theorem fit_kept (lowest : α) (q q' : QEM α) (epochs : Nat)
    (hlen : q.scales_data.length = q.output_size * q.encode_bits)
    (hOK : q.output_size * q.encode_bits < 4294967296)
    (hq : q.Kept q) (h : q.fit lowest epochs = .ok q') : q.Kept q' := by
  unfold QEM.fit at h
  refine foldlM_invariant (fun st => q.Kept st) _ _ (fun st o st' ho hst hstep => ?_) q q' hq h
  exact foldlM_invariant (fun st => q.Kept st) _ _
    (fun s _ s' _ hs hs' => fit_step_kept lowest q s s' o (List.mem_range.mp ho) hlen hOK hs hs')
    st st' hst hstep

theorem fit_succeeds (lowest : α) (q : QEM α) (epochs : Nat)
    (hK1 : 1 ≤ q.encode_bits) (hK : q.encode_bits ≤ 30) (hH1 : 1 ≤ q.hidden_size)
    (hH : q.hidden_size + 31 < 2147483648)
    (hlen : q.scales_data.length = q.output_size * q.encode_bits)
    (hOK : q.output_size * q.encode_bits < 4294967296)
    (hq : q.Kept q) : ∃ q', q.fit lowest epochs = .ok q' := by
  unfold QEM.fit
  obtain ⟨q', h, _⟩ := foldlM_succeeds (fun st => q.Kept st) _ (List.range q.output_size)
    (fun st o ho hst =>
      foldlM_succeeds (fun st => q.Kept st) (fun s _ => s.fit_step lowest o)
        (List.range epochs)
        (fun s _ _ hs => by
          have hs0 := hs
          obtain ⟨_, _, _, h4, h5, _, _⟩ := hs0
          obtain ⟨s', hs'⟩ := fit_step_succeeds lowest s o (by rw [h5]; exact hK1)
            (by rw [h5]; exact hK) (by rw [h4]; exact hH1) (by rw [h4]; exact hH)
          exact ⟨s', hs', fit_step_kept lowest q s s' o (List.mem_range.mp ho) hlen hOK
            hs hs'⟩)
        st hst)
    q hq
  exact ⟨q', h⟩

/-- The loop of the constructor after `n` rows: the rows below `n` are sorted
permutations of the given rows, the other rows are as given. -/
theorem new_rows (scales : List α) (O K n : Nat) (hlen : scales.length = O * K)
    (hOK : O * K < 4294967296) (hn : n ≤ O) :
    ((List.range n).foldl
        (fun scales_data (o : Nat) => sort_floats scales_data (wrapU32 ((o : Int) * (K : Int))) K)
        scales).length = scales.length
    ∧ ∀ o, o < O →
      (o < n →
        (row ((List.range n).foldl
          (fun scales_data (o : Nat) => sort_floats scales_data (wrapU32 ((o : Int) * (K : Int))) K)
          scales) K o).Sorted (fun lhs rhs => lhs ≤ rhs)
        ∧ (row ((List.range n).foldl
          (fun scales_data (o : Nat) => sort_floats scales_data (wrapU32 ((o : Int) * (K : Int))) K)
          scales) K o).Perm (row scales K o))
      ∧ (n ≤ o →
        row ((List.range n).foldl
          (fun scales_data (o : Nat) => sort_floats scales_data (wrapU32 ((o : Int) * (K : Int))) K)
          scales) K o = row scales K o) := by
  induction n with
  | zero => exact ⟨rfl, fun o _ => ⟨fun h => absurd h (Nat.not_lt_zero _), fun _ => rfl⟩⟩
  | succ n ih =>
    obtain ⟨ihlen, ihrows⟩ := ih (by omega)
    rw [List.range_succ, List.foldl_append, List.foldl_cons, List.foldl_nil]
    generalize (List.range n).foldl
      (fun scales_data (o : Nat) => sort_floats scales_data (wrapU32 ((o : Int) * (K : Int))) K)
      scales = d at ihlen ihrows
    have hmul : (n + 1) * K ≤ O * K := Nat.mul_le_mul_right _ hn
    rw [Nat.succ_mul] at hmul
    rw [wrapU32_mul n K (by omega)]
    obtain ⟨h1, h2, h3⟩ := sort_floats_spec d (d.drop (n * K)) (n * K) K (by omega)
      (by rw [List.length_drop]; omega) (fun p _ => List.getElem?_drop _ _ _)
    rw [List.take_append_drop] at h1 h2 h3
    refine ⟨h1.trans ihlen, fun o ho => ⟨fun hlt => ?_, fun hle => ?_⟩⟩
    · by_cases hon : o = n
      · subst hon
        have hrow : row (sort_floats d (o * K) K) K o
            = List.insertionSort (fun lhs rhs => lhs ≤ rhs) (row d K o) := h3
        rw [hrow]
        refine ⟨List.sorted_insertionSort _ _, ?_⟩
        rw [← (ihrows o ho).2 (le_refl _)]
        exact List.perm_insertionSort _ _
      · have hlt' : o < n := by omega
        have hmul' := Nat.mul_le_mul_right K (Nat.succ_le_of_lt hlt')
        rw [Nat.succ_mul] at hmul'
        rw [row_eq_of_frame d (sort_floats d (n * K) K) K (n * K) o h2 (Or.inl hmul')]
        exact (ihrows o ho).1 hlt'
    · have hmul' := Nat.mul_le_mul_right K hle
      rw [Nat.succ_mul] at hmul'
      rw [row_eq_of_frame d (sort_floats d (n * K) K) K (n * K) o h2 (Or.inr hmul')]
      exact (ihrows o ho).2 (by omega)

/-- The optimizer that the constructor returns has sorted rows. -/
theorem new_kept (src tgt scales : List α) (O H K : Nat) (hlen : scales.length = O * K)
    (hOK : O * K < 4294967296) :
    (QEM.new src tgt scales O H K).Kept (QEM.new src tgt scales O H K) :=
  ⟨rfl, rfl, rfl, rfl, rfl, rfl, fun o ho =>
    ((new_rows scales O K O hlen hOK (le_refl _)).2 o ho).1 ho |>.1⟩

/-- C15. The constructor of the optimizer sorts every row of `K` scales and only permutes
the values within a row; whenever `fit` returns, for any number of epochs, every row is
sorted again; and `fit` does return when the codec can be built (`1` to `30` bits, rows
of `1` to `2^31 - 32` values). -/
theorem qem_rows_sorted (lowest : α) (src tgt scales : List α) (O H K : Nat)
    (hlen : scales.length = O * K) (hOK : O * K < 4294967296) :
    (∀ o, o < O →
      (row (QEM.new src tgt scales O H K).scales_data K o).Sorted (fun lhs rhs => lhs ≤ rhs)
      ∧ (row (QEM.new src tgt scales O H K).scales_data K o).Perm (row scales K o))
    ∧ (∀ epochs q', (QEM.new src tgt scales O H K).fit lowest epochs = .ok q' →
        ∀ o, o < O → (row q'.scales_data K o).Sorted (fun lhs rhs => lhs ≤ rhs))
    ∧ (1 ≤ K → K ≤ 30 → 1 ≤ H → H + 31 < 2147483648 →
        ∀ epochs, ∃ q', (QEM.new src tgt scales O H K).fit lowest epochs = .ok q') := by
  have hnew := new_rows scales O K O hlen hOK (le_refl _)
  have hkept := new_kept src tgt scales O H K hlen hOK
  have hlen' : (QEM.new src tgt scales O H K).scales_data.length
      = (QEM.new src tgt scales O H K).output_size
        * (QEM.new src tgt scales O H K).encode_bits := hnew.1.trans hlen
  refine ⟨fun o ho => (hnew.2 o ho).1 ho, fun epochs q' hfit o ho => ?_,
    fun hK1 hK hH1 hH epochs => ?_⟩
  · exact (fit_kept lowest _ q' epochs hlen' hOK hkept hfit).2.2.2.2.2.2 o ho
  · exact fit_succeeds lowest _ epochs hK1 hK hH1 hH hlen' hOK hkept

/-- C15, at a concrete input: two rows of two scales, `1.0, 0.5` and `3.0, 2.0`, and one
epoch of `fit`. -/
theorem qem_rows_sorted_witness :
    (∀ o, o < 2 →
      (row qemSample.scales_data 2 o).Sorted (fun lhs rhs => lhs ≤ rhs)
      ∧ (row qemSample.scales_data 2 o).Perm (row qemScales 2 o))
    ∧ ∃ q', qemSample.fit FLT_LOWEST 1 = .ok q'
        ∧ ∀ o, o < 2 → (row q'.scales_data 2 o).Sorted (fun lhs rhs => lhs ≤ rhs) :=
  ⟨(qem_rows_sorted FLT_LOWEST qemData qemData qemScales 2 2 2 rfl (by decide)).1,
    ((qem_rows_sorted FLT_LOWEST qemData qemData qemScales 2 2 2 rfl (by decide)).2.2
      (by decide) (by decide) (by decide) (by decide) 1).elim
      (fun q' h => ⟨q', h,
        (qem_rows_sorted FLT_LOWEST qemData qemData qemScales 2 2 2 rfl (by decide)).2.1
          1 q' h⟩)⟩

/-- On data that lies on the lattice of the scales the loss cannot fall: for the row
`1.0, -1.0` and the scale `1.0` the loss is `0` before `fit` and positive after one epoch,
because the regularization term shrinks the scale. -/
theorem loss_rises_on_lattice_data :
    reconstruction_loss [1] [1, -1] = 0
    ∧ 0 < reconstruction_loss (fitted_scales [1] [1, -1] 1) [1, -1] := by
  constructor <;> decide!

end Rows

/-! ## The optimizer: filling the binary weights -/

section FillBinary

variable {α : Type} [LinearOrderedField α]

open lquantizer

omit [LinearOrderedField α] in
theorem memcpy_length {β : Type} [Zero β] (dst : List β) (off : Nat) (src : List β) (n : Nat) :
    (memcpy dst off src n).length = dst.length := by
  unfold memcpy
  exact foldl_invariant (fun st : List β => st.length = dst.length) _ _
    (fun st j _ hst => by
      show (st.set (off + j) (src.getD j 0)).length = dst.length
      rw [List.length_set]
      exact hst) dst rfl

omit [LinearOrderedField α] in
/-- The words that `memcpy` does not reach stay. -/
theorem memcpy_outside {β : Type} [Zero β] (dst : List β) (off : Nat) (src : List β)
    (n p : Nat) (hp : p < off ∨ off + n ≤ p) :
    (memcpy dst off src n).getD p 0 = dst.getD p 0 := by
  unfold memcpy
  refine foldl_invariant (fun st : List β => st.getD p 0 = dst.getD p 0) _ _
    (fun st j hj hst => ?_) dst rfl
  have hj' := List.mem_range.mp hj
  show (st.set (off + j) (src.getD j 0)).getD p 0 = dst.getD p 0
  rw [getD_set, if_neg (by omega)]
  exact hst

omit [LinearOrderedField α] in
/-- Word `off + j` of the destination is word `j` of the source. -/
theorem memcpy_inside {β : Type} [Zero β] (dst : List β) (off : Nat) (src : List β)
    (n j : Nat) (hj : j < n) (hlen : off + n ≤ dst.length) :
    (memcpy dst off src n).getD (off + j) 0 = src.getD j 0 := by
  unfold memcpy
  induction n with
  | zero => omega
  | succ n ih =>
    rw [List.range_succ, List.foldl_append, List.foldl_cons, List.foldl_nil, getD_set]
    have hl : ((List.range n).foldl (fun dst j => dst.set (off + j) (src.getD j 0)) dst).length
        = dst.length := memcpy_length dst off src n
    by_cases hjn : j = n
    · subst hjn
      rw [if_pos ⟨rfl, by omega⟩]
    · rw [if_neg (by omega)]
      exact ih (by omega) (by omega)

theorem level_value_take (S : List α) (K e : Nat) :
    level_value (S.take K) K e = level_value S K e := by
  unfold level_value
  refine List.foldl_ext _ _ _ (fun value b hb => ?_)
  rw [getD_take _ _ _ _ (List.mem_range.mp hb)]

/-- The packed planes depend on the first `K` scales and on the first `H` values only. -/
theorem planes_take (lowest : α) (H K : Nat) (S x : List α) :
    ((LQBinarizer.built lowest H S K).quantize_and_pack x).data_binary
      = ((LQBinarizer.built lowest H (S.take K) K).quantize_and_pack (x.take H)).data_binary := by
  have hb : LQBinarizer.built lowest H S K
      = { LQBinarizer.built lowest H (S.take K) K with scales := S } := by
    unfold LQBinarizer.built init_levels
    simp only [level_value_take]
  rw [hb, quantize_and_pack_congr _ x (x.take H)
    (fun i hi => by
      have hi' : i < H := hi
      rw [getD_take _ _ _ _ hi'])]
  rfl

omit [LinearOrderedField α] in
theorem wrapU32_of_lt (m : Nat) (h : m < 4294967296) : wrapU32 (m : Int) = m := by
  unfold wrapU32
  omega

/-- One row of `fill_binary` when the codec can be built: the optimizer stays and the
row's planes are copied to `o * size`. -/
theorem fill_row_ok (lowest : α) (q : QEM α) (out : List Nat) (o : Nat)
    (hK1 : 1 ≤ q.encode_bits) (hK : q.encode_bits ≤ 30) (hH1 : 1 ≤ q.hidden_size)
    (hH : q.hidden_size + 31 < 2147483648)
    (hOK : o * q.encode_bits < 4294967296) (hOH : o * q.hidden_size < 4294967296)
    (hOS : o * (q.encode_bits * ((q.hidden_size + 31) / 32)) < 4294967296) :
    QEM.fill_row lowest (q.hidden_size : Int) (q.encode_bits * ((q.hidden_size + 31) / 32))
        (q, out) o
      = .ok (q, memcpy out (o * (q.encode_bits * ((q.hidden_size + 31) / 32)))
          (q.planes lowest o) (q.encode_bits * ((q.hidden_size + 31) / 32))) := by
  unfold QEM.fill_row
  simp only [lquantizer_new_ok lowest _ _ _ hH1 hH hK1 hK, wrapU32_mul _ _ hOK,
    wrapU32_mul _ _ hOH, wrapU32_mul _ _ hOS]
  have hq : q.with_scales (o * q.encode_bits)
      ((LQBinarizer.built lowest q.hidden_size (q.scales_data.drop (o * q.encode_bits))
        q.encode_bits).quantize_and_pack
          (q.fp_source_data.drop (o * q.hidden_size))).scales = q := by
    unfold QEM.with_scales
    show { q with scales_data := q.scales_data.take (o * q.encode_bits)
      ++ q.scales_data.drop (o * q.encode_bits) } = q
    rw [List.take_append_drop]
  have hp : ((LQBinarizer.built lowest q.hidden_size (q.scales_data.drop (o * q.encode_bits))
        q.encode_bits).quantize_and_pack
          (q.fp_source_data.drop (o * q.hidden_size))).data_binary = q.planes lowest o := by
    rw [planes_take]
    rfl
  show Except.ok _ = _
  rw [hq, hp]

/-- The loop of `fill_binary` after `n` rows: the optimizer stays, the buffer keeps its
length, the rows below `n` hold their planes, and the words from `n * size` on stay. -/
theorem fill_loop (lowest : α) (q : QEM α) (out : List Nat) (n : Nat)
    (hK1 : 1 ≤ q.encode_bits) (hK : q.encode_bits ≤ 30) (hH1 : 1 ≤ q.hidden_size)
    (hH : q.hidden_size + 31 < 2147483648)
    (hOK : n * q.encode_bits < 4294967296) (hOH : n * q.hidden_size < 4294967296)
    (hOS : n * (q.encode_bits * ((q.hidden_size + 31) / 32)) < 4294967296)
    (hlen : n * (q.encode_bits * ((q.hidden_size + 31) / 32)) ≤ out.length) :
    ∃ out', (List.range n).foldlM
        (QEM.fill_row lowest (q.hidden_size : Int)
          (q.encode_bits * ((q.hidden_size + 31) / 32))) (q, out) = .ok (q, out')
      ∧ out'.length = out.length
      ∧ (∀ o j, o < n → j < q.encode_bits * ((q.hidden_size + 31) / 32) →
          out'.getD (o * (q.encode_bits * ((q.hidden_size + 31) / 32)) + j) 0
            = (q.planes lowest o).getD j 0)
      ∧ ∀ p, n * (q.encode_bits * ((q.hidden_size + 31) / 32)) ≤ p →
          out'.getD p 0 = out.getD p 0 := by
  induction n with
  | zero => exact ⟨out, rfl, rfl, fun o j ho => absurd ho (Nat.not_lt_zero _), fun _ _ => rfl⟩
  | succ n ih =>
    rw [Nat.succ_mul] at hOK hOH hOS hlen
    obtain ⟨out', hfold, hl, hrows, hrest⟩ := ih (by omega) (by omega) (by omega) (by omega)
    have hstep := fill_row_ok lowest q out' n hK1 hK hH1 hH (by omega) (by omega) (by omega)
    refine ⟨memcpy out' (n * (q.encode_bits * ((q.hidden_size + 31) / 32)))
      (q.planes lowest n) (q.encode_bits * ((q.hidden_size + 31) / 32)),
      ?_, ?_, fun o j ho hj => ?_, fun p hp => ?_⟩
    · rw [List.range_succ, List.foldlM_append, hfold]
      show List.foldlM (QEM.fill_row lowest (q.hidden_size : Int)
        (q.encode_bits * ((q.hidden_size + 31) / 32))) (q, out') [n] = _
      rw [List.foldlM_cons, hstep]
      rfl
    · rw [memcpy_length, hl]
    · by_cases hon : o = n
      · subst hon
        exact memcpy_inside _ _ _ _ j hj (by rw [hl]; omega)
      · have hlt : o < n := by omega
        have hmul := Nat.mul_le_mul_right (q.encode_bits * ((q.hidden_size + 31) / 32))
          (Nat.succ_le_of_lt hlt)
        rw [Nat.succ_mul] at hmul
        rw [memcpy_outside _ _ _ _ _ (Or.inl (by omega))]
        exact hrows o j hlt hj
    · rw [Nat.succ_mul] at hp
      rw [memcpy_outside _ _ _ _ _ (Or.inr hp)]
      exact hrest p (by omega)

/-- C16. When the codec can be built (`1` to `30` bits, rows of `1` to `2^31 - 32` values,
array sizes within `uint32_t`) and the buffer has room for the
`O * K * ceil(H/32)` words, `fill_binary` succeeds and writes at
`(o * K + b) * ceil(H/32) + w` word `w` of plane `b` of the source row `o` quantized with
row `o` of the scales; the buffer keeps its length and every word from
`O * K * ceil(H/32)` on, and the optimizer (scales and source data included) is
unchanged. -/
theorem fill_binary_spec (lowest : α) (q : QEM α) (bin_data : List Nat)
    (hK1 : 1 ≤ q.encode_bits) (hK : q.encode_bits ≤ 30) (hH1 : 1 ≤ q.hidden_size)
    (hH : q.hidden_size + 31 < 2147483648)
    (hOK : q.output_size * q.encode_bits < 4294967296)
    (hOH : q.output_size * q.hidden_size < 4294967296)
    (hOS : q.output_size * (q.encode_bits * ((q.hidden_size + 31) / 32)) < 4294967296)
    (hlen : q.output_size * (q.encode_bits * ((q.hidden_size + 31) / 32)) ≤ bin_data.length) :
    ∃ out, q.fill_binary lowest bin_data = .ok (q, out)
      ∧ out.length = bin_data.length
      ∧ (∀ o b w, o < q.output_size → b < q.encode_bits → w < (q.hidden_size + 31) / 32 →
          out.getD ((o * q.encode_bits + b) * ((q.hidden_size + 31) / 32) + w) 0
            = (q.planes lowest o).getD (b * ((q.hidden_size + 31) / 32) + w) 0)
      ∧ ∀ p, q.output_size * q.encode_bits * ((q.hidden_size + 31) / 32) ≤ p →
          out.getD p 0 = bin_data.getD p 0 := by
  obtain ⟨out, hfold, hl, hrows, hrest⟩ :=
    fill_loop lowest q bin_data q.output_size hK1 hK hH1 hH hOK hOH hOS hlen
  have hwrap : wrapS32 (q.hidden_size : Int) = (q.hidden_size : Int) :=
    wrapS32_of_range (by omega) (by omega)
  have hsize : wrapU32 ((q.encode_bits : Int) * (((q.hidden_size + 31) / 32 : Nat) : Int))
      = q.encode_bits * ((q.hidden_size + 31) / 32) := by
    refine wrapU32_mul _ _ ?_
    have h1 : (q.hidden_size + 31) / 32 ≤ 67108864 := by omega
    have h2 := Nat.mul_le_mul hK h1
    omega
  refine ⟨out, ?_, hl, fun o b w ho hb hw => ?_, fun p hp => ?_⟩
  · unfold QEM.fill_binary
    simp only [hwrap, ceil_div_32 _ hH, hsize]
    exact hfold
  · have hidx : (o * q.encode_bits + b) * ((q.hidden_size + 31) / 32) + w
        = o * (q.encode_bits * ((q.hidden_size + 31) / 32))
          + (b * ((q.hidden_size + 31) / 32) + w) := by ring
    have hmul := Nat.mul_le_mul_right ((q.hidden_size + 31) / 32) (Nat.succ_le_of_lt hb)
    rw [Nat.succ_mul] at hmul
    rw [hidx]
    exact hrows o _ ho (by omega)
  · exact hrest p (by rw [Nat.mul_assoc] at hp; exact hp)

/-- C16, at a concrete input: the optimizer `qemSample` (two rows, two bits, one word per
plane) and a buffer of five words `7, 7, 7, 7, 9`. -/
theorem fill_binary_spec_witness :
    ∃ out, qemSample.fill_binary FLT_LOWEST [7, 7, 7, 7, 9] = .ok (qemSample, out)
      ∧ out.length = [7, 7, 7, 7, 9].length
      ∧ (∀ o b w, o < qemSample.output_size → b < qemSample.encode_bits →
          w < (qemSample.hidden_size + 31) / 32 →
          out.getD ((o * qemSample.encode_bits + b) * ((qemSample.hidden_size + 31) / 32) + w) 0
            = (qemSample.planes FLT_LOWEST o).getD
                (b * ((qemSample.hidden_size + 31) / 32) + w) 0)
      ∧ ∀ p, qemSample.output_size * qemSample.encode_bits
            * ((qemSample.hidden_size + 31) / 32) ≤ p →
          out.getD p 0 = [7, 7, 7, 7, 9].getD p 0 :=
  fill_binary_spec FLT_LOWEST qemSample [7, 7, 7, 7, 9] (by decide) (by decide) (by decide)
    (by decide) (by decide) (by decide) (by decide) (by decide)

end FillBinary

/-! ## The observer -/

section Observer

variable {α : Type} [LinearOrderedField α]

open lquantizer

omit [LinearOrderedField α] in
theorem find_assign {V : Type} (m : NodeMap V) (key : Nat) (value : V) (k : Nat) :
    (m.assign key value).find k = if k = key then some value else m.find k := by
  induction m with
  | nil =>
    unfold NodeMap.assign NodeMap.find
    by_cases h : k = key
    · rw [if_pos h.symm, if_pos h]
    · rw [if_neg (fun h' => h h'.symm), if_neg h]
      rfl
  | cons e m ih =>
    obtain ⟨k', v'⟩ := e
    unfold NodeMap.assign
    by_cases hk : k' = key
    · rw [if_pos hk]
      unfold NodeMap.find
      by_cases h : k = key
      · rw [if_pos (hk.trans h.symm), if_pos h]
      · rw [if_neg (fun h' => h (h'.symm.trans hk)), if_neg h,
          if_neg (fun h' => h (h'.symm.trans hk))]
    · rw [if_neg hk]
      unfold NodeMap.find
      by_cases h' : k' = k
      · rw [if_pos h', if_pos h', if_neg (fun h => hk (h'.trans h))]
      · rw [if_neg h', if_neg h', ih]

omit [LinearOrderedField α] in
/-- Two buffers of the same length that hold the same values are the same. -/
theorem ext_getD {β : Type} [Zero β] (l l' : List β) (hlen : l.length = l'.length)
    (h : ∀ i, i < l.length → l.getD i 0 = l'.getD i 0) : l = l' := by
  refine List.ext_getElem hlen (fun i h1 h2 => ?_)
  have := h i h1
  rw [List.getD_eq_getElem _ _ h1, List.getD_eq_getElem _ _ h2] at this
  exact this

omit [LinearOrderedField α] in
/-- Growing a buffer by `n` elements and copying `n` elements behind its old end appends
them. -/
theorem memcpy_append {β : Type} [Zero β] (storage data : List β) :
    memcpy (storage ++ List.replicate data.length 0) storage.length data data.length
      = storage ++ data := by
  refine ext_getD _ _ (by rw [memcpy_length]; simp) (fun i hi => ?_)
  rw [memcpy_length, List.length_append, List.length_replicate] at hi
  by_cases hlt : i < storage.length
  · rw [memcpy_outside _ _ _ _ _ (Or.inl hlt), List.getD_append _ _ _ _ hlt,
      List.getD_append _ _ _ _ hlt]
  · obtain ⟨j, rfl⟩ : ∃ j, i = storage.length + j := ⟨i - storage.length, by omega⟩
    rw [memcpy_inside _ _ _ _ j (by omega) (by simp),
      List.getD_append_right _ _ _ _ (by omega)]
    congr 1
    omega

/-- A call for a node that is not a key of the map changes nothing. -/
theorem post_not_key (obs : InputSavingObserver α) (node : Nat) (tensor : Tensor α)
    (h : obs.input2node.find node = none) : obs.postTensorWrite node tensor = .ok obs := by
  unfold InputSavingObserver.postTensorWrite
  rw [h]

/-- A call for a key of the map with a `FLOAT32` tensor that holds as many elements as its
shape declares appends the tensor to the buffer of the consumer. -/
theorem post_key (obs : InputSavingObserver α) (node consumer : Nat) (tensor : Tensor α)
    (h : obs.input2node.find node = some consumer)
    (hty : tensor.element_type = DataType.FLOAT32)
    (hlen : tensor.float_data.length = tensor.num_elements) :
    obs.postTensorWrite node tensor
      = .ok { obs with
          node2idata := obs.node2idata.assign consumer (obs.buffer consumer ++ tensor.float_data) } := by
  unfold InputSavingObserver.postTensorWrite
  rw [h]
  simp only [hty, ne_eq, not_true_eq_false, if_false]
  rw [← hlen, memcpy_append]
  rfl

/-- A sequence of calls with well-formed `FLOAT32` tensors succeeds, keeps the map, and
appends to every buffer what the sequence has written for its consumer. -/
theorem run_spec (calls : List (Nat × Tensor α)) (obs : InputSavingObserver α)
    (hcalls : ∀ call, call ∈ calls → ∀ consumer, obs.input2node.find call.1 = some consumer →
      call.2.element_type = DataType.FLOAT32
        ∧ call.2.float_data.length = call.2.num_elements) :
    ∃ obs', obs.run calls = .ok obs' ∧ obs'.input2node = obs.input2node
      ∧ ∀ c, obs'.buffer c = obs.buffer c ++ captured obs.input2node calls c := by
  induction calls generalizing obs with
  | nil => exact ⟨obs, rfl, rfl, fun c => by simp [captured]⟩
  | cons call calls ih =>
    unfold InputSavingObserver.run
    rw [List.foldlM_cons]
    cases hfind : obs.input2node.find call.1 with
    | none =>
      rw [post_not_key obs call.1 call.2 hfind]
      obtain ⟨obs', hrun, hmap, hbuf⟩ := ih obs
        (fun c hc => hcalls c (List.mem_cons_of_mem _ hc))
      refine ⟨obs', hrun, hmap, fun c => ?_⟩
      rw [hbuf c]
      congr 1
      unfold captured
      rw [List.filter_cons, hfind]
      simp
    | some consumer =>
      obtain ⟨hty, hlen⟩ := hcalls call (List.mem_cons_self _ _) consumer hfind
      rw [post_key obs call.1 consumer call.2 hfind hty hlen]
      obtain ⟨obs', hrun, hmap, hbuf⟩ := ih
        { obs with node2idata :=
            obs.node2idata.assign consumer (obs.buffer consumer ++ call.2.float_data) }
        (fun c hc => hcalls c (List.mem_cons_of_mem _ hc))
      refine ⟨obs', hrun, hmap, fun c => ?_⟩
      rw [hbuf c]
      unfold InputSavingObserver.buffer captured
      simp only [find_assign, List.filter_cons, hfind]
      by_cases hc : c = consumer
      · subst hc
        simp
      · have hc' : ¬ consumer = c := fun h => hc h.symm
        simp [hc, hc']

omit [LinearOrderedField α] in
/-- Every buffer of a freshly constructed observer is empty. -/
theorem new_buffer (M : NodeMap Nat) (c : Nat) :
    (InputSavingObserver.new M : InputSavingObserver α).buffer c = [] := by
  unfold InputSavingObserver.new InputSavingObserver.allocate_data_buffers
    InputSavingObserver.buffer
  simp only
  refine foldl_invariant (fun m : NodeMap (List α) => (m.find c).getD [] = []) _ _
    (fun m it _ hm => ?_) [] rfl
  show ((m.assign it.2 []).find c).getD [] = []
  rw [find_assign]
  by_cases h : c = it.2
  · rw [if_pos h]
    rfl
  · rw [if_neg h]
    exact hm

/-- C18. `postTensorWrite(node, tensor)` returns the observer unchanged when `node` is not
a key of the map; for a key with consumer `M[node]` and a `FLOAT32` tensor holding
`num_elements` values it appends these values, in order, to the buffer of the consumer and
leaves the map and every other buffer unchanged; and after any sequence of such calls on a
freshly constructed observer every buffer is the concatenation, in call order, of the
tensors written by the nodes that the map sends to its consumer. -/
theorem post_tensor_write_spec (obs : InputSavingObserver α) (node : Nat) (tensor : Tensor α) :
    (obs.input2node.find node = none → obs.postTensorWrite node tensor = .ok obs)
    ∧ (∀ consumer, obs.input2node.find node = some consumer →
        tensor.element_type = DataType.FLOAT32 →
        tensor.float_data.length = tensor.num_elements →
        ∃ obs', obs.postTensorWrite node tensor = .ok obs'
          ∧ obs'.input2node = obs.input2node
          ∧ obs'.buffer consumer = obs.buffer consumer ++ tensor.float_data
          ∧ ∀ c, c ≠ consumer → obs'.node2idata.find c = obs.node2idata.find c)
    ∧ (∀ (M : NodeMap Nat) (calls : List (Nat × Tensor α)),
        (∀ call, call ∈ calls → ∀ consumer, M.find call.1 = some consumer →
          call.2.element_type = DataType.FLOAT32
            ∧ call.2.float_data.length = call.2.num_elements) →
        ∃ obs', (InputSavingObserver.new M).run calls = .ok obs'
          ∧ ∀ c, obs'.buffer c = captured M calls c) := by
  refine ⟨post_not_key obs node tensor, fun consumer h hty hlen => ?_, fun M calls hcalls => ?_⟩
  · refine ⟨_, post_key obs node consumer tensor h hty hlen, rfl, ?_, fun c hc => ?_⟩
    · unfold InputSavingObserver.buffer
      simp only [find_assign, if_pos, Option.getD_some]
    · simp only [find_assign, if_neg hc]
  · obtain ⟨obs', hrun, _, hbuf⟩ := run_spec calls (InputSavingObserver.new M) hcalls
    refine ⟨obs', hrun, fun c => ?_⟩
    rw [hbuf c, new_buffer, List.nil_append]
    rfl

/-- C18, at a concrete input: on `observerSample` the call for the node `13`, which is not
a key, and the call for the node `10`, whose consumer is `20`; and the four calls of
`observerCalls` on a fresh observer over `observerMap`. -/
theorem post_tensor_write_spec_witness :
    observerSample.postTensorWrite 13 (floatTensor [1] [7]) = .ok observerSample
    ∧ (∃ obs', observerSample.postTensorWrite 10 (floatTensor [2] [1, 2]) = .ok obs'
        ∧ obs'.input2node = observerSample.input2node
        ∧ obs'.buffer 20 = observerSample.buffer 20 ++ (floatTensor [2] [1, 2]).float_data
        ∧ ∀ c, c ≠ 20 → obs'.node2idata.find c = observerSample.node2idata.find c)
    ∧ (∃ obs', (InputSavingObserver.new observerMap).run observerCalls = .ok obs'
        ∧ ∀ c, obs'.buffer c = captured observerMap observerCalls c)
    ∧ captured observerMap observerCalls 20 = [1, 2, 4, 5, 6]
    ∧ captured observerMap observerCalls 21 = [3] :=
  ⟨(post_tensor_write_spec observerSample 13 (floatTensor [1] [7])).1 rfl,
    (post_tensor_write_spec observerSample 10 (floatTensor [2] [1, 2])).2.1 20 rfl rfl rfl,
    (post_tensor_write_spec observerSample 10 (floatTensor [2] [1, 2])).2.2 observerMap
      observerCalls
      (fun call hcall consumer _ => by
        simp only [observerCalls, List.mem_cons, List.mem_singleton, List.not_mem_nil,
          or_false] at hcall
        rcases hcall with h | h | h | h <;> subst h <;> exact ⟨rfl, rfl⟩),
    by decide!, by decide!⟩

end Observer

/-! ## The record source -/

section Generator

open lquantizer

variable {α : Type} [LinearOrderedField α]

omit [LinearOrderedField α] in
/-- Division and remainder of the successor of `j`. -/
theorem succ_div_mod (j m : Nat) (hm : 1 ≤ m) :
    (j % m + 1 < m → (j + 1) % m = j % m + 1 ∧ (j + 1) / m = j / m)
    ∧ (j % m + 1 = m → (j + 1) % m = 0 ∧ (j + 1) / m = j / m + 1) := by
  have hj : j + 1 = m * (j / m) + (j % m + 1) := by
    have := Nat.div_add_mod j m
    omega
  constructor
  · intro h
    rw [hj, Nat.mul_add_mod, Nat.mod_eq_of_lt h, Nat.mul_add_div (by omega),
      Nat.div_eq_of_lt h]
    exact ⟨rfl, rfl⟩
  · intro h
    have hj' : j + 1 = m * (j / m + 1) := by rw [hj, h, Nat.mul_succ]
    rw [hj', Nat.mul_mod_right, Nat.mul_div_cancel_left _ (by omega)]
    exact ⟨rfl, rfl⟩

/-- Where the buffer can be filled, it is. -/
theorem fill_ok (g : DataGenerator α) (draw : Nat → α) (input_data : List α)
    (h : g.Readable g.record_idx g.input_idx input_data.length) :
    ∃ data, g.fill draw input_data = .ok data := by
  unfold DataGenerator.fill
  by_cases hr : g.random_data = true
  · rw [if_pos hr]
    exact ⟨_, rfl⟩
  · rw [if_neg hr]
    rcases h with h | ⟨tensor, ht, hcheck⟩
    · exact absurd h hr
    · rw [ht]
      by_cases hraw : g.hdf5_importer.isRawData = true
      · rw [if_neg (by simp [hraw])]
        exact ⟨_, rfl⟩
      · have hraw' : g.hdf5_importer.isRawData = false := by simpa using hraw
        obtain ⟨h1, h2⟩ := hcheck hraw'
        rw [if_pos (by simp [hraw'])]
        simp only
        rw [if_neg (by simp [h1]), if_neg (by simp [h2])]
        exact ⟨_, rfl⟩

/-- A call with records left whose buffer can be filled returns `true` and advances the
indices. -/
theorem read_record_ok (g : DataGenerator α) (draw : Nat → α) (input_data : List α)
    (hleft : g.record_idx < g.records_num)
    (h : g.Readable g.record_idx g.input_idx input_data.length) :
    ∃ data, g.read_record draw input_data = .ok (true, data, g.advance) := by
  obtain ⟨data, hdata⟩ := fill_ok g draw input_data h
  unfold DataGenerator.read_record
  rw [if_neg (by omega), hdata]
  exact ⟨data, rfl⟩

omit [LinearOrderedField α] in
/-- The indices after the update of a call, as long as records are left. -/
theorem advance_spec (g : DataGenerator α) (m n j : Nat) (hm : 1 ≤ m) (hm32 : m < 2147483648)
    (hn32 : n < 2147483648) (hin : g.inputs_num = (m : Int)) (hj : j < n * m) :
    ({ g with input_idx := ((j % m : Nat) : Int),
              record_idx := ((j / m : Nat) : Int) } : DataGenerator α).advance
      = { g with input_idx := (((j + 1) % m : Nat) : Int),
                 record_idx := (((j + 1) / m : Nat) : Int) } := by
  have hdiv : j / m < n := (Nat.div_lt_iff_lt_mul (by omega)).mpr hj
  have hmod : j % m < m := Nat.mod_lt _ (by omega)
  obtain ⟨h1, h2⟩ := succ_div_mod j m hm
  unfold DataGenerator.advance
  simp only [hin]
  generalize j / m = q at hdiv h1 h2 ⊢
  generalize j % m = r at hmod h1 h2 ⊢
  have hw1 : wrapS32 ((r : Int) + 1) = (r : Int) + 1 :=
    wrapS32_of_range (by omega) (by omega)
  have hw2 : wrapS32 ((q : Int) + 1) = (q : Int) + 1 :=
    wrapS32_of_range (by omega) (by omega)
  rw [hw1, hw2]
  by_cases hlast : r + 1 = m
  · obtain ⟨e1, e2⟩ := h2 hlast
    rw [if_pos (by omega), e1, e2]
    simp
  · obtain ⟨e1, e2⟩ := h1 (by omega)
    rw [if_neg (by omega), e1, e2]
    simp

/-- The state after `j` calls, as long as records are left and every buffer can be
filled: the mode, the importer and the bounds stay, `input_idx` is `j mod m` and
`record_idx` is `j div m`. -/
theorem after_spec (g : DataGenerator α) (m n : Nat) (hm : 1 ≤ m) (hm32 : m < 2147483648)
    (hn32 : n < 2147483648) (hin : g.inputs_num = (m : Int)) (hrec : g.records_num = (n : Int))
    (draws : Nat → Nat → α) (buffers : Nat → List α)
    (hfile : ∀ j, j < n * m →
      g.Readable ((j / m : Nat) : Int) ((j % m : Nat) : Int) (buffers j).length)
    (j : Nat) (hj : j ≤ n * m) :
    g.reset.after draws buffers j
      = .ok { g with input_idx := ((j % m : Nat) : Int),
                     record_idx := ((j / m : Nat) : Int) } := by
  induction j with
  | zero =>
    unfold DataGenerator.after DataGenerator.reset
    simp
  | succ j ih =>
    have hlt : j < n * m := by omega
    have hdiv : j / m < n := (Nat.div_lt_iff_lt_mul (by omega)).mpr hlt
    unfold DataGenerator.after
    rw [ih (by omega)]
    simp only
    obtain ⟨data, hdata⟩ := read_record_ok
      ({ g with input_idx := ((j % m : Nat) : Int),
                record_idx := ((j / m : Nat) : Int) } : DataGenerator α)
      (draws j) (buffers j)
      (by show ((j / m : Nat) : Int) < g.records_num; rw [hrec]; omega)
      (hfile j hlt)
    rw [hdata]
    simp only
    rw [advance_spec g m n j hm hm32 hn32 hin hlt]

/-- Once the record limit is reached, a call returns `false` and changes nothing. -/
theorem read_record_exhausted (g : DataGenerator α) (draw : Nat → α) (input_data : List α)
    (h : g.records_num ≤ g.record_idx) :
    g.read_record draw input_data = .ok (false, input_data, g) := by
  unfold DataGenerator.read_record
  rw [if_pos h]

theorem after_exhausted (g g' : DataGenerator α) (draws : Nat → Nat → α)
    (buffers : Nat → List α) (a : Nat) (ha : g.after draws buffers a = .ok g')
    (h : g'.records_num ≤ g'.record_idx) (d : Nat) :
    g.after draws buffers (a + d) = .ok g' := by
  induction d with
  | zero => exact ha
  | succ d ih =>
    show DataGenerator.after g draws buffers (a + d + 1) = .ok g'
    unfold DataGenerator.after
    rw [ih]
    simp only
    rw [read_record_exhausted g' _ _ h]

/-- C19. For a generator with `m ≥ 1` inputs per record and the record limit `n ≥ 0`,
which makes random data or reads a data file that holds, for each of the first `n * m`
calls, a tensor that the call can read (raw data, or a `FLOAT32` tensor with as many
elements as the buffer of the call): after `reset()` each of the first `n * m` calls of
`read_record` returns `true`, call `j` starting with `input_idx = j mod m` and
`record_idx = j div m`; every later call returns `false` and leaves the buffer and the
generator, with `input_idx = 0` and `record_idx = n`, as they are; `is_empty()` holds
exactly when `record_idx >= records_num`; `set_required_records_num(c)` makes the limit
the minimum of the limit and `c`, never larger than before; and after
`set_required_records_num(train_batches * 3)` a fresh generator has the limit `384`. -/
theorem read_record_sequence (g : DataGenerator α) (m n : Nat) (hm : 1 ≤ m)
    (hm32 : m < 2147483648) (hn32 : n < 2147483648) (hin : g.inputs_num = (m : Int))
    (hrec : g.records_num = (n : Int)) (draws : Nat → Nat → α) (buffers : Nat → List α)
    (hfile : ∀ j, j < n * m →
      g.Readable ((j / m : Nat) : Int) ((j % m : Nat) : Int) (buffers j).length) :
    (∀ j, j < n * m →
      ∃ gj data, g.reset.after draws buffers j = .ok gj
        ∧ gj.read_record (draws j) (buffers j) = .ok (true, data, gj.advance)
        ∧ gj.input_idx = ((j % m : Nat) : Int)
        ∧ gj.record_idx = ((j / m : Nat) : Int))
    ∧ (∀ j, n * m ≤ j →
      ∃ gj, g.reset.after draws buffers j = .ok gj
        ∧ gj.read_record (draws j) (buffers j) = .ok (false, buffers j, gj)
        ∧ gj.input_idx = 0
        ∧ gj.record_idx = (n : Int))
    ∧ (∀ g' : DataGenerator α, g'.is_empty = true ↔ g'.record_idx ≥ g'.records_num)
    ∧ (∀ c, (g.set_required_records_num c).records_num = min g.records_num c
        ∧ (g.set_required_records_num c).records_num ≤ g.records_num)
    ∧ ((DataGenerator.new true : DataGenerator α).set_required_records_num
        ((train_batches : Int) * 3)).records_num = 384 := by
  have hend : g.reset.after draws buffers (n * m)
      = .ok { g with input_idx := 0, record_idx := (n : Int) } := by
    rw [after_spec g m n hm hm32 hn32 hin hrec draws buffers hfile (n * m) (le_refl _),
      Nat.mul_mod_left, Nat.mul_div_cancel _ (by omega)]
    rfl
  refine ⟨fun j hj => ?_, fun j hj => ?_, fun g' => ?_, fun c => ?_, ?_⟩
  · have hdiv : j / m < n := (Nat.div_lt_iff_lt_mul (by omega)).mpr hj
    obtain ⟨data, hdata⟩ := read_record_ok
      ({ g with input_idx := ((j % m : Nat) : Int),
                record_idx := ((j / m : Nat) : Int) } : DataGenerator α)
      (draws j) (buffers j)
      (by show ((j / m : Nat) : Int) < g.records_num; rw [hrec]; omega)
      (hfile j hj)
    exact ⟨_, data, after_spec g m n hm hm32 hn32 hin hrec draws buffers hfile j (by omega),
      hdata, rfl, rfl⟩
  · obtain ⟨d, rfl⟩ : ∃ d, j = n * m + d := ⟨j - n * m, by omega⟩
    have hex : ({ g with input_idx := 0, record_idx := (n : Int) } : DataGenerator α).records_num
        ≤ ({ g with input_idx := 0, record_idx := (n : Int) } : DataGenerator α).record_idx := by
      show g.records_num ≤ (n : Int)
      omega
    exact ⟨_, after_exhausted _ _ draws buffers (n * m) hend hex d,
      read_record_exhausted _ _ _ hex, rfl, rfl⟩
  · unfold DataGenerator.is_empty
    exact decide_eq_true_iff
  · unfold DataGenerator.set_required_records_num
    simp only
    by_cases h : g.records_num > c
    · rw [if_pos h]
      exact ⟨(min_eq_right (le_of_lt h)).symm, le_of_lt h⟩
    · rw [if_neg h]
      exact ⟨(min_eq_left (not_lt.mp h)).symm, le_refl _⟩
  · simp [DataGenerator.set_required_records_num, DataGenerator.new, DataGenerator.reset,
      train_batches]

/-- C19, at a concrete input: random data, two inputs per record, three records, buffers
of four values. -/
theorem read_record_sequence_witness :
    (∀ j, j < 3 * 2 →
      ∃ gj data,
        generatorSample.reset.after (fun _ _ => 1 / 2) (fun _ => [0, 0, 0, 0]) j = .ok gj
        ∧ gj.read_record (1 / 2) [0, 0, 0, 0] = .ok (true, data, gj.advance)
        ∧ gj.input_idx = ((j % 2 : Nat) : Int)
        ∧ gj.record_idx = ((j / 2 : Nat) : Int))
    ∧ (∀ j, 3 * 2 ≤ j →
      ∃ gj,
        generatorSample.reset.after (fun _ _ => 1 / 2) (fun _ => [0, 0, 0, 0]) j = .ok gj
        ∧ gj.read_record (1 / 2) [0, 0, 0, 0] = .ok (false, [0, 0, 0, 0], gj)
        ∧ gj.input_idx = 0
        ∧ gj.record_idx = ((3 : Nat) : Int)) :=
  ⟨(read_record_sequence generatorSample 2 3 (by decide) (by decide) (by decide) rfl rfl
      (fun _ _ => 1 / 2) (fun _ => [0, 0, 0, 0]) (fun _ _ => Or.inl rfl)).1,
    (read_record_sequence generatorSample 2 3 (by decide) (by decide) (by decide) rfl rfl
      (fun _ _ => 1 / 2) (fun _ => [0, 0, 0, 0]) (fun _ _ => Or.inl rfl)).2.1⟩

/-- On a data file: the call for the record with the `FLOAT32` tensor `1.0, 2.0` fills
the buffer of two values and returns `true`; the next call, for the record whose tensor
has the element type `S32`, fails on the assert `dtype == DataType::FLOAT32`; and a call
with a buffer of three values fails on the assert on the number of elements. -/
theorem read_record_on_file :
    generatorFile.read_record (fun _ => 0) [0, 0]
        = .ok (true, [1, 2], generatorFile.advance)
    ∧ generatorFile.advance.record_idx = 1
    ∧ generatorFile.advance.read_record (fun _ => 0) [0, 0] = .error .assertion
    ∧ generatorFile.read_record (fun _ => 0) [0, 0, 0] = .error .assertion := by
  refine ⟨?_, by decide, ?_, ?_⟩ <;> rfl

end Generator

/-! ## The memory planner -/

section Planner

open circle_planner

/-- The offset that the scan returns is not below the start of the scan, and the
candidate placed there is byte-disjoint from every scanned record. -/
theorem find_offset_spec (size : Nat) (records : List AllocationNodeInformation)
    (hsorted : records.Sorted (fun lhs rhs => lhs.offset ≤ rhs.offset)) (current_offset : Nat) :
    current_offset ≤ find_offset size current_offset records
    ∧ ∀ r, r ∈ records →
        find_offset size current_offset records + size ≤ r.offset
          ∨ r.offset + r.size ≤ find_offset size current_offset records := by
  induction records generalizing current_offset with
  | nil => exact ⟨le_refl _, fun r hr => absurd hr (List.not_mem_nil r)⟩
  | cons record records ih =>
    obtain ⟨hhead, htail⟩ := List.sorted_cons.mp hsorted
    unfold find_offset
    by_cases hfit : current_offset + size ≤ record.offset
    · rw [if_pos hfit]
      refine ⟨le_refl _, fun r hr => ?_⟩
      rcases List.mem_cons.mp hr with h | h
      · left; rw [h]; exact hfit
      · left; exact le_trans hfit (hhead r h)
    · rw [if_neg hfit]
      obtain ⟨h1, h2⟩ := ih htail (max current_offset (record.offset + record.size))
      refine ⟨le_trans (le_max_left _ _) h1, fun r hr => ?_⟩
      rcases List.mem_cons.mp hr with h | h
      · right; rw [h]; exact le_trans (le_max_right _ _) h1
      · exact h2 r h

/-- Placing a candidate keeps the placed records byte-disjoint wherever their intervals
overlap. -/
theorem place_pairwise (placed : List AllocationNodeInformation)
    (candidate : AllocationNodeInformation)
    (h : placed.Pairwise (fun a b => overlaps a b = true → disjoint a b)) :
    (place placed candidate).Pairwise (fun a b => overlaps a b = true → disjoint a b) := by
  unfold place
  simp only
  refine List.pairwise_append.mpr ⟨h, List.pairwise_singleton _ _, fun a ha b hb hab => ?_⟩
  rw [List.mem_singleton] at hb
  subst hb
  have hmem : a ∈ List.insertionSort (fun lhs rhs => lhs.offset ≤ rhs.offset)
      (placed.filter (fun record => overlaps record candidate)) :=
    (List.perm_insertionSort _ _).mem_iff.mpr (List.mem_filter.mpr ⟨ha, hab⟩)
  haveI : IsTotal AllocationNodeInformation (fun lhs rhs => lhs.offset ≤ rhs.offset) :=
    ⟨fun a b => le_total a.offset b.offset⟩
  haveI : IsTrans AllocationNodeInformation (fun lhs rhs => lhs.offset ≤ rhs.offset) :=
    ⟨fun _ _ _ hab hbc => le_trans hab hbc⟩
  rcases (find_offset_spec candidate.size _ (List.sorted_insertionSort _ _) 0).2 a hmem
    with h1 | h1
  · exact Or.inr h1
  · exact Or.inl h1

theorem place_given (candidates placed : List AllocationNodeInformation) :
    (candidates.foldl place placed).map given = placed.map given ++ candidates.map given := by
  induction candidates generalizing placed with
  | nil => simp
  | cons c cs ih =>
    rw [List.foldl_cons, ih]
    unfold place
    simp [given]

/-- A running maximum is an upper bound that is its start value or attained. -/
theorem running_max_spec {β : Type} (f : β → Nat) (l : List β) (m0 : Nat) :
    m0 ≤ l.foldl (fun m r => max m (f r)) m0
    ∧ (∀ r, r ∈ l → f r ≤ l.foldl (fun m r => max m (f r)) m0)
    ∧ (l.foldl (fun m r => max m (f r)) m0 = m0
        ∨ ∃ r, r ∈ l ∧ f r = l.foldl (fun m r => max m (f r)) m0) := by
  induction l generalizing m0 with
  | nil => exact ⟨le_refl _, fun r hr => absurd hr (List.not_mem_nil r), Or.inl rfl⟩
  | cons x xs ih =>
    rw [List.foldl_cons]
    obtain ⟨h1, h2, h3⟩ := ih (max m0 (f x))
    refine ⟨le_trans (le_max_left _ _) h1, fun r hr => ?_, ?_⟩
    · rcases List.mem_cons.mp hr with h | h
      · rw [h]; exact le_trans (le_max_right _ _) h1
      · exact h2 r h
    · rcases h3 with h | ⟨r, hr, h⟩
      · rcases le_total m0 (f x) with hle | hle
        · right
          exact ⟨x, List.mem_cons_self _ _, by rw [h, max_eq_right hle]⟩
        · left
          rw [h, max_eq_left hle]
      · right
        exact ⟨r, List.mem_cons_of_mem _ hr, h⟩

/-- C20. For every list of nodes with their sizes and live intervals, the greedy-by-size
planner places every node (the placed records are the given nodes, in some order, with
their sizes and intervals); any two placed records whose intervals overlap, both ends
included, occupy disjoint byte ranges `[offset, offset + size)`; and the returned
required size is the maximum of `offset + size` over the placed records: an upper bound
that is attained, or `0`. -/
theorem planner_correct (nodes : List AllocationNodeInformation) :
    ((greedy_by_size_approach nodes).1.map given).Perm (nodes.map given)
    ∧ (∀ i j (hi : i < (greedy_by_size_approach nodes).1.length)
        (hj : j < (greedy_by_size_approach nodes).1.length), i ≠ j →
        overlaps (greedy_by_size_approach nodes).1[i] (greedy_by_size_approach nodes).1[j] = true →
        disjoint (greedy_by_size_approach nodes).1[i] (greedy_by_size_approach nodes).1[j])
    ∧ (∀ r, r ∈ (greedy_by_size_approach nodes).1 →
        r.offset + r.size ≤ (greedy_by_size_approach nodes).2)
    ∧ ((greedy_by_size_approach nodes).2 = 0
        ∨ ∃ r, r ∈ (greedy_by_size_approach nodes).1
            ∧ r.offset + r.size = (greedy_by_size_approach nodes).2) := by
  have hpair : (placed_records nodes).Pairwise (fun a b => overlaps a b = true → disjoint a b) := by
    unfold placed_records
    exact foldl_invariant
      (fun placed => placed.Pairwise (fun a b => overlaps a b = true → disjoint a b)) place _
      (fun placed c _ h => place_pairwise placed c h) [] List.Pairwise.nil
  obtain ⟨_, hbound, hmax⟩ :=
    running_max_spec (fun r : AllocationNodeInformation => r.offset + r.size)
      (placed_records nodes) 0
  refine ⟨?_, fun i j hi hj hij hov => ?_, hbound, hmax⟩
  · show ((placed_records nodes).map given).Perm (nodes.map given)
    unfold placed_records
    simp only
    rw [place_given, List.map_nil, List.nil_append]
    refine ((List.perm_insertionSort _ _).map given).trans ?_
    rw [List.map_map]
    exact List.Perm.of_eq (List.map_congr_left (fun node _ => rfl))
  · have hi' : i < (placed_records nodes).length := hi
    have hj' : j < (placed_records nodes).length := hj
    show disjoint (placed_records nodes)[i] (placed_records nodes)[j]
    have hov' : overlaps (placed_records nodes)[i] (placed_records nodes)[j] = true := hov
    rcases Nat.lt_or_gt_of_ne hij with hlt | hgt
    · exact List.pairwise_iff_getElem.mp hpair i j hi' hj' hlt hov'
    · have hsym : overlaps (placed_records nodes)[j] (placed_records nodes)[i] = true := by
        unfold overlaps at hov' ⊢
        rw [Bool.or_comm]
        exact hov'
      exact (List.pairwise_iff_getElem.mp hpair j i hj' hi' hgt hsym).symm

/-- C20, at a concrete input: of the tensors of the sizes `100, 60, 40` with the intervals
`[0, 3], [1, 2], [2, 4]`, the second and the third are live together at tick `2`, and
their byte ranges are disjoint. -/
theorem planner_correct_witness :
    ∃ (hi : 1 < (greedy_by_size_approach plannerNodes).1.length)
      (hj : 2 < (greedy_by_size_approach plannerNodes).1.length),
      overlaps (greedy_by_size_approach plannerNodes).1[1]
          (greedy_by_size_approach plannerNodes).1[2] = true
        ∧ disjoint (greedy_by_size_approach plannerNodes).1[1]
          (greedy_by_size_approach plannerNodes).1[2] :=
  ⟨by decide, by decide, by decide,
    (planner_correct plannerNodes).2.1 1 2 (by decide) (by decide) (by decide) (by decide)⟩

end Planner
/-! ## The memory planner: the worked scenario -/

section PlannerScenario

open circle_planner

/-- C21 (counterexample). For the tensors of the sizes `100, 60, 40` with the intervals
`[0, 3], [1, 2], [2, 4]` the planner does not place the size-40 tensor at offset `100` and
does not report `140`: the intervals `[1, 2]` and `[2, 4]` share tick `2`, and the
placement of the size-60 and the size-40 tensor at offset `100` would not be
byte-disjoint. -/
theorem planner_scenario_not_140 :
    ((greedy_by_size_approach plannerNodes).1.map (fun r => (r.size, r.offset)))
        ≠ [(100, 0), (60, 100), (40, 100)]
    ∧ (greedy_by_size_approach plannerNodes).2 ≠ 140
    ∧ overlaps
        { offset := 100, size := 60, node_num := 1, first_node := 1, last_node := 2,
          is_temp := false, breadth := 0 }
        { offset := 100, size := 40, node_num := 2, first_node := 2, last_node := 4,
          is_temp := false, breadth := 0 } = true
    ∧ ¬ disjoint
        { offset := 100, size := 60, node_num := 1, first_node := 1, last_node := 2,
          is_temp := false, breadth := 0 }
        { offset := 100, size := 40, node_num := 2, first_node := 2, last_node := 4,
          is_temp := false, breadth := 0 } := by
  refine ⟨by decide, by decide, by decide, ?_⟩
  unfold disjoint
  decide

/-- C21 (amended). For the tensors of the sizes `100, 60, 40` with the intervals
`[0, 3], [1, 2], [2, 4]` the planner places the size-100 tensor at offset `0`, the size-60
tensor at offset `100` and the size-40 tensor at offset `160`; the three intervals overlap
one another and the three byte ranges are disjoint; the required size is `200`. -/
theorem planner_scenario :
    ((greedy_by_size_approach plannerNodes).1.map (fun r => (r.node_num, r.size, r.offset)))
        = [(0, 100, 0), (1, 60, 100), (2, 40, 160)]
    ∧ (greedy_by_size_approach plannerNodes).1.Pairwise
        (fun a b => overlaps a b = true ∧ (a.offset + a.size ≤ b.offset))
    ∧ (greedy_by_size_approach plannerNodes).2 = 200 := by
  refine ⟨by decide, by decide, by decide⟩

end PlannerScenario

/-! ## The two codecs side by side -/

section CodecsAgree

variable {α : Type} [LinearOrderedField α]

/-- On a table in ascending order of value the thresholds from index `1` on are in
ascending order. -/
theorem thresholds_nondecreasing (lowest : α) (L : List (Level α)) (n : Nat)
    (hn : L.length = n) (hsorted : L.Pairwise (fun a b => a.1 ≤ b.1)) (i j : Nat)
    (hi : 1 ≤ i) (hij : i ≤ j) (hj : j < n) :
    (init_thresholds lowest L n).getD i 0 ≤ (init_thresholds lowest L n).getD j 0 := by
  have hmono : ∀ p q, p ≤ q → q < n → (L.getD p (0, 0)).1 ≤ (L.getD q (0, 0)).1 := by
    intro p q hpq hq
    rcases Nat.lt_or_ge p q with h | h
    · rw [List.getD_eq_getElem _ _ (by omega : p < L.length),
        List.getD_eq_getElem _ _ (by omega : q < L.length)]
      exact List.pairwise_iff_getElem.mp hsorted p q (by omega) (by omega) h
    · have : p = q := by omega
      subst this
      exact le_refl _
  obtain ⟨p, rfl⟩ : ∃ p, i = p + 1 := ⟨i - 1, by omega⟩
  obtain ⟨q, rfl⟩ : ∃ q, j = q + 1 := ⟨j - 1, by omega⟩
  rw [init_thresholds_getD lowest L n p (by omega), init_thresholds_getD lowest L n q hj]
  have h1 := hmono p q (by omega) (by omega)
  have h2 := hmono (p + 1) (q + 1) (by omega) hj
  linarith

/-- The tables built from non-negative scales: the level values are in ascending order
over all `2^K` indices, and so are the thresholds from index `1` on. -/
theorem built_tables_nondecreasing (lowest : α) (S : List α) (K : Nat) (hK : 1 ≤ K)
    (hS : ∀ b, b < K → 0 ≤ S.getD b 0) :
    (∀ i j, i ≤ j → j < 2 ^ K →
        ((sort_levels (init_levels S K (2 ^ K))).getD i (0, 0)).1
          ≤ ((sort_levels (init_levels S K (2 ^ K))).getD j (0, 0)).1)
    ∧ (∀ i j, 1 ≤ i → i ≤ j → j < 2 ^ K →
        (init_thresholds lowest (sort_levels (init_levels S K (2 ^ K))) (2 ^ K)).getD i 0
          ≤ (init_thresholds lowest (sort_levels (init_levels S K (2 ^ K))) (2 ^ K)).getD j 0) := by
  have hsorted := (sort_levels_init_sorted S K hK hS).1
  have hlen : (sort_levels (init_levels S K (2 ^ K))).length = 2 ^ K := by
    rw [sort_levels_length, init_levels_length]
  refine ⟨fun i j hij hj => ?_, fun i j hi hij hj =>
    thresholds_nondecreasing lowest _ (2 ^ K) hlen hsorted i j hi hij hj⟩
  rcases Nat.lt_or_ge i j with h | h
  · rw [List.getD_eq_getElem _ _ (by omega : i < _), List.getD_eq_getElem _ _ (by omega : j < _)]
    exact List.pairwise_iff_getElem.mp hsorted i j (by omega) (by omega) h
  · have : i = j := by omega
    subst this
    exact le_refl _

/-- C26. For the same vector length `N ≥ 1`, the same scales (`K` of them, `K` being the
first dimension of the scales tensor of the inference-time codec) and the same input
vector `x`, the constructor of the training-time codec and the constructor of the
inference-time codec end the same way, and when they return a codec the two codecs hold
the same level table, the same threshold table, and `quantize_and_pack x` leaves the same
packed bit planes in both. -/
theorem codecs_agree (lowest : α) (N : Nat) (data_scales : Tensor α) (x : List α)
    (hN : 1 ≤ N) :
    (lquantizer.LQBinarizer.new lowest N data_scales.float_data (data_scales.dim 0)).map
        (fun c => (c.quantization_levels, c.quantization_thresholds,
          (c.quantize_and_pack x).data_binary))
      = (kernels.LQBinarizer.new lowest N data_scales).map
        (fun c => (c.quantization_levels, c.quantization_thresholds,
          (c.quantize_and_pack x).data_binary)) := by
  unfold lquantizer.LQBinarizer.new kernels.LQBinarizer.new
  rw [if_neg (by omega)]
  simp only
  split_ifs <;> rfl

/-- C26, at a concrete input: length 5, the scales `0.5, 1.0`, the vector
`-2.0, -0.4, 0.2, 0.9, 2.0`; both constructors return a codec. -/
theorem codecs_agree_witness :
    (lquantizer.LQBinarizer.new FLT_LOWEST 5 [1 / 2, 1] 2 = .ok codecHalfOne
      ∧ kernels.LQBinarizer.new FLT_LOWEST 5 (floatTensor [2] [1 / 2, 1])
          = .ok kernelCodecHalfOne)
    ∧ (lquantizer.LQBinarizer.new FLT_LOWEST 5 (floatTensor [2] [1 / 2, 1]).float_data
          ((floatTensor [2] [1 / 2, 1]).dim 0)).map
        (fun c => (c.quantization_levels, c.quantization_thresholds,
          (c.quantize_and_pack sampleVector).data_binary))
      = (kernels.LQBinarizer.new FLT_LOWEST 5 (floatTensor [2] [1 / 2, 1])).map
        (fun c => (c.quantization_levels, c.quantization_thresholds,
          (c.quantize_and_pack sampleVector).data_binary)) :=
  ⟨⟨lquantizer_new_ok FLT_LOWEST 5 2 [1 / 2, 1] (by decide) (by decide) (by decide) (by decide),
    kernels_new_ok FLT_LOWEST 5 (floatTensor [2] [1 / 2, 1]) (by decide) (by decide)
      (by decide)⟩,
   codecs_agree FLT_LOWEST 5 (floatTensor [2] [1 / 2, 1]) sampleVector (by decide)⟩

/-- C27. For every codec returned by either constructor (for a vector length `N` that is
an `int32_t`) from scales that are all `≥ 0`, in any order, the level table, of which the
constructor sorts only the indices `1 .. 2^K - 2`, is non-decreasing in value over all
`2^K` indices, and the thresholds `T[1 .. 2^K - 1]` are non-decreasing. -/
theorem tables_nondecreasing (lowest : α) (N : Nat) :
    (∀ (K : Nat) (S : List α) (c : lquantizer.LQBinarizer α),
      N < 2147483648 → lquantizer.LQBinarizer.new lowest N S K = .ok c →
      (∀ b, b < K → 0 ≤ S.getD b 0) →
      (∀ i j, i ≤ j → j < 2 ^ K →
          (c.quantization_levels.getD i (0, 0)).1 ≤ (c.quantization_levels.getD j (0, 0)).1)
        ∧ (∀ i j, 1 ≤ i → i ≤ j → j < 2 ^ K →
          c.quantization_thresholds.getD i 0 ≤ c.quantization_thresholds.getD j 0))
    ∧ (∀ (data_scales : Tensor α) (c : kernels.LQBinarizer α),
      N < 2147483648 → kernels.LQBinarizer.new lowest N data_scales = .ok c →
      (∀ b, b < data_scales.dim 0 → 0 ≤ data_scales.float_data.getD b 0) →
      (∀ i j, i ≤ j → j < 2 ^ data_scales.dim 0 →
          (c.quantization_levels.getD i (0, 0)).1 ≤ (c.quantization_levels.getD j (0, 0)).1)
        ∧ (∀ i j, 1 ≤ i → i ≤ j → j < 2 ^ data_scales.dim 0 →
          c.quantization_thresholds.getD i 0 ≤ c.quantization_thresholds.getD j 0)) := by
  constructor
  · intro K S c hN hc hS
    obtain ⟨hK1, _, _, _, rfl⟩ := lquantizer_new_built lowest N K S c hN hc
    exact built_tables_nondecreasing lowest S K hK1 hS
  · intro data_scales c hN hc hS
    obtain ⟨hK1, _, _, rfl⟩ := kernels_new_built lowest N data_scales c hN hc
    exact built_tables_nondecreasing lowest data_scales.float_data (data_scales.dim 0) hK1 hS

/-- C27, at a concrete input: the training-time codec for the unsorted scales
`1.0, 0.5`. -/
theorem tables_nondecreasing_witness :
    (∀ i j, i ≤ j → j < 2 ^ 2 →
        ((lquantizer.LQBinarizer.built FLT_LOWEST 5 [1, 1 / 2] 2).quantization_levels.getD i
            (0, 0)).1
          ≤ ((lquantizer.LQBinarizer.built FLT_LOWEST 5 [1, 1 / 2] 2).quantization_levels.getD j
            (0, 0)).1)
      ∧ (∀ i j, 1 ≤ i → i ≤ j → j < 2 ^ 2 →
        (lquantizer.LQBinarizer.built FLT_LOWEST 5 [1, 1 / 2] 2).quantization_thresholds.getD i 0
          ≤ (lquantizer.LQBinarizer.built FLT_LOWEST 5 [1, 1 / 2] 2).quantization_thresholds.getD
              j 0) :=
  (tables_nondecreasing FLT_LOWEST 5).1 2 [1, 1 / 2]
    (lquantizer.LQBinarizer.built FLT_LOWEST 5 [1, 1 / 2] 2) (by decide)
    (lquantizer_new_ok FLT_LOWEST 5 2 [1, 1 / 2] (by decide) (by decide) (by decide) (by decide))
    (by decide!)

end CodecsAgree

/-! ## The binary search: number of iterations and indices read -/

section SearchReads

/-- On a range of `2^k` indices the loop leaves after exactly `k` iterations, whatever
the comparisons answer; it reads inside `(left, right]` and ends inside `[left, right]`. -/
theorem bin_search_reads_pow (below : Nat → Bool) :
    ∀ (k fuel left right : Nat), right + 1 = left + 2 ^ k → k ≤ fuel →
      ∃ res reads, bin_search_reads below fuel left right = some (res, reads)
        ∧ reads.length = k ∧ (∀ m, m ∈ reads → left < m ∧ m ≤ right)
        ∧ left ≤ res ∧ res ≤ right := by
  intro k
  induction k with
  | zero =>
    intro fuel left right h _
    have hlr : ¬ left < right := by simp at h; omega
    refine ⟨left, [], ?_, rfl, by simp, le_refl _, by simp at h; omega⟩
    cases fuel with
    | zero => simp [bin_search_reads, hlr]
    | succ f => simp [bin_search_reads, hlr]
  | succ k ih =>
    intro fuel left right h hfuel
    obtain ⟨f, rfl⟩ : ∃ f, fuel = f + 1 := ⟨fuel - 1, by omega⟩
    have hpos : 0 < 2 ^ k := Nat.two_pow_pos k
    have hlr : left < right := by rw [pow_succ] at h; omega
    have hmid : (left + right + 1) >>> 1 = left + 2 ^ k := by
      rw [Nat.shiftRight_eq_div_pow, pow_succ] at *
      omega
    unfold bin_search_reads
    rw [if_pos hlr]
    simp only [hmid]
    by_cases hb : below (left + 2 ^ k) = true
    · rw [if_pos hb]
      obtain ⟨res, reads, h1, h2, h3, h4, h5⟩ := ih f (left + 2 ^ k) right
        (by rw [pow_succ] at h; omega) (by omega)
      refine ⟨res, (left + 2 ^ k) :: reads, by rw [h1]; rfl, by simp [h2], ?_, by omega, h5⟩
      intro m hm
      rcases List.mem_cons.mp hm with rfl | hm
      · rw [pow_succ] at h; omega
      · have := h3 m hm; omega
    · rw [if_neg hb]
      obtain ⟨res, reads, h1, h2, h3, h4, h5⟩ := ih f left (left + 2 ^ k - 1)
        (by omega) (by omega)
      refine ⟨res, (left + 2 ^ k) :: reads, by rw [h1]; rfl, by simp [h2], ?_, h4, ?_⟩
      · intro m hm
        rcases List.mem_cons.mp hm with rfl | hm
        · rw [pow_succ] at h; omega
        · have := h3 m hm
          rw [pow_succ] at h; omega
      · rw [pow_succ] at h; omega

variable {α : Type} [LinearOrderedField α]

/-- The loop with the record returns the index that the loop without it returns. -/
theorem bin_search_reads_loop (T : List α) (v : α) :
    ∀ (fuel left right res : Nat) (reads : List Nat),
      bin_search_reads (fun m => decide (T.getD m 0 < v)) fuel left right = some (res, reads) →
      bin_search_loop T v fuel left right = res := by
  intro fuel
  induction fuel with
  | zero =>
    intro left right res reads h
    unfold bin_search_reads at h
    split_ifs at h
    simp only [Option.some.injEq, Prod.mk.injEq] at h
    unfold bin_search_loop
    exact h.1
  | succ f ih =>
    intro left right res reads h
    unfold bin_search_reads at h
    unfold bin_search_loop
    by_cases hlr : left < right
    · rw [if_pos hlr] at h
      rw [if_pos hlr]
      simp only at h ⊢
      by_cases hb : T.getD ((left + right + 1) >>> 1) 0 < v
      · rw [if_pos (by simpa using hb)] at h
        rw [if_pos hb]
        rcases hrec : bin_search_reads (fun m => decide (T.getD m 0 < v)) f
          ((left + right + 1) >>> 1) right with _ | ⟨res', reads'⟩
        · rw [hrec] at h; simp at h
        · rw [hrec] at h
          simp only [Option.map_some', Option.some.injEq, Prod.mk.injEq] at h
          rw [ih _ _ _ _ hrec]
          exact h.1
      · rw [if_neg (by simpa using hb)] at h
        rw [if_neg hb]
        rcases hrec : bin_search_reads (fun m => decide (T.getD m 0 < v)) f left
          ((left + right + 1) >>> 1 - 1) with _ | ⟨res', reads'⟩
        · rw [hrec] at h; simp at h
        · rw [hrec] at h
          simp only [Option.map_some', Option.some.injEq, Prod.mk.injEq] at h
          rw [ih _ _ _ _ hrec]
          exact h.1
    · rw [if_neg hlr] at h
      rw [if_neg hlr]
      simp only [Option.some.injEq, Prod.mk.injEq] at h
      exact h.1

/-- The search of `bin_search_encoding` on tables with `2^K` levels: exactly `K`
iterations, reads at the indices `1 .. 2^K - 1`, in which `left + right + 1` stays an
`int32_t`, and the encoding of a level index below `2^K`. -/
theorem bin_search_iterations (K : Nat) (hK : K ≤ 30) (levels : List (Level α))
    (thresholds : List α) (v : α) :
    ∃ res reads, bin_search_reads (fun m => decide (thresholds.getD m 0 < v)) (2 ^ K) 0
          (2 ^ K - 1) = some (res, reads)
      ∧ reads.length = K
      ∧ (∀ m, m ∈ reads → 1 ≤ m ∧ m ≤ 2 ^ K - 1 ∧ 2 * m + 1 < 2147483648)
      ∧ res ≤ 2 ^ K - 1
      ∧ bin_search ((2 : Int) ^ K) levels thresholds v = (levels.getD res (0, 0)).2 := by
  have hpos : 0 < 2 ^ K := Nat.two_pow_pos K
  have hlt : K < 2 ^ K := Nat.lt_two_pow K
  have hle : 2 ^ K ≤ 2 ^ 30 := Nat.pow_le_pow_right (by norm_num) hK
  obtain ⟨res, reads, h1, h2, h3, _, h5⟩ := bin_search_reads_pow
    (fun m => decide (thresholds.getD m 0 < v)) K (2 ^ K) 0 (2 ^ K - 1) (by omega) (by omega)
  refine ⟨res, reads, h1, h2, fun m hm => ?_, h5, ?_⟩
  · have := h3 m hm
    omega
  · obtain ⟨ht1, ht2⟩ := two_pow_toNat K
    unfold bin_search
    simp only [ht1, ht2]
    rw [bin_search_reads_loop thresholds v _ _ _ _ _ h1]

/-- C28. For every `K ≤ 30`, so for every `K` in `[1, 30]`: whatever the comparisons `thresholds[middle] < value`
answer (so for every content of the threshold table and every value, NaN and infinities
included), the loop of `bin_search_encoding` on `2^K` levels leaves after exactly `K`
iterations, reads the thresholds only at indices `1 .. 2^K - 1`, and ends at a level index
in `[0, 2^K - 1]`; and for every training-time and every inference-time codec with `2^K`
levels and every table content, `bin_search_encoding` returns the encoding stored at that
level index. -/
theorem bin_search_terminates (K : Nat) (hK : K ≤ 30) :
    (∀ (below : Nat → Bool) (fuel : Nat), K ≤ fuel →
      ∃ res reads, bin_search_reads below fuel 0 (2 ^ K - 1) = some (res, reads)
        ∧ reads.length = K ∧ (∀ m, m ∈ reads → 1 ≤ m ∧ m ≤ 2 ^ K - 1)
        ∧ res ≤ 2 ^ K - 1)
    ∧ (∀ (c : lquantizer.LQBinarizer α) (v : α), c.levels_count = 2 ^ K →
      ∃ res reads,
        bin_search_reads (fun m => decide (c.quantization_thresholds.getD m 0 < v))
            c.levels_count.toNat 0 (c.levels_count - 1).toNat = some (res, reads)
        ∧ reads.length = K
        ∧ (∀ m, m ∈ reads → 1 ≤ m ∧ m ≤ 2 ^ K - 1 ∧ 2 * m + 1 < 2147483648)
        ∧ res ≤ 2 ^ K - 1
        ∧ c.bin_search_encoding v = (c.quantization_levels.getD res (0, 0)).2)
    ∧ (∀ (c : kernels.LQBinarizer α) (v : α), c.levels_count = 2 ^ K →
      ∃ res reads,
        bin_search_reads (fun m => decide (c.quantization_thresholds.getD m 0 < v))
            c.levels_count.toNat 0 (c.levels_count - 1).toNat = some (res, reads)
        ∧ reads.length = K
        ∧ (∀ m, m ∈ reads → 1 ≤ m ∧ m ≤ 2 ^ K - 1 ∧ 2 * m + 1 < 2147483648)
        ∧ res ≤ 2 ^ K - 1
        ∧ c.bin_search_encoding v = (c.quantization_levels.getD res (0, 0)).2) := by
  obtain ⟨ht1, ht2⟩ := two_pow_toNat K
  refine ⟨fun below fuel hfuel => ?_, fun c v hc => ?_, fun c v hc => ?_⟩
  · have hpos : 0 < 2 ^ K := Nat.two_pow_pos K
    obtain ⟨res, reads, h1, h2, h3, _, h5⟩ := bin_search_reads_pow below K fuel 0 (2 ^ K - 1)
      (by omega) hfuel
    exact ⟨res, reads, h1, h2, fun m hm => by have := h3 m hm; omega, h5⟩
  · unfold lquantizer.LQBinarizer.bin_search_encoding
    rw [hc, ht1, ht2]
    exact bin_search_iterations K hK c.quantization_levels c.quantization_thresholds v
  · unfold kernels.LQBinarizer.bin_search_encoding
    rw [hc, ht1, ht2]
    exact bin_search_iterations K hK c.quantization_levels c.quantization_thresholds v

/-- C28, at a concrete input: the training-time codec for the scales `0.5, 1.0` and the
value `0.9`. -/
theorem bin_search_terminates_witness :
    ∃ res reads,
      bin_search_reads (fun m => decide (codecHalfOne.quantization_thresholds.getD m 0 < 9 / 10))
          codecHalfOne.levels_count.toNat 0 (codecHalfOne.levels_count - 1).toNat
        = some (res, reads)
      ∧ reads.length = 2
      ∧ (∀ m, m ∈ reads → 1 ≤ m ∧ m ≤ 2 ^ 2 - 1 ∧ 2 * m + 1 < 2147483648)
      ∧ res ≤ 2 ^ 2 - 1
      ∧ codecHalfOne.bin_search_encoding (9 / 10)
          = (codecHalfOne.quantization_levels.getD res (0, 0)).2 :=
  (bin_search_terminates 2 (by decide)).2.1 codecHalfOne (9 / 10) (by decide)

end SearchReads

/-! ## The kernel against the naive product -/

section Naive

open kernels

variable {α : Type} [LinearOrderedField α]

theorem plane_sign_cases (A : List Nat) (i : Nat) : plane_sign A i = 1 ∨ plane_sign A i = -1 := by
  unfold plane_sign
  by_cases h : planeBit A i = true
  · left; rw [if_pos h]; rfl
  · right; rw [if_neg h]; rfl

theorem plane_sign_eq_one (A : List Nat) (i : Nat) :
    plane_sign A i = 1 ↔ planeBit A i = true := by
  unfold plane_sign
  by_cases h : planeBit A i = true
  · rw [if_pos h]; simp [h]
  · rw [if_neg h]; simp [h]

/-- A plane whose bits from `H` on are clear packs its own signs. -/
theorem packed_of_zero_tail (H : Nat) (A : List Nat)
    (htail : ∀ j, j < 32 * ((H + 31) / 32) → H ≤ j → planeBit A j = false) :
    PackedSigns H (plane_sign A) (A.take ((H + 31) / 32)) := by
  intro j hj
  have hlt : j / 32 < (H + 31) / 32 := by omega
  rw [getD_take _ _ _ _ hlt, plane_sign_eq_one]
  unfold planeBit at htail ⊢
  constructor
  · intro h
    refine ⟨?_, h⟩
    by_contra hcon
    have := htail j hj (by omega)
    rw [h] at this
    exact Bool.noConfusion this
  · intro h
    exact h.2

/-- The planes that the built codec packs from a row have clear tail bits. -/
theorem row_planes_zero_tail (lowest : α) (N : Nat) (data_scales : Tensor α) (x : List α)
    (bi : Nat) (hbi : bi < data_scales.dim 0) (j : Nat) (hj : j < 32 * ((N + 31) / 32))
    (hNj : N ≤ j) :
    planeBit (((LQBinarizer.built lowest N data_scales).quantize_and_pack x).data_binary.drop
      (bi * ((N + 31) / 32))) j = false := by
  have h := kernel_quantize_and_pack_bits (LQBinarizer.built lowest N data_scales) x rfl bi j
    hbi hj
  have hN : (LQBinarizer.built lowest N data_scales).data_float_size = N := rfl
  have hbin : (LQBinarizer.built lowest N data_scales).data_bin_size = (N + 31) / 32 := rfl
  rw [hN, hbin] at h
  unfold planeBit
  rw [List.getD_eq_getElem?_getD, List.getElem?_drop, ← List.getD_eq_getElem?_getD, h]
  simp
  intro hcon
  omega

theorem sum_swap3 (Ki Kw H : Nat) (f : Nat → Nat → Nat → α) :
    ∑ bi in Finset.range Ki, ∑ bw in Finset.range Kw, ∑ i in Finset.range H, f bi bw i
      = ∑ i in Finset.range H, ∑ bi in Finset.range Ki, ∑ bw in Finset.range Kw, f bi bw i :=
  calc ∑ bi in Finset.range Ki, ∑ bw in Finset.range Kw, ∑ i in Finset.range H, f bi bw i
      = ∑ bi in Finset.range Ki, ∑ i in Finset.range H, ∑ bw in Finset.range Kw, f bi bw i :=
        Finset.sum_congr rfl (fun _ _ => Finset.sum_comm)
    _ = ∑ i in Finset.range H, ∑ bi in Finset.range Ki, ∑ bw in Finset.range Kw, f bi bw i :=
        Finset.sum_comm

/-- The weighted sum of the signed dot products of the planes is the dot product of the
dequantized vectors. -/
theorem dequantized_product (Ki Kw H : Nat) (si sw : Nat → α) (a w : Nat → Nat → Int) :
    ∑ bi in Finset.range Ki, ∑ bw in Finset.range Kw,
        si bi * sw bw * ((∑ i in Finset.range H, a bi i * w bw i : Int) : α)
      = ∑ i in Finset.range H,
          (∑ bi in Finset.range Ki, si bi * (a bi i : α))
            * (∑ bw in Finset.range Kw, sw bw * (w bw i : α)) := by
  simp only [Finset.sum_mul_sum]
  rw [← sum_swap3]
  refine Finset.sum_congr rfl (fun bi _ => Finset.sum_congr rfl (fun bw _ => ?_))
  push_cast
  rw [Finset.mul_sum]
  refine Finset.sum_congr rfl (fun i _ => ?_)
  ring

/-- The popcount dot product of an input plane and a weight plane is the sum of the
products of the signs they stand for. -/
theorem bin_dot_plane_signs (lowest : α) (k : LQFullyConnected α)
    (hH : k.input.dim 1 < 2147483648)
    (hdim : k.weights_binary.dim 2 = (k.input.dim 1 + 31) / 32)
    (htail : k.ZeroTail) (b o bi bw : Nat) (ho : o < k.weights_binary.dim 0)
    (hbi : bi < k.input_scales.dim 0) (hbw : bw < k.weights_scales.dim 1) :
    bin_dot (k.input.dim 1 : Int) (k.weights_binary.dim 2)
        (((k.row_planes lowest b).drop (bi * k.weights_binary.dim 2)).take
          (k.weights_binary.dim 2))
        ((k.weights_binary.int_data.drop
            ((o * k.weights_scales.dim 1 + bw) * k.weights_binary.dim 2)).take
          (k.weights_binary.dim 2))
      = ∑ i in Finset.range (k.input.dim 1),
          plane_sign ((k.row_planes lowest b).drop (bi * ((k.input.dim 1 + 31) / 32))) i
            * plane_sign (k.weights_binary.int_data.drop
                ((o * k.weights_scales.dim 1 + bw) * k.weights_binary.dim 2)) i := by
  have hA := packed_of_zero_tail (k.input.dim 1)
    ((k.row_planes lowest b).drop (bi * ((k.input.dim 1 + 31) / 32)))
    (fun j hj hHj => row_planes_zero_tail lowest (k.input.dim 1) k.input_scales _ bi hbi j hj hHj)
  have hB := packed_of_zero_tail (k.input.dim 1)
    (k.weights_binary.int_data.drop
      ((o * k.weights_scales.dim 1 + bw) * k.weights_binary.dim 2))
    (fun j hj hHj => htail o ho bw hbw j hj hHj)
  have hdot := bin_dot_packed (k.input.dim 1) hH _ _
    (fun i _ => plane_sign_cases _ i) (fun i _ => plane_sign_cases _ i) _ _ hA hB
  rw [← hdot]
  simp only [hdim]

/-- C24. In exact arithmetic, for every configuration accepted by `configure` (the hidden
size an `int32_t`) whose `weights_binary` has zero tail bits, and whatever the scratch
buffer holds, `execute` succeeds and for every batch row `b` and output `o` the output
element is the fused activation applied to the naive product of the dequantized
operands: the sum over `i < H` of `xhat[b, i] * what[o, i]` plus `bias[o]` (or `0` without
a bias), where `xhat[b, i]` is the sum over `bi` of `input_scales[bi] * (2 * bit - 1)` on
the planes of the quantized input row and `what[o, i]` is the sum over `bw` of
`weights_scales[o, bw] * (2 * bit - 1)` on the planes of `weights_binary`. -/
theorem popcount_eq_naive (lowest : α) (k k' : LQFullyConnected α) (junk : List Nat)
    (hH : k.input.dim 1 < 2147483648)
    (hcfg : k.configure lowest = .ok k')
    (hjunk : junk.length = k.input_scales.dim 0 * ((k.input.dim 1 + 31) / 32))
    (htail : k.ZeroTail) :
    ∃ k'', (k'.with_scratch junk).execute = .ok k''
      ∧ ∀ b o, b < k.input.dim 0 → o < k.weights_binary.dim 0 →
          k''.output.float_data[b * k.weights_binary.dim 0 + o]?
            = some (k.params.activation (k.naive_product lowest b o)) := by
  obtain ⟨k'', hex, _, hval⟩ := execute_output lowest k k' junk hH hcfg hjunk
  obtain ⟨hv, hN, _, _, _⟩ := configure_ok_inv lowest k k' hH hcfg
  obtain ⟨_, _, _, _, _, _, _, _, _, _, _, h12, _, _, _, h16⟩ := hv
  have hdim : k.weights_binary.dim 2 = (k.input.dim 1 + 31) / 32 := by
    rw [← h16, ceil_div_32 _ hN] at h12
    exact_mod_cast h12
  refine ⟨k'', hex, fun b o hb ho => ?_⟩
  rw [hval b o hb ho]
  unfold LQFullyConnected.naive_product
  congr 3
  unfold LQFullyConnected.xhat LQFullyConnected.what
  have hsum : (∑ bi in Finset.range (k.input_scales.dim 0),
        ∑ bw in Finset.range (k.weights_scales.dim 1),
          k.input_scales.float_data.getD bi 0
            * k.weights_scales.float_data.getD (o * k.weights_scales.dim 1 + bw) 0
            * ((bin_dot k.params.hidden_size (k.weights_binary.dim 2)
                (((k.row_planes lowest b).drop (bi * k.weights_binary.dim 2)).take
                  (k.weights_binary.dim 2))
                ((k.weights_binary.int_data.drop
                    ((o * k.weights_scales.dim 1 + bw) * k.weights_binary.dim 2)).take
                  (k.weights_binary.dim 2)) : Int) : α))
      = ∑ bi in Finset.range (k.input_scales.dim 0),
        ∑ bw in Finset.range (k.weights_scales.dim 1),
          k.input_scales.float_data.getD bi 0
            * k.weights_scales.float_data.getD (o * k.weights_scales.dim 1 + bw) 0
            * ((∑ i in Finset.range (k.input.dim 1),
                plane_sign ((k.row_planes lowest b).drop (bi * ((k.input.dim 1 + 31) / 32))) i
                  * plane_sign (k.weights_binary.int_data.drop
                      ((o * k.weights_scales.dim 1 + bw) * k.weights_binary.dim 2)) i : Int) : α) := by
    refine Finset.sum_congr rfl (fun bi hbi => Finset.sum_congr rfl (fun bw hbw => ?_))
    rw [← h16, bin_dot_plane_signs lowest k hH hdim htail b o bi bw ho
      (Finset.mem_range.mp hbi) (Finset.mem_range.mp hbw)]
  rw [hsum]
  exact dequantized_product (k.input_scales.dim 0) (k.weights_scales.dim 1) (k.input.dim 1)
    (fun bi => k.input_scales.float_data.getD bi 0)
    (fun bw => k.weights_scales.float_data.getD (o * k.weights_scales.dim 1 + bw) 0)
    (fun bi i =>
      plane_sign ((k.row_planes lowest b).drop (bi * ((k.input.dim 1 + 31) / 32))) i)
    (fun bw i => plane_sign (k.weights_binary.int_data.drop
      ((o * k.weights_scales.dim 1 + bw) * k.weights_binary.dim 2)) i)

theorem kernelSimple_zero_tail : kernelSimple.ZeroTail := by
  unfold LQFullyConnected.ZeroTail
  decide!

/-- C24, at a concrete input: the kernel of the test `LQFullyConnectedTest.Simple`, whose
weight words are all below `2^5`, with a scratch buffer holding the words `4294967295`
and `12345`. -/
theorem popcount_eq_naive_witness :
    ∃ k'', (kernelSimpleConfigured.with_scratch [4294967295, 12345]).execute = .ok k''
      ∧ ∀ b o, b < kernelSimple.input.dim 0 → o < kernelSimple.weights_binary.dim 0 →
          k''.output.float_data[b * kernelSimple.weights_binary.dim 0 + o]?
            = some (kernelSimple.params.activation
                (kernelSimple.naive_product FLT_LOWEST b o)) :=
  popcount_eq_naive FLT_LOWEST kernelSimple kernelSimpleConfigured [4294967295, 12345]
    (by decide) kernelSimple_configure (by decide) kernelSimple_zero_tail

end Naive

/-! ## Gradient descent on the scales against its reference -/

section Descent

open lquantizer

variable {α : Type} [LinearOrderedField α]

omit [LinearOrderedField α] in
/-- Two loops over the same list whose steps keep a relation between their states keep
it. -/
theorem foldl_sim {σ τ β : Type} (R : σ → τ → Prop) (f : σ → β → σ) (g : τ → β → τ)
    (l : List β) (h : ∀ s t x, x ∈ l → R s t → R (f s x) (g t x)) (s : σ) (t : τ)
    (h0 : R s t) : R (l.foldl f s) (l.foldl g t) := by
  induction l generalizing s t with
  | nil => exact h0
  | cons x xs ih =>
    rw [List.foldl_cons, List.foldl_cons]
    exact ih (fun s t y hy => h s t y (List.mem_cons_of_mem _ hy)) _ _
      (h s t x (List.mem_cons_self _ _) h0)

theorem descent_value_getD (K : Nat) (S : List α) (x : List Int) (err : α) :
    (descent_value K S x err).length = S.length
    ∧ ∀ p, (descent_value K S x err).getD p 0
        = if p < K ∧ p < S.length then
            S.getD p 0 - descent_lr * (((x.getD p 0 : Int) : α) * err + l2_reg * S.getD p 0)
          else S.getD p 0 := by
  unfold descent_value
  induction K with
  | zero =>
    refine ⟨rfl, fun p => ?_⟩
    rw [if_neg (by omega)]
    rfl
  | succ K ih =>
    obtain ⟨ih1, ih2⟩ := ih
    rw [List.range_succ, List.foldl_append]
    simp only [List.foldl_cons, List.foldl_nil]
    refine ⟨by rw [List.length_set, ih1], fun p => ?_⟩
    have hK := ih2 K
    rw [if_neg (fun h => Nat.lt_irrefl K h.1)] at hK
    rw [getD_set, ih1, hK, ih2 p]
    by_cases hp : K = p
    · subst hp
      by_cases hl : K < S.length
      · rw [if_pos ⟨rfl, hl⟩, if_pos ⟨Nat.lt_succ_self K, hl⟩]
      · rw [if_neg (fun h => hl h.2), if_neg (fun h => hl h.2), if_neg (fun h => hl h.2)]
    · rw [if_neg (fun h => hp h.1)]
      by_cases hpK : p < K ∧ p < S.length
      · rw [if_pos hpK, if_pos ⟨by omega, hpK.2⟩]
      · rw [if_neg hpK, if_neg (fun h => hpK ⟨by omega, h.2⟩)]

/-- The innermost loop is the reference update for one value. -/
theorem descent_value_reference (K : Nat) (S : List α) (x : List Int) (err : α)
    (sign_i : Nat → Int) (hx : ∀ b, b < K → x.getD b 0 = sign_i b) :
    descent_value K S x err = reference_value K sign_i err S := by
  obtain ⟨h1, h2⟩ := descent_value_getD K S x err
  refine ext_getD _ _ (by rw [h1]; unfold reference_value; simp) (fun p hp => ?_)
  rw [h1] at hp
  rw [h2 p]
  have hmap : ∀ f : Nat → α, ((List.range S.length).map f).getD p 0 = f p := by
    intro f
    rw [List.getD_eq_getElem _ _ (by simpa using hp)]
    simp
  unfold reference_value
  rw [hmap]
  by_cases hpK : p < K
  · rw [if_pos ⟨hpK, hp⟩, if_pos hpK, hx p hpK]
    unfold descent_lr l2_reg
    rfl
  · rw [if_neg (fun h => hpK h.1), if_neg hpK]

omit [LinearOrderedField α] in
theorem getD_drop {β : Type} (l : List β) (n i : Nat) (d : β) :
    (l.drop n).getD i d = l.getD (n + i) d := by
  rw [List.getD_eq_getElem?_getD, List.getD_eq_getElem?_getD, List.getElem?_drop]

/-- The sign bytes that `unpack_binary` writes are the signs of the packed planes. -/
theorem unpack_sign_at (c : LQBinarizer α) (i b : Nat) (hi : i < c.data_float_size)
    (hb : b < c.encode_bits) :
    (c.unpack_binary (List.replicate (c.encode_bits * c.data_float_size) 0)).getD
      (i * c.encode_bits + b) 0 = c.sign_at i b :=
  (unpack_binary_spec c _ (List.length_replicate _ _)).2 i b hi hb

/-- The body of the loop over the batches is the reference for one batch. -/
theorem descent_batch_reference (c : LQBinarizer α) (x_tgt : List α)
    (state : List α × List α) (j : Nat) (hbuf : state.2.length = 64) :
    (descent_batch c (c.unpack_binary (List.replicate (c.encode_bits * c.data_float_size) 0))
        x_tgt state (j * batch_size)).1
      = c.reference_batch x_tgt state.1
          ((List.range (min (c.data_float_size - j * 64) 64)).map (fun i => j * 64 + i))
    ∧ (descent_batch c (c.unpack_binary (List.replicate (c.encode_bits * c.data_float_size) 0))
        x_tgt state (j * batch_size)).2.length = 64 := by
  have hsize : min (c.data_float_size - j * 64) 64 ≤ state.2.length := by
    rw [hbuf]; exact Nat.min_le_right _ _
  obtain ⟨hd1, hd2, _⟩ := dequantize_spec { c with scales := state.1 }
    ((c.unpack_binary (List.replicate (c.encode_bits * c.data_float_size) 0)).drop
      (c.encode_bits * (j * 64))) state.2 (min (c.data_float_size - j * 64) 64) hsize
  unfold descent_batch LQBinarizer.reference_batch batch_size
  simp only
  refine ⟨?_, by rw [hd1, hbuf]⟩
  rw [List.foldl_map]
  refine List.foldl_ext _ _ _ (fun st i hi => ?_)
  have hi' : i < min (c.data_float_size - j * 64) 64 := List.mem_range.mp hi
  have hiN : j * 64 + i < c.data_float_size := by
    have := Nat.min_le_left (c.data_float_size - j * 64) 64
    omega
  rw [hd2 i hi', getD_drop x_tgt]
  have hxhat : (∑ b in Finset.range c.encode_bits,
        (((c.unpack_binary (List.replicate (c.encode_bits * c.data_float_size) 0)).drop
            (c.encode_bits * (j * 64))).getD (i * c.encode_bits + b) 0 : α)
          * state.1.getD b 0)
      = ∑ b in Finset.range c.encode_bits,
          ((c.sign_at (j * 64 + i) b : Int) : α) * state.1.getD b 0 := by
    refine Finset.sum_congr rfl (fun b hb => ?_)
    have hidx : c.encode_bits * (j * 64) + (i * c.encode_bits + b)
        = (j * 64 + i) * c.encode_bits + b := by ring
    rw [getD_drop, hidx, unpack_sign_at c _ b hiN (Finset.mem_range.mp hb)]
  rw [hxhat]
  refine descent_value_reference _ _ _ _ _ (fun b hb => ?_)
  rw [getD_drop, unpack_sign_at c _ b hiN hb]

omit [LinearOrderedField α] in
/-- The first `m` batches are the indices below `min (m * 64) N`, in increasing order. -/
theorem batches_flatten (N m : Nat) :
    ((List.range m).map
        (fun j => (List.range (min (N - j * 64) 64)).map (fun i => j * 64 + i))).flatten
      = List.range (min (m * 64) N) := by
  induction m with
  | zero => simp
  | succ m ih =>
    rw [List.range_succ, List.map_append, List.flatten_append, ih]
    simp only [List.map_cons, List.map_nil, List.flatten_cons, List.flatten_nil,
      List.append_nil]
    rcases Nat.lt_or_ge N (m * 64) with h | h
    · have h1 : min (N - m * 64) 64 = 0 := by omega
      have h2 : min (m * 64) N = N := by omega
      have h3 : min ((m + 1) * 64) N = N := by omega
      rw [h1, h2, h3]
      simp
    · have h2 : min (m * 64) N = m * 64 := by omega
      have h3 : min ((m + 1) * 64) N = m * 64 + min (N - m * 64) 64 := by omega
      rw [h2, h3, List.range_add]

/-- C25. The scales that `gradient_descent_scales(x_tgt)` leaves are those of the
reference: unpack the bit planes once into the signs `+1` / `-1`; then, in each of 8
passes and for each consecutive batch of at most 64 indices, compute
`xhat[i] = sum over b of sign[i, b] * S[b]` for the whole batch from the scales at the
start of the batch, then for each `i` of the batch in order and each bit `b` set
`S[b] := S[b] - 0.001 * (sign[i, b] * (xhat[i] - x_tgt[i]) + 0.02 * S[b])`.  The batches
hold the indices `0 .. N - 1` exactly once and in increasing order, none has more than 64
indices, and the method changes nothing of the codec but the scales: the packed bit
planes, from which the signs are read, and the tables stay as they are. -/
theorem gradient_descent_reference (c : LQBinarizer α) (x_tgt : List α) :
    (c.gradient_descent_scales x_tgt).scales = c.reference_descent x_tgt
    ∧ c.gradient_descent_scales x_tgt
        = { c with scales := (c.gradient_descent_scales x_tgt).scales }
    ∧ (reference_batches c.data_float_size).flatten = List.range c.data_float_size
    ∧ ∀ batch, batch ∈ reference_batches c.data_float_size → batch.length ≤ 64 := by
  refine ⟨?_, rfl, ?_, fun batch hb => ?_⟩
  · unfold LQBinarizer.gradient_descent_scales LQBinarizer.reference_descent
      reference_batches descent_steps
    simp only
    have hN : c.data_float_size + batch_size - 1 = c.data_float_size + 63 := rfl
    rw [hN]
    refine (foldl_sim (fun (st : List α × List α) (S : List α) => st.1 = S ∧ st.2.length = 64)
      _ _ (List.range 8) (fun st S _ _ hR => ?_) _ _
      ⟨rfl, List.length_replicate _ _⟩).1
    rw [List.foldl_map]
    refine foldl_sim (fun (st : List α × List α) (S : List α) => st.1 = S ∧ st.2.length = 64)
      _ _ _ (fun st' S' j _ hR' => ?_) _ _ hR
    obtain ⟨h1, h2⟩ := descent_batch_reference c x_tgt st' j hR'.2
    exact ⟨by rw [h1, hR'.1], h2⟩
  · unfold reference_batches
    rw [batches_flatten]
    congr 1
    omega
  · unfold reference_batches at hb
    obtain ⟨j, _, rfl⟩ := List.mem_map.mp hb
    rw [List.length_map, List.length_range]
    exact Nat.min_le_right _ _

end Descent

/-! ## The kernel: every index in bounds -/

section Bounds

open kernels

variable {α : Type} [LinearOrderedField α]

omit [LinearOrderedField α] in
/-- The row-major index of a position inside an `n × m` array is below `n * m`. -/
theorem idx_bound (a b n m : Nat) (ha : a < n) (hb : b < m) : a * m + b < n * m := by
  have h1 : (a + 1) * m ≤ n * m := Nat.mul_le_mul_right _ ha
  have h2 : (a + 1) * m = a * m + m := Nat.succ_mul a m
  omega

omit [LinearOrderedField α] in
theorem num_elements_rank2 (t : Tensor α) (h : t.num_dims = 2) :
    t.num_elements = t.dim 0 * t.dim 1 := by
  unfold Tensor.num_dims at h
  obtain ⟨a, b, hab⟩ := List.length_eq_two.mp h
  unfold Tensor.num_elements Tensor.dim
  rw [hab]
  simp

omit [LinearOrderedField α] in
theorem num_elements_rank3 (t : Tensor α) (h : t.num_dims = 3) :
    t.num_elements = t.dim 0 * t.dim 1 * t.dim 2 := by
  unfold Tensor.num_dims at h
  obtain ⟨a, b, c, habc⟩ := List.length_eq_three.mp h
  unfold Tensor.num_elements Tensor.dim
  rw [habc]
  simp [Nat.mul_assoc]

omit [LinearOrderedField α] in
theorem num_elements_rank1 (t : Tensor α) (h : t.num_dims = 1) :
    t.num_elements = t.dim 0 := by
  unfold Tensor.num_dims at h
  obtain ⟨a, ha⟩ := List.length_eq_one.mp h
  unfold Tensor.num_elements Tensor.dim
  rw [ha]
  simp

/-- The indices that `quantize_and_pack` of a built codec uses: input values of the row,
words of the packed planes, and entries of the two tables. -/
theorem codec_accesses_bound (lowest : α) (N : Nat) (data_scales : Tensor α)
    (hK : data_scales.dim 0 ≤ 30) (data_vector : List α) (offset : Nat) (a : Buffer × Nat)
    (ha : a ∈ (LQBinarizer.built lowest N data_scales).accesses data_vector offset) :
    (a.1 = Buffer.input ∧ ∃ i, i < N ∧ a.2 = offset + i)
    ∨ (a.1 = Buffer.input_binary ∧ a.2 < data_scales.dim 0 * ((N + 31) / 32))
    ∨ (a.1 = Buffer.thresholds ∧ 1 ≤ a.2 ∧ a.2 < 2 ^ data_scales.dim 0)
    ∨ (a.1 = Buffer.levels ∧ a.2 < 2 ^ data_scales.dim 0) := by
  unfold LQBinarizer.accesses at ha
  have hbin : (LQBinarizer.built lowest N data_scales).data_bin_size = (N + 31) / 32 := rfl
  have hbits : (LQBinarizer.built lowest N data_scales).encode_bits = data_scales.dim 0 := rfl
  have hsize : (LQBinarizer.built lowest N data_scales).data_float_size = N := rfl
  have hcount : (LQBinarizer.built lowest N data_scales).levels_count
      = 2 ^ data_scales.dim 0 := rfl
  obtain ⟨ht1, ht2⟩ := two_pow_toNat (data_scales.dim 0)
  have hpos : 0 < 2 ^ data_scales.dim 0 := Nat.two_pow_pos _
  rw [hbin, hbits, hsize, hcount, ht1, ht2] at ha
  rcases List.mem_append.mp ha with h | h
  · obtain ⟨p, hp, rfl⟩ := List.mem_map.mp h
    exact Or.inr (Or.inl ⟨rfl, List.mem_range.mp hp⟩)
  · obtain ⟨i, hi, h⟩ := List.mem_flatMap.mp h
    have hi' : i < N := List.mem_range.mp hi
    simp only at h
    rcases List.mem_cons.mp h with rfl | h
    · exact Or.inl ⟨rfl, i, hi', rfl⟩
    · rcases List.mem_append.mp h with h | h
      · obtain ⟨res, reads, h1, _, h3, h4, _⟩ := bin_search_iterations (data_scales.dim 0) hK
          (LQBinarizer.built lowest N data_scales).quantization_levels
          (LQBinarizer.built lowest N data_scales).quantization_thresholds
          (data_vector.getD i 0)
        rw [h1] at h
        simp only at h
        rcases List.mem_append.mp h with h | h
        · obtain ⟨m, hm, rfl⟩ := List.mem_map.mp h
          have := h3 m hm
          exact Or.inr (Or.inr (Or.inl ⟨rfl, this.1, by omega⟩))
        · rw [List.mem_singleton] at h
          subst h
          exact Or.inr (Or.inr (Or.inr ⟨rfl, by omega⟩))
      · obtain ⟨b, hb, rfl⟩ := List.mem_map.mp h
        refine Or.inr (Or.inl ⟨rfl, ?_⟩)
        unfold calcOffset
        rw [Nat.shiftRight_eq_div_pow]
        exact idx_bound b (i / 2 ^ 5) _ _ (List.mem_range.mp hb) (by omega)

/-- Where `input_scales` has rank 1, every index is in bounds.  For every configuration
accepted by `configure` (the hidden size an `int32_t`) with at least one input bit, an
`input_scales` tensor of rank 1 and tensors that hold as many elements as their shapes
declare, every index that `execute` uses is below the number of elements of its buffer:
the input (`B * H` elements, used at `b * H + i`), the packed input planes
(`Ki * ceil(H/32)` words, used at `bi * ceil(H/32) + w`), `weights_scales` (`O * Kw`, used
at `o * Kw + bw`), `weights_binary` (`O * Kw * ceil(H/32)`, used at
`(o * Kw + bw) * ceil(H/32) + w`), the bias (`O`, used at `o`), the output (`B * O`, used
at `b * O + o`), the tables of the scratch codec (`2^Ki` entries each) and the input
scales (`Ki`, used at `bi`).  The input has the element type `FLOAT32`, so `execute` is
`evalFloat`, never the branch that throws `Unsupported type`, and it returns. -/
theorem execute_in_bounds (lowest : α) (k k' : LQFullyConnected α)
    (hH : k.input.dim 1 < 2147483648) (hcfg : k.configure lowest = .ok k')
    (hKi : 1 ≤ k.input_scales.dim 0) (hscales : k.input_scales.num_dims = 1)
    (hholds : k'.Holds) :
    (∀ a, a ∈ k'.accesses → a.2 < k'.extent a.1)
    ∧ k'.extent Buffer.input = k.input.dim 0 * k.input.dim 1
    ∧ k'.extent Buffer.input_binary = k.input_scales.dim 0 * ((k.input.dim 1 + 31) / 32)
    ∧ k'.extent Buffer.weights_scales = k.weights_binary.dim 0 * k.weights_scales.dim 1
    ∧ k'.extent Buffer.weights_binary
        = k.weights_binary.dim 0 * k.weights_scales.dim 1 * ((k.input.dim 1 + 31) / 32)
    ∧ (∀ bias, k.bias = some bias → k'.extent Buffer.bias = k.weights_binary.dim 0)
    ∧ k'.extent Buffer.output = k.input.dim 0 * k.weights_binary.dim 0
    ∧ k'.extent Buffer.thresholds = 2 ^ k.input_scales.dim 0
    ∧ k'.extent Buffer.levels = 2 ^ k.input_scales.dim 0
    ∧ k'.extent Buffer.input_scales = k.input_scales.dim 0
    ∧ k'.execute = k'.evalFloat
    ∧ ∃ k'', k'.execute = .ok k'' := by
  have _hbits : 0 < k.input_scales.dim 0 := hKi
  obtain ⟨hv, hN, _, hK, hk'⟩ := configure_ok_inv lowest k k' hH hcfg
  obtain ⟨h1, _, _, _, _, _, h7, h8, h9, h10, h11, h12, _, _, h15, h16⟩ := hv
  have hdim : k.weights_binary.dim 2 = (k.input.dim 1 + 31) / 32 := by
    rw [← h16, ceil_div_32 _ hN] at h12
    exact_mod_cast h12
  subst hk'
  obtain ⟨g1, g2, g3, g4, g5, g6⟩ := hholds
  simp only at g1 g2 g3 g4 g5 g6
  have hpos : 0 < 2 ^ k.input_scales.dim 0 := Nat.two_pow_pos _
  have e1 : k.input.float_data.length = k.input.dim 0 * k.input.dim 1 := by
    rw [g1, num_elements_rank2 _ h15]
  have e3 : k.weights_scales.float_data.length
      = k.weights_binary.dim 0 * k.weights_scales.dim 1 := by
    rw [g3, num_elements_rank2 _ h7, h10]
  have e4 : k.weights_binary.int_data.length
      = k.weights_binary.dim 0 * k.weights_scales.dim 1 * ((k.input.dim 1 + 31) / 32) := by
    rw [g4, num_elements_rank3 _ h8, h11, hdim]
  have hd0 : (resize k.output [k.input.dim 0, k.weights_binary.dim 0]).dim 0
      = k.input.dim 0 := rfl
  have hd1 : (resize k.output [k.input.dim 0, k.weights_binary.dim 0]).dim 1
      = k.weights_binary.dim 0 := rfl
  have hne : (resize k.output [k.input.dim 0, k.weights_binary.dim 0]).num_elements
      = k.input.dim 0 * k.weights_binary.dim 0 := by
    simp [resize, Tensor.num_elements]
  have e6 : k.output.float_data.length = k.input.dim 0 * k.weights_binary.dim 0 := by
    have h := g6
    rw [hne] at h
    exact h
  have e7 : (LQBinarizer.built lowest (k.input.dim 1) k.input_scales).data_binary.length
      = k.input_scales.dim 0 * ((k.input.dim 1 + 31) / 32) := by
    unfold LQBinarizer.built
    simp [Nat.mul_comm]
  have e8 : (LQBinarizer.built lowest (k.input.dim 1)
      k.input_scales).quantization_thresholds.length = 2 ^ k.input_scales.dim 0 := by
    unfold LQBinarizer.built
    exact init_thresholds_length _ _ _ hpos
  have e9 : (LQBinarizer.built lowest (k.input.dim 1)
      k.input_scales).quantization_levels.length = 2 ^ k.input_scales.dim 0 := by
    unfold LQBinarizer.built
    simp only
    rw [sort_levels_length, init_levels_length]
  have e2 : k.input_scales.float_data.length = k.input_scales.dim 0 := by
    rw [g2, num_elements_rank1 _ hscales]
  refine ⟨fun a ha => ?_, e1, e7, e3, e4, fun bias hb => ?_, e6, e8, e9, e2, ?_, ?_⟩
  · unfold LQFullyConnected.accesses at ha
    simp only [hd0, hd1, hne] at ha
    rcases List.mem_append.mp ha with ha | ha
    · obtain ⟨batch, hbatch, ha⟩ := List.mem_flatMap.mp ha
      have hbatch' : batch < k.input.dim 0 := List.mem_range.mp hbatch
      rcases List.mem_append.mp ha with ha | ha
      · rcases List.mem_append.mp ha with ha | ha
        · rcases codec_accesses_bound lowest _ _ hK _ _ a ha with
            ⟨hb, i, hi, hidx⟩ | ⟨hb, hidx⟩ | ⟨hb, _, hidx⟩ | ⟨hb, hidx⟩
          · rw [hb, hidx]
            show _ < k.input.float_data.length
            rw [e1]
            unfold calcOffset
            rw [Nat.add_zero]
            exact idx_bound _ _ _ _ hbatch' hi
          · rw [hb]
            show _ < (LQBinarizer.built lowest (k.input.dim 1) k.input_scales).data_binary.length
            rw [e7]
            exact hidx
          · rw [hb]
            show _ < (LQBinarizer.built lowest (k.input.dim 1)
              k.input_scales).quantization_thresholds.length
            rw [e8]
            exact hidx
          · rw [hb]
            show _ < (LQBinarizer.built lowest (k.input.dim 1)
              k.input_scales).quantization_levels.length
            rw [e9]
            exact hidx
        · obtain ⟨o, ho, ha⟩ := List.mem_flatMap.mp ha
          have ho' : o < k.weights_binary.dim 0 := List.mem_range.mp ho
          rcases List.mem_append.mp ha with ha | ha
          · obtain ⟨bi, hbi, ha⟩ := List.mem_flatMap.mp ha
            have hbi' : bi < k.input_scales.dim 0 := List.mem_range.mp hbi
            rcases List.mem_cons.mp ha with rfl | ha
            · show _ < k.input_scales.float_data.length
              rw [e2]
              exact hbi'
            · obtain ⟨bw, hbw, ha⟩ := List.mem_flatMap.mp ha
              have hbw' : bw < k.weights_scales.dim 1 := List.mem_range.mp hbw
              have hoff : calcOffset (k.weights_scales.dim 1) o bw
                  < k.weights_binary.dim 0 * k.weights_scales.dim 1 :=
                idx_bound _ _ _ _ ho' hbw'
              rcases List.mem_cons.mp ha with rfl | ha
              · show _ < k.weights_scales.float_data.length
                rw [e3]
                exact hoff
              · obtain ⟨w, hw, ha⟩ := List.mem_flatMap.mp ha
                have hw' : w < (k.input.dim 1 + 31) / 32 := by
                  rw [← hdim]; exact List.mem_range.mp hw
                rcases List.mem_cons.mp ha with rfl | ha
                · show _ < (LQBinarizer.built lowest (k.input.dim 1)
                    k.input_scales).data_binary.length
                  rw [e7, hdim]
                  exact idx_bound _ _ _ _ hbi' hw'
                · rw [List.mem_singleton] at ha
                  subst ha
                  show _ < k.weights_binary.int_data.length
                  rw [e4, hdim]
                  exact idx_bound _ _ _ _ hoff hw'
          · rw [List.mem_singleton] at ha
            subst ha
            show _ < k.output.float_data.length
            rw [e6]
            unfold calcOffset
            rw [Nat.add_zero]
            exact idx_bound _ _ _ _ hbatch' ho'
      · cases hbias : k.bias with
        | none =>
          rw [hbias] at ha
          exact absurd ha (List.not_mem_nil _)
        | some bias =>
          rw [hbias] at ha
          obtain ⟨o, ho, ha⟩ := List.mem_flatMap.mp ha
          have ho' : o < k.weights_binary.dim 0 := List.mem_range.mp ho
          rcases List.mem_cons.mp ha with rfl | ha
          · show _ < LQFullyConnected.extent _ Buffer.bias
            unfold LQFullyConnected.extent
            simp only [hbias]
            rw [g5 bias hbias, h9 bias hbias]
            exact ho'
          · rw [List.mem_singleton] at ha
            subst ha
            show _ < k.output.float_data.length
            rw [e6]
            unfold calcOffset
            rw [Nat.add_zero]
            exact idx_bound _ _ _ _ hbatch' ho'
    · obtain ⟨p, hp, rfl⟩ := List.mem_map.mp ha
      show _ < k.output.float_data.length
      rw [e6]
      exact List.mem_range.mp hp
  · unfold LQFullyConnected.extent
    simp only [hb]
    rw [g5 bias hb, h9 bias hb]
  · unfold LQFullyConnected.execute
    simp only [h1]
  · unfold LQFullyConnected.execute
    simp only [h1]
    unfold LQFullyConnected.evalFloat
    exact ⟨_, rfl⟩

theorem kernelAllocated_configure :
    kernelAllocated.configure FLT_LOWEST = .ok kernelAllocatedConfigured := by
  rw [configure_of_valid FLT_LOWEST kernelAllocated (by decide),
    kernels_new_ok FLT_LOWEST _ _ (by decide) (by decide) (by decide)]
  rfl

theorem kernelAllocated_holds : kernelAllocatedConfigured.Holds := by
  unfold LQFullyConnected.Holds
  decide

/-- The bounds at a concrete input: the kernel of the test `LQFullyConnectedTest.Simple` with an
output tensor of four values. -/
theorem execute_in_bounds_witness :
    (∀ a, a ∈ kernelAllocatedConfigured.accesses → a.2 < kernelAllocatedConfigured.extent a.1)
    ∧ kernelAllocatedConfigured.execute = kernelAllocatedConfigured.evalFloat
    ∧ ∃ k'', kernelAllocatedConfigured.execute = .ok k'' :=
  ⟨(execute_in_bounds FLT_LOWEST kernelAllocated kernelAllocatedConfigured (by decide)
      kernelAllocated_configure (by decide) (by decide) kernelAllocated_holds).1,
    (execute_in_bounds FLT_LOWEST kernelAllocated kernelAllocatedConfigured (by decide)
      kernelAllocated_configure (by decide) (by decide) kernelAllocated_holds).2.2.2.2.2.2.2.2.2.2⟩

/-- C29 (failing input). The kernel `kernelScalesEmpty` has an `input_scales` tensor of
the shape `[2, 0]`, which holds the `0` elements that its shape declares; every check of
`configure` passes, none being on the rank of `input_scales`, and `configure` succeeds
with two input bits.  `execute` then reads `input_scales_data[0]` and
`input_scales_data[1]`, although the buffer holds no element: not every index that
`execute` uses is in bounds. -/
theorem execute_reads_past_input_scales :
    kernelScalesEmpty.Valid
    ∧ kernelScalesEmpty.input_scales.dim 0 = 2
    ∧ kernelScalesEmpty.configure FLT_LOWEST = .ok kernelScalesEmptyConfigured
    ∧ kernelScalesEmptyConfigured.Holds
    ∧ kernelScalesEmptyConfigured.extent Buffer.input_scales = 0
    ∧ (Buffer.input_scales, 0) ∈ kernelScalesEmptyConfigured.accesses
    ∧ (Buffer.input_scales, 1) ∈ kernelScalesEmptyConfigured.accesses
    ∧ (∃ k'', kernelScalesEmptyConfigured.execute = .ok k'')
    ∧ ¬ ∀ a, a ∈ kernelScalesEmptyConfigured.accesses →
        a.2 < kernelScalesEmptyConfigured.extent a.1 := by
  have hmem : (Buffer.input_scales, 0) ∈ kernelScalesEmptyConfigured.accesses := by decide!
  refine ⟨by decide, rfl, ?_, ?_, rfl, hmem, by decide!, ⟨_, rfl⟩, fun h => ?_⟩
  · rw [configure_of_valid FLT_LOWEST kernelScalesEmpty (by decide),
      kernels_new_ok FLT_LOWEST _ _ (by decide) (by decide) (by decide)]
    rfl
  · unfold LQFullyConnected.Holds
    decide
  · exact absurd (h _ hmem) (by decide)

end Bounds
/-! ## The node `CircleLQFullyConnected` -/

section LQNode

open luci luci.CircleLQFullyConnected

theorem args_of_length_five (args : List (Option Nat)) (h : args.length = 5) :
    ∃ a0 a1 a2 a3 a4, args = [a0, a1, a2, a3, a4] := by
  match args, h with
  | [a0, a1, a2, a3, a4], _ => exact ⟨a0, a1, a2, a3, a4, rfl⟩

/-- C23. A freshly constructed `CircleLQFullyConnected` has the opcode
`LQ_FULLY_CONNECTED`, the five operands `input`, `input_scales`, `weights_scales`,
`weights_binary`, `bias` null, held in the argument slots `0 .. 4` in this order, the fused
activation `UNDEFINED` and `weights_hidden_size` `0`.  On every such node (five argument
slots) each setter changes only its own slot or field: the matching getter returns the
value that was set, every other getter returns what it returned before, and nothing else
of the node changes. -/
theorem lq_node_accessors (n : CircleNode) (hn : n.args.length = 5) (node : Option Nat)
    (f : FusedActFunc) (h : Int) :
    (observe new
        = (CircleOpcode.LQ_FULLY_CONNECTED, none, none, none, none, none,
            FusedActFunc.UNDEFINED, 0)
      ∧ new.args = [none, none, none, none, none])
    ∧ n.args = [input n, input_scales n, weights_scales n, weights_binary n, bias n]
    ∧ (observe (set_input n node)
        = (n.opcode, node, input_scales n, weights_scales n, weights_binary n, bias n,
            n.fusedActivationFunction, weights_hidden_size n)
      ∧ { set_input n node with args := n.args } = n
      ∧ (set_input n node).args.length = 5)
    ∧ (observe (set_input_scales n node)
        = (n.opcode, input n, node, weights_scales n, weights_binary n, bias n,
            n.fusedActivationFunction, weights_hidden_size n)
      ∧ { set_input_scales n node with args := n.args } = n
      ∧ (set_input_scales n node).args.length = 5)
    ∧ (observe (set_weights_scales n node)
        = (n.opcode, input n, input_scales n, node, weights_binary n, bias n,
            n.fusedActivationFunction, weights_hidden_size n)
      ∧ { set_weights_scales n node with args := n.args } = n
      ∧ (set_weights_scales n node).args.length = 5)
    ∧ (observe (set_weights_binary n node)
        = (n.opcode, input n, input_scales n, weights_scales n, node, bias n,
            n.fusedActivationFunction, weights_hidden_size n)
      ∧ { set_weights_binary n node with args := n.args } = n
      ∧ (set_weights_binary n node).args.length = 5)
    ∧ (observe (set_bias n node)
        = (n.opcode, input n, input_scales n, weights_scales n, weights_binary n, node,
            n.fusedActivationFunction, weights_hidden_size n)
      ∧ { set_bias n node with args := n.args } = n
      ∧ (set_bias n node).args.length = 5)
    ∧ (observe (set_fusedActivationFunction n f)
        = (n.opcode, input n, input_scales n, weights_scales n, weights_binary n, bias n,
            f, weights_hidden_size n)
      ∧ { set_fusedActivationFunction n f with
            fusedActivationFunction := n.fusedActivationFunction } = n)
    ∧ (observe (set_weights_hidden_size n h)
        = (n.opcode, input n, input_scales n, weights_scales n, weights_binary n, bias n,
            n.fusedActivationFunction, h)
      ∧ { set_weights_hidden_size n h with _weights_hidden_size := n._weights_hidden_size }
          = n) := by
  obtain ⟨a0, a1, a2, a3, a4, hargs⟩ := args_of_length_five n.args hn
  refine ⟨⟨rfl, rfl⟩, ?_, ⟨?_, rfl, ?_⟩, ⟨?_, rfl, ?_⟩, ⟨?_, rfl, ?_⟩, ⟨?_, rfl, ?_⟩,
    ⟨?_, rfl, ?_⟩, ⟨rfl, rfl⟩, ⟨rfl, rfl⟩⟩ <;>
  simp [observe, input, input_scales, weights_scales, weights_binary, bias,
    weights_hidden_size, set_input, set_input_scales, set_weights_scales, set_weights_binary,
    set_bias, CircleNode.at_node, CircleNode.set_at_node, hargs]

/-- C23, at a concrete input: a fresh node, the node `7`, the activation `RELU` and the
hidden size `5`. -/
theorem lq_node_accessors_witness :
    observe (set_weights_scales new (some 7))
        = (CircleOpcode.LQ_FULLY_CONNECTED, none, none, some 7, none, none,
            FusedActFunc.UNDEFINED, 0)
      ∧ { set_weights_scales new (some 7) with args := new.args } = new
      ∧ (set_weights_scales new (some 7)).args.length = 5 :=
  (lq_node_accessors new rfl (some 7) FusedActFunc.RELU 5).2.2.2.2.1

end LQNode

/-! ## The LQ prototype of a fully connected node -/

section Prototype

open luci loco lquantizer

theorem except_ok_bind {ε β γ : Type} (x : β) (f : β → Except ε γ) :
    (Except.ok x >>= f) = f x := rfl

theorem update_append_right (g l : Graph) (i : Nat) (f : CircleNode → CircleNode) :
    Graph.update (g ++ l) (g.length + i) f = g ++ Graph.update l i f := by
  unfold Graph.update
  rw [List.getElem?_append_right (Nat.le_add_right _ _), Nat.add_sub_cancel_left]
  cases l[i]? with
  | none => rfl
  | some n =>
    simp only
    rw [List.set_append_right _ _ (Nat.le_add_right _ _), Nat.add_sub_cancel_left]

theorem update_append_zero (g l : Graph) (f : CircleNode → CircleNode) :
    Graph.update (g ++ l) g.length f = g ++ Graph.update l 0 f :=
  update_append_right g l 0 f

theorem update_cons_zero (a : CircleNode) (l : Graph) (f : CircleNode → CircleNode) :
    Graph.update (a :: l) 0 f = f a :: l := by
  simp [Graph.update]

theorem update_cons_succ (a : CircleNode) (l : Graph) (i : Nat) (f : CircleNode → CircleNode) :
    Graph.update (a :: l) (i + 1) f = a :: Graph.update l i f := by
  unfold Graph.update
  rw [List.getElem?_cons_succ]
  cases l[i]? <;> rfl

theorem deref_append_right (g l : Graph) (i : Nat) :
    deref (g ++ l) (g.length + i) = deref l i := by
  unfold deref
  rw [List.getElem?_append_right (Nat.le_add_right _ _), Nat.add_sub_cancel_left]

theorem update_created (g l : Graph) (c : CircleNode) (f : CircleNode → CircleNode) :
    Graph.update ((g ++ l) ++ [c]) ((g ++ l).length) f = g ++ (l ++ [f c]) := by
  rw [update_append_zero, update_cons_zero, List.append_assoc]

theorem update_first (g l : Graph) (a : CircleNode) (f : CircleNode → CircleNode) :
    Graph.update (g ++ (a :: l)) g.length f = g ++ (f a :: l) := by
  rw [update_append_zero, update_cons_zero]

theorem deref_cons_zero (a : CircleNode) (l : Graph) : deref (a :: l) 0 = .ok a := by
  simp [deref]

theorem deref_cons_succ (a : CircleNode) (l : Graph) (i : Nat) :
    deref (a :: l) (i + 1) = deref l i := by
  simp [deref]

theorem must_cast_append (g l : Graph) (id : Nat) (n : CircleNode)
    (is_class : CircleNode → Bool) (h : g[id]? = some n) (hc : is_class n = true) :
    must_cast (g ++ l) (some id) is_class = .ok (id, n) := by
  unfold must_cast
  have hid : id < g.length := by
    by_contra hcon
    rw [List.getElem?_eq_none (Nat.le_of_not_lt hcon)] at h
    cases h
  simp only
  rw [List.getElem?_append_left hid, h]
  simp only [hc, if_true]

/-- C22. For every fully connected node `fc` of a graph with a rank-2 output and with
weights of the shape `[O, H]` (`H + 31` an `int32_t`), `make_lq_fully_connected` with `Ki`
input bits and `Kw` weight bits returns: the graph keeps its nodes and owns four more, the
LQ node and the constants `input_scales`, `weights_scales`, `weights_binary`.  The LQ node
has `weights_hidden_size = H`, the element type `FLOAT32`, the output shape, the input, the
bias and the fused activation of `fc`; `input_scales` is a `FLOAT32` constant of the shape
`[Ki]`, `weights_scales` a `FLOAT32` constant of the shape `[O, Kw]`, and `weights_binary`
an `S32` constant of the shape `[O, Kw, ceil(H/32)]`. -/
theorem make_lq_fully_connected_spec (g : Graph) (node w : Nat) (fc weights : CircleNode)
    (O H Ki Kw : Nat) (hfc : g[node]? = some fc)
    (hop : fc.opcode = CircleOpcode.FULLY_CONNECTED) (hrank : fc.rank = 2)
    (hw : CircleFullyConnected.weights fc = some w) (hweights : g[w]? = some weights)
    (hshape : weights.shape = [O, H]) (hH : H + 31 < 2147483648) :
    make_lq_fully_connected g node Ki Kw
      = .ok (g ++
          [{ opcode := CircleOpcode.LQ_FULLY_CONNECTED
             name := fc.name ++ "/LQFullyConnected"
             dtype := some DataType.FLOAT32
             shape := fc.shape
             shape_status := ShapeStatus.VALID
             args := [CircleFullyConnected.input fc, some (g.length + 1), some (g.length + 2),
               some (g.length + 3), CircleFullyConnected.bias fc]
             fusedActivationFunction := fc.fusedActivationFunction
             _weights_hidden_size := H
             size := 0 },
           { opcode := CircleOpcode.CIRCLECONST
             name := fc.name ++ "/input_scales"
             dtype := some DataType.FLOAT32
             shape := [Ki]
             shape_status := ShapeStatus.VALID
             args := []
             fusedActivationFunction := FusedActFunc.UNDEFINED
             _weights_hidden_size := 0
             size := Ki },
           { opcode := CircleOpcode.CIRCLECONST
             name := fc.name ++ "/weights_scales"
             dtype := some DataType.FLOAT32
             shape := [O, Kw]
             shape_status := ShapeStatus.VALID
             args := []
             fusedActivationFunction := FusedActFunc.UNDEFINED
             _weights_hidden_size := 0
             size := wrapU32 ((O : Int) * (Kw : Int)) },
           { opcode := CircleOpcode.CIRCLECONST
             name := fc.name ++ "/weights_binary"
             dtype := some DataType.S32
             shape := [O, Kw, (H + 31) / 32]
             shape_status := ShapeStatus.VALID
             args := []
             fusedActivationFunction := FusedActFunc.UNDEFINED
             _weights_hidden_size := 0
             size := wrapU32 ((O : Int) * (Kw : Int) * (((H + 31) / 32 : Nat) : Int)) }],
          g.length) := by
  have hd0 : weights.dim 0 = O := by unfold CircleNode.dim; rw [hshape]; rfl
  have hd1 : weights.dim 1 = H := by unfold CircleNode.dim; rw [hshape]; rfl
  have hwrank : weights.rank = 2 := by unfold CircleNode.rank; rw [hshape]; rfl
  have hwrap : wrapS32 (H : Int) = H := wrapS32_of_range (by omega) (by omega)
  have hceil : ceil_div (H : Int) 32 = (((H + 31) / 32 : Nat) : Int) := ceil_div_32 H hH
  have hcast := must_cast_append g [] node fc
    (fun n => n.opcode = CircleOpcode.FULLY_CONNECTED) hfc (by simp [hop])
  rw [List.append_nil] at hcast
  have hcastw : ∀ l : Graph, must_cast (g ++ l) (some w) (fun _ => true) = .ok (w, weights) :=
    fun l => must_cast_append g l w weights (fun _ => true) hweights rfl
  obtain ⟨d0, d1, hfshape⟩ := List.length_eq_two.mp hrank
  unfold make_lq_fully_connected
  rw [hcast]
  rw [except_ok_bind]
  dsimp only [Graph.create]
  rw [if_neg (by rw [hrank]; exact fun h => h rfl)]
  simp only [List.append_assoc, List.singleton_append, List.cons_append, List.nil_append,
    List.length_append, List.length_singleton, List.length_cons, List.length_nil,
    update_append_zero, update_append_right, update_cons_zero, update_cons_succ, Nat.zero_add,
    Nat.add_assoc, Nat.reduceAdd]
  rw [hw, hcastw, except_ok_bind]
  dsimp only
  rw [if_neg (by rw [hwrank]; exact fun h => h rfl)]
  rw [deref_append_right, deref_cons_succ, deref_cons_succ, deref_cons_zero, except_ok_bind]
  show Except.ok _ = Except.ok _
  rw [hd1, hwrap]
  have hB : init_input_scales fc.name Ki CircleConst.new
      = { opcode := CircleOpcode.CIRCLECONST
          name := fc.name ++ "/input_scales"
          dtype := some DataType.FLOAT32
          shape := [Ki]
          shape_status := ShapeStatus.VALID
          args := []
          fusedActivationFunction := FusedActFunc.UNDEFINED
          _weights_hidden_size := 0
          size := Ki } := by
    simp [init_input_scales, CircleConst.new, CircleNode.fresh, CircleNode.set_rank,
      CircleNode.set_dim]
  have hC : init_weights_scales fc.name weights Kw CircleConst.new
      = { opcode := CircleOpcode.CIRCLECONST
          name := fc.name ++ "/weights_scales"
          dtype := some DataType.FLOAT32
          shape := [O, Kw]
          shape_status := ShapeStatus.VALID
          args := []
          fusedActivationFunction := FusedActFunc.UNDEFINED
          _weights_hidden_size := 0
          size := wrapU32 ((O : Int) * (Kw : Int)) } := by
    simp [init_weights_scales, CircleConst.new, CircleNode.fresh, CircleNode.set_rank,
      CircleNode.set_dim, hd0]
  have hD : ∀ C : CircleNode, C.shape = [O, Kw] →
      init_weights_binary fc.name C H CircleConst.new
      = { opcode := CircleOpcode.CIRCLECONST
          name := fc.name ++ "/weights_binary"
          dtype := some DataType.S32
          shape := [O, Kw, (H + 31) / 32]
          shape_status := ShapeStatus.VALID
          args := []
          fusedActivationFunction := FusedActFunc.UNDEFINED
          _weights_hidden_size := 0
          size := wrapU32 ((O : Int) * (Kw : Int) * (((H + 31) / 32 : Nat) : Int)) } := by
    intro C hC
    have c0 : C.dim 0 = O := by unfold CircleNode.dim; rw [hC]; rfl
    have c1 : C.dim 1 = Kw := by unfold CircleNode.dim; rw [hC]; rfl
    have hlt : (H + 31) / 32 < 4294967296 := by omega
    unfold init_weights_binary
    rw [hwrap, hceil, c0, c1]
    simp [CircleConst.new, CircleNode.fresh, CircleNode.set_rank, CircleNode.set_dim]
    have h := wrapU32_of_lt _ hlt
    push_cast at h
    exact h
  rw [hB, hC, hD _ rfl]
  simp only [Except.ok.injEq, Prod.mk.injEq, List.append_cancel_left_eq, List.cons.injEq,
    and_true]
  unfold pass_fc_node
  simp [CircleLQFullyConnected.set_weights_binary, CircleLQFullyConnected.set_weights_scales,
    CircleLQFullyConnected.set_weights_hidden_size, CircleLQFullyConnected.set_input_scales,
    CircleLQFullyConnected.set_bias, CircleLQFullyConnected.set_input,
    CircleLQFullyConnected.set_fusedActivationFunction, CircleLQFullyConnected.new,
    CircleNode.fresh, CircleNode.set_at_node, CircleNode.set_rank, CircleNode.set_dim,
    CircleNode.dim, CircleNode.rank, hfshape]

/-- C22, at a concrete input: the fully connected node `3` of `graphOneFC`, whose weights
have the shape `[4, 5]`, with two input bits and three weight bits. -/
theorem make_lq_fully_connected_spec_witness :
    make_lq_fully_connected graphOneFC 3 2 3
      = .ok (graphOneFC ++
          [{ opcode := CircleOpcode.LQ_FULLY_CONNECTED
             name := nodeFC.name ++ "/LQFullyConnected"
             dtype := some DataType.FLOAT32
             shape := nodeFC.shape
             shape_status := ShapeStatus.VALID
             args := [CircleFullyConnected.input nodeFC, some (graphOneFC.length + 1),
               some (graphOneFC.length + 2), some (graphOneFC.length + 3),
               CircleFullyConnected.bias nodeFC]
             fusedActivationFunction := nodeFC.fusedActivationFunction
             _weights_hidden_size := (5 : Nat)
             size := 0 },
           { opcode := CircleOpcode.CIRCLECONST
             name := nodeFC.name ++ "/input_scales"
             dtype := some DataType.FLOAT32
             shape := [2]
             shape_status := ShapeStatus.VALID
             args := []
             fusedActivationFunction := FusedActFunc.UNDEFINED
             _weights_hidden_size := 0
             size := 2 },
           { opcode := CircleOpcode.CIRCLECONST
             name := nodeFC.name ++ "/weights_scales"
             dtype := some DataType.FLOAT32
             shape := [4, 3]
             shape_status := ShapeStatus.VALID
             args := []
             fusedActivationFunction := FusedActFunc.UNDEFINED
             _weights_hidden_size := 0
             size := wrapU32 (((4 : Nat) : Int) * ((3 : Nat) : Int)) },
           { opcode := CircleOpcode.CIRCLECONST
             name := nodeFC.name ++ "/weights_binary"
             dtype := some DataType.S32
             shape := [4, 3, (5 + 31) / 32]
             shape_status := ShapeStatus.VALID
             args := []
             fusedActivationFunction := FusedActFunc.UNDEFINED
             _weights_hidden_size := 0
             size := wrapU32 (((4 : Nat) : Int) * ((3 : Nat) : Int)
               * (((5 + 31) / 32 : Nat) : Int)) }],
          graphOneFC.length) :=
  make_lq_fully_connected_spec graphOneFC 3 1 nodeFC nodeWeights 4 5 2 3 rfl rfl rfl rfl rfl rfl
    (by decide)

end Prototype

/-! ## Binding the graphs: two fully connected nodes on one input -/

section Binding

open luci loco lquantizer

/-- C30 (failing input). On the graph `graphTwoFC`, in which the fully connected nodes `3`
and `6` both read the input `0`, `make_binded_lqgraph` returns with both nodes recorded in
the FP-to-LQ map, bound to the LQ nodes `9` and `13`, while the FP input map sends the
input `0` to the node `6` only and the LQ input map sends it to the node `13` only: the
second assignment `_input_node2fp_node[fp_input] = fp_fc` has overwritten the first.  An
observer built from the FP map owns a buffer for the node `6` alone, `input_data_for`
fails on its assert for the FP node `3`, an observer built from the LQ map fails for the
LQ node `9`, and the lookups of `train_input` fail. -/
theorem binding_loses_shared_input :
    ∃ q lq_g,
      Quantizer.new.make_binded_lqgraph graphTwoFC graphTwoFC orderTwoFC orderTwoFC
        = .ok (q, lq_g)
      ∧ q._fp2lq_nodes = [(3, 9), (6, 13)]
      ∧ q._input_node2fp_node = [(0, 6)]
      ∧ q._input_node2lq_node = [(0, 13)]
      ∧ (InputSavingObserver.new q._input_node2fp_node : InputSavingObserver ℚ).node2idata
          = [(6, [])]
      ∧ (InputSavingObserver.new q._input_node2fp_node : InputSavingObserver ℚ).input_data_for 3
          = .error .assertion
      ∧ (InputSavingObserver.new q._input_node2lq_node : InputSavingObserver ℚ).input_data_for 9
          = .error .assertion
      ∧ q.train_input_data (InputSavingObserver.new q._input_node2fp_node : InputSavingObserver ℚ)
          = .error .assertion :=
  ⟨_, _, rfl, rfl, rfl, rfl, rfl, rfl, rfl, rfl⟩

end Binding


end LQ
